import Mathlib

/-!
# br-ar: the brarchive codec of `src/br_ar.c`

A shallow embedding of the archive codec (byte codec, writer, and the four
reading operations) together with theorems about it.

Conventions of the embedding
* a byte (`uint8_t`, `char`) is a `Fin 256`; a buffer is a `List Byte`;
* `uint32_t` / `uint64_t` values are `Nat` with an explicit `% 2 ^ 32`
  (`% 2 ^ 64`) wherever the C code converts or can wrap;
* `size_t` is 64 bits wide; sums of sizes of objects that are live in memory
  are kept as plain `Nat` (they cannot wrap), every other `size_t` expression
  that mixes in a 32-bit field is kept below `2 ^ 64` by its operands;
* a C string (`char *`) is the list of bytes in front of its terminating NUL:
  `cstr` cuts a byte list at the first NUL, and every `str*` function of the
  source is modelled through it;
* `stdout` is a byte list, `stderr` is a list of diagnostics (`Diag`).
-/

namespace BrAr

/-! ## Definitions -/

/-- A byte of a buffer. -/
abbrev Byte := Fin 256

/-- The C conversion to `uint8_t`. -/
def u8 (x : Nat) : Byte := ⟨x % 256, Nat.mod_lt x (by decide)⟩

/-- `#define MAGIC 0x267052A0B125277DULL` -/
def MAGIC : Nat := 0x267052A0B125277D
/-- `#define ARCHIVE_VERSION 1` -/
def ARCHIVE_VERSION : Nat := 1
/-- `#define HEADER_SIZE 16` -/
def HEADER_SIZE : Nat := 16
/-- `#define ENTRY_SIZE 256` -/
def ENTRY_SIZE : Nat := 256
/-- `#define MAX_NAME_LEN 247` -/
def MAX_NAME_LEN : Nat := 247

/-- The byte `buf[i]` as a number (0 when `i` is outside the list; every caller
in the model checks the bound first or is told about the overrun). -/
def byteAt (buf : List Byte) (i : Nat) : Nat := (buf.getD i 0).val

/-- Generic `write_u32_le(buf + off, value)`: four single-byte stores. -/
def write_u32_le (buf : List Byte) (off : Nat) (value : Nat) : List Byte :=
  let buf := buf.set off (u8 (value &&& 0xFF))
  let buf := buf.set (off + 1) (u8 ((value >>> 8) &&& 0xFF))
  let buf := buf.set (off + 2) (u8 ((value >>> 16) &&& 0xFF))
  buf.set (off + 3) (u8 ((value >>> 24) &&& 0xFF))

/-- Generic `write_u64_le(buf + off, value)`: eight single-byte stores. -/
def write_u64_le (buf : List Byte) (off : Nat) (value : Nat) : List Byte :=
  let buf := buf.set off (u8 (value &&& 0xFF))
  let buf := buf.set (off + 1) (u8 ((value >>> 8) &&& 0xFF))
  let buf := buf.set (off + 2) (u8 ((value >>> 16) &&& 0xFF))
  let buf := buf.set (off + 3) (u8 ((value >>> 24) &&& 0xFF))
  let buf := buf.set (off + 4) (u8 ((value >>> 32) &&& 0xFF))
  let buf := buf.set (off + 5) (u8 ((value >>> 40) &&& 0xFF))
  let buf := buf.set (off + 6) (u8 ((value >>> 48) &&& 0xFF))
  buf.set (off + 7) (u8 ((value >>> 56) &&& 0xFF))

/-- Generic `read_u32_le(buf + off)`. Each byte is widened to `uint32_t`
before the shift, so no shift leaves 32 bits. -/
def read_u32_le (buf : List Byte) (off : Nat) : Nat :=
  byteAt buf off |||
  (byteAt buf (off + 1) <<< 8) |||
  (byteAt buf (off + 2) <<< 16) |||
  (byteAt buf (off + 3) <<< 24)

/-- Generic `read_u64_le(buf + off)`. -/
def read_u64_le (buf : List Byte) (off : Nat) : Nat :=
  byteAt buf off |||
  (byteAt buf (off + 1) <<< 8) |||
  (byteAt buf (off + 2) <<< 16) |||
  (byteAt buf (off + 3) <<< 24) |||
  (byteAt buf (off + 4) <<< 32) |||
  (byteAt buf (off + 5) <<< 40) |||
  (byteAt buf (off + 6) <<< 48) |||
  (byteAt buf (off + 7) <<< 56)

/-! ### C strings -/

/-- The C string stored in a `char` array holding `s` followed by a NUL: the
bytes in front of the first NUL. -/
def cstr (s : List Byte) : List Byte := s.takeWhile (fun b => b != 0)

/-- `strlen(s)` -/
def strlen (s : List Byte) : Nat := (cstr s).length

/-- `strcmp(a, b) == 0` -/
def strcmp_eq (a b : List Byte) : Bool := cstr a == cstr b

/-- Index of the last occurrence of `c` in a byte list. -/
def lastIndexOf (c : Byte) : List Byte → Option Nat
  | [] => none
  | b :: bs =>
    match lastIndexOf c bs with
    | some i => some (i + 1)
    | none => if b = c then some 0 else none

/-- `strrchr(s, c)` for `c != 0`: the offset of the last `c` of the C string,
`none` for a NULL result. -/
def strrchr (s : List Byte) (c : Byte) : Option Nat := lastIndexOf c (cstr s)

/-- The character `'/'`. -/
def SLASH : Byte := 47

/-- The character `'\n'`. -/
def NEWLINE : Byte := 10

/-- `p ? p + 1 : s` with `p = strrchr(s, '/')`, as computed for both the stored
name (`name_to_match`) and the filter (`filter_to_match`). -/
def to_match (s : List Byte) : List Byte :=
  match strrchr s SLASH with
  | some i => (cstr s).drop (i + 1)
  | none => cstr s

/-- The filter loop of `list_archive` (lines 809-824). -/
def should_list (name : List Byte) (file_filter : List (List Byte)) : Bool :=
  if file_filter.length > 0 then
    file_filter.any (fun f => strcmp_eq (to_match name) (to_match f))
  else true

/-- The filter loop of `extract_archive` (lines 594-609). -/
def should_extract (name : List Byte) (file_filter : List (List Byte)) : Bool :=
  if file_filter.length > 0 then
    file_filter.any (fun f => strcmp_eq (to_match name) (to_match f))
  else true

/-- The filter loop of `print_archive` (lines 723-738). -/
def should_print (name : List Byte) (file_filter : List (List Byte)) : Bool :=
  if file_filter.length > 0 then
    file_filter.any (fun f => strcmp_eq (to_match name) (to_match f))
  else true

/-- The match loop of `delete_from_archive` (lines 921-932): exact `strcmp`. -/
def should_delete (name : List Byte) (files_to_delete : List (List Byte)) : Bool :=
  files_to_delete.any (fun f => strcmp_eq name f)

/-! ### Memory -/

/-- `memcpy(buf + off, src, src.length)` as single-byte stores. -/
def memcpy : List Byte → Nat → List Byte → List Byte
  | buf, _, [] => buf
  | buf, off, x :: xs => memcpy (buf.set off x) (off + 1) xs

/-- The `n` bytes at `buf + off` (a read the caller has checked to be in range). -/
def slice (buf : List Byte) (off n : Nat) : List Byte := (buf.drop off).take n

/-! ### The in-memory file list and the writer -/

/-- One slot of `struct file_list`: `names[i]` and `contents[i]`, with
`sizes[i] = contents.length`. -/
structure FileEntry where
  name : List Byte
  contents : List Byte
  deriving DecidableEq, Repr

/-- The descriptor loop of the writer (lines 490-503, and 1010-1023). -/
def write_entries : List FileEntry → List Byte → Nat → Nat → Nat → List Byte
  | [], archive, _, _, _ => archive
  | f :: fs, archive, entry_offset, data_pos, data_offset =>
    let name_len := strlen f.name % 256
    let archive := archive.set entry_offset (u8 name_len)
    let archive := memcpy archive (entry_offset + 1) ((cstr f.name).take name_len)
    let archive := write_u32_le archive (entry_offset + 248) ((data_pos - data_offset) % 2 ^ 32)
    let archive := write_u32_le archive (entry_offset + 252) (f.contents.length % 2 ^ 32)
    write_entries fs archive (entry_offset + ENTRY_SIZE) (data_pos + f.contents.length) data_offset

/-- The content loop of the writer (lines 506-510, and 1026-1030). -/
def write_contents : List FileEntry → List Byte → Nat → List Byte
  | [], archive, _ => archive
  | f :: fs, archive, data_pos =>
    write_contents fs (memcpy archive data_pos f.contents) (data_pos + f.contents.length)

/-- The loop `total_data_size += files.sizes[i]` (lines 467-469, 987-989). -/
def total_data_size : List FileEntry → Nat
  | [] => 0
  | f :: fs => f.contents.length + total_data_size fs

/-- The writer: lines 461-510 of `create_archive`, repeated verbatim as lines
982-1030 of `delete_from_archive`. Returns the buffer handed to `write_file`. -/
def serialize (files : List FileEntry) : List Byte :=
  let header_and_entries_size := HEADER_SIZE + ENTRY_SIZE * files.length
  let data_offset := header_and_entries_size
  let total_size := header_and_entries_size + total_data_size files
  let archive := List.replicate total_size (0 : Byte)
  let archive := write_u64_le archive 0 MAGIC
  let archive := write_u32_le archive 8 (files.length % 2 ^ 32)
  let archive := write_u32_le archive 12 ARCHIVE_VERSION
  let archive := write_entries files archive HEADER_SIZE data_offset data_offset
  write_contents files archive data_offset

/-! ### Diagnostics and results -/

/-- The messages written to `stderr`. -/
inductive Diag where
  /-- "Archive too small" -/
  | tooSmall
  /-- "Invalid magic number", with the value where the message prints it -/
  | invalidMagic (shown : Option Nat)
  /-- "Unsupported version: %u" -/
  | unsupportedVersion (version : Nat)
  /-- "Failed to create directory: %s" -/
  | mkdirFailed
  /-- "Archive corrupted: entry %u out of bounds" -/
  | entryOutOfBounds (i : Nat)
  /-- "Invalid name length in entry %u" -/
  | invalidNameLength (i : Nat)
  /-- "Archive corrupted: file %s out of bounds" -/
  | fileOutOfBounds (name : List Byte)
  /-- "Failed to write file: %s" -/
  | writeFailed (path : List Byte)
  /-- "Warning: Invalid entry, skipping: %s" -/
  | invalidEntry (name : List Byte)
  /-- "No files deleted (files not found in archive)" -/
  | noFilesDeleted
  /-- "Warning: All files deleted, archive will be empty" -/
  | allFilesDeleted
  /-- "No files found in directory: %s" -/
  | noFilesFound
  deriving DecidableEq, Repr

/-- `#define OPT_C 0x01` -/
def OPT_C : Nat := 0x01
/-- `#define OPT_V 0x02` -/
def OPT_V : Nat := 0x02

/-- `PATH_MAX` (4096 unless the platform headers say otherwise). -/
def PATH_MAX : Nat := 4096

/-- Result of `list_archive` and of `print_archive`. -/
structure Output where
  ret : Bool
  stdout : List Byte
  stderr : List Diag
  deriving DecidableEq, Repr

/-- The filesystem as far as `extract_archive` depends on it. The `stat` and
`mkdir` calls that prepare parent directories only act on the filesystem and
leave `output_path` as it was; they are not recorded. -/
structure Fs where
  /-- `stat(dir_path)` succeeds, or `mkdir(dir_path)` does -/
  dir_ready : Bool
  /-- whether `write_file(path, data)` succeeds -/
  write_ok : List Byte → List Byte → Bool

/-- Result of `extract_archive`: `writes` lists the `write_file` calls made, as
(output path, bytes), in order. -/
structure Extracted where
  ret : Bool
  writes : List (List Byte × List Byte)
  stdout : List Byte
  stderr : List Diag
  deriving DecidableEq, Repr

/-! ### list_archive -/

/-- The loop of `list_archive` (lines 791-831), started at entry `i` with `n`
entries to go; gives what it prints to `stdout` and `stderr`. -/
def list_entries (archive_data : List Byte) (file_filter : List (List Byte)) :
    Nat → Nat → Nat → List Byte × List Diag
  | 0, _, _ => ([], [])
  | n + 1, i, entry_offset =>
    if entry_offset + ENTRY_SIZE > archive_data.length then
      ([], [Diag.entryOutOfBounds i])
    else
      let name_len := byteAt archive_data entry_offset
      let rest := list_entries archive_data file_filter n (i + 1) (entry_offset + ENTRY_SIZE)
      if name_len > MAX_NAME_LEN then
        (rest.1, Diag.invalidNameLength i :: rest.2)
      else
        let name := slice archive_data (entry_offset + 1) name_len
        if should_list name file_filter then
          (cstr name ++ [NEWLINE] ++ rest.1, rest.2)
        else rest

/-- `list_archive` on the bytes `read_file` returned (lines 771-834). -/
def list_archive (archive_data : List Byte) (file_filter : List (List Byte)) : Output :=
  if archive_data.length < HEADER_SIZE then
    { ret := false, stdout := [], stderr := [Diag.tooSmall] }
  else
    let magic := read_u64_le archive_data 0
    if magic ≠ MAGIC then
      { ret := false, stdout := [], stderr := [Diag.invalidMagic (some magic)] }
    else
      let entries := read_u32_le archive_data 8
      let r := list_entries archive_data file_filter entries 0 HEADER_SIZE
      { ret := true, stdout := r.1, stderr := r.2 }

/-! ### print_archive -/

/-- `HEADER_SIZE + (ENTRY_SIZE * entries)` with `entries` a `uint32_t`: both
constants are `int`, so the product and the sum are computed in 32-bit unsigned
arithmetic before the result is widened to `size_t` (lines 572, 702, 904). -/
def data_block_start (entries : Nat) : Nat :=
  (HEADER_SIZE + (ENTRY_SIZE * entries) % 2 ^ 32) % 2 ^ 32

/-- The loop of `print_archive` (lines 705-756). -/
def print_entries (archive_data : List Byte) (file_filter : List (List Byte))
    (data_block_start : Nat) : Nat → Nat → Nat → List Byte × List Diag
  | 0, _, _ => ([], [])
  | n + 1, i, entry_offset =>
    if entry_offset + ENTRY_SIZE > archive_data.length then
      ([], [Diag.entryOutOfBounds i])
    else
      let name_len := byteAt archive_data entry_offset
      let rest :=
        print_entries archive_data file_filter data_block_start n (i + 1) (entry_offset + ENTRY_SIZE)
      if name_len > MAX_NAME_LEN then
        (rest.1, Diag.invalidNameLength i :: rest.2)
      else
        let name := slice archive_data (entry_offset + 1) name_len
        if should_print name file_filter then
          let contents_offset := read_u32_le archive_data (entry_offset + 248)
          let contents_len := read_u32_le archive_data (entry_offset + 252)
          let actual_offset := data_block_start + contents_offset
          if actual_offset + contents_len > archive_data.length then
            (rest.1, Diag.fileOutOfBounds (cstr name) :: rest.2)
          else
            (slice archive_data actual_offset contents_len ++ rest.1, rest.2)
        else rest

/-- `print_archive` on the bytes `read_file` returned (lines 684-759). -/
def print_archive (archive_data : List Byte) (file_filter : List (List Byte)) : Output :=
  if archive_data.length < HEADER_SIZE then
    { ret := false, stdout := [], stderr := [Diag.tooSmall] }
  else
    let magic := read_u64_le archive_data 0
    if magic ≠ MAGIC then
      { ret := false, stdout := [], stderr := [Diag.invalidMagic (some magic)] }
    else
      let entries := read_u32_le archive_data 8
      let r := print_entries archive_data file_filter (data_block_start entries) entries 0 HEADER_SIZE
      { ret := true, stdout := r.1, stderr := r.2 }

/-! ### extract_archive -/

/-- Bytes of the verbose line `"x - %s\n"`. -/
def verbose_x (name : List Byte) : List Byte := [120, 32, 45, 32] ++ cstr name ++ [NEWLINE]

/-- Bytes of the verbose line `"d - %s\n"`. -/
def verbose_d (name : List Byte) : List Byte := [100, 32, 45, 32] ++ cstr name ++ [NEWLINE]

/-- The `snprintf` calls that build `output_path` (lines 628-634); `snprintf`
keeps at most `PATH_MAX - 1` characters. -/
def output_path (dir_path : Option (List Byte)) (name : List Byte) : List Byte :=
  match dir_path with
  | some d => (cstr d ++ [SLASH] ++ cstr name).take (PATH_MAX - 1)
  | none => (cstr name).take (PATH_MAX - 1)

/-- The loop of `extract_archive` (lines 575-669). -/
def extract_entries (fs : Fs) (archive_data : List Byte) (dir_path : Option (List Byte))
    (file_filter : List (List Byte)) (options : Nat) (data_block_start : Nat) :
    Nat → Nat → Nat → Extracted
  | 0, _, _ => { ret := true, writes := [], stdout := [], stderr := [] }
  | n + 1, i, entry_offset =>
    if entry_offset + ENTRY_SIZE > archive_data.length then
      { ret := false, writes := [], stdout := [], stderr := [Diag.entryOutOfBounds i] }
    else
      let name_len := byteAt archive_data entry_offset
      let rest :=
        extract_entries fs archive_data dir_path file_filter options data_block_start n (i + 1)
          (entry_offset + ENTRY_SIZE)
      if name_len > MAX_NAME_LEN then
        { rest with stderr := Diag.invalidNameLength i :: rest.stderr }
      else
        let name := slice archive_data (entry_offset + 1) name_len
        if !should_extract name file_filter then rest
        else
          let contents_offset := read_u32_le archive_data (entry_offset + 248)
          let contents_len := read_u32_le archive_data (entry_offset + 252)
          let actual_offset := data_block_start + contents_offset
          if actual_offset + contents_len > archive_data.length then
            { rest with stderr := Diag.fileOutOfBounds (cstr name) :: rest.stderr }
          else
            let path := output_path dir_path name
            let bytes := slice archive_data actual_offset contents_len
            if !fs.write_ok path bytes then
              { rest with writes := (path, bytes) :: rest.writes,
                          stderr := Diag.writeFailed path :: rest.stderr }
            else
              { rest with writes := (path, bytes) :: rest.writes,
                          stdout := (if options &&& OPT_V ≠ 0 then verbose_x name else [])
                                      ++ rest.stdout }

/-- `extract_archive` on the bytes `read_file` returned (lines 535-672). -/
def extract_archive (fs : Fs) (archive_data : List Byte) (dir_path : Option (List Byte))
    (file_filter : List (List Byte)) (options : Nat) : Extracted :=
  if archive_data.length < HEADER_SIZE then
    { ret := false, writes := [], stdout := [], stderr := [Diag.tooSmall] }
  else
    let magic := read_u64_le archive_data 0
    if magic ≠ MAGIC then
      { ret := false, writes := [], stdout := [], stderr := [Diag.invalidMagic (some magic)] }
    else
      let entries := read_u32_le archive_data 8
      let version := read_u32_le archive_data 12
      if version ≠ ARCHIVE_VERSION then
        { ret := false, writes := [], stdout := [], stderr := [Diag.unsupportedVersion version] }
      else if dir_path.isSome && !fs.dir_ready then
        { ret := false, writes := [], stdout := [], stderr := [Diag.mkdirFailed] }
      else
        extract_entries fs archive_data dir_path file_filter options (data_block_start entries)
          entries 0 HEADER_SIZE

/-! ### delete_from_archive -/

/-- Capacity that `file_list_init` gives a fresh list (line 336); the kept list
of `delete_from_archive` is filled without `file_list_add` and never grows. -/
def FILE_LIST_CAPACITY : Nat := 16

/-- `INT_MAX` for the `int deleted_count`. -/
def INT_MAX : Nat := 2 ^ 31 - 1

/-- The object `read_file` allocates: the file's bytes and one NUL after them
(lines 302-316). Reading `archive_data[archive_size]` is therefore defined;
reading further is not. -/
def read_file_buffer (archive_data : List Byte) : List Byte := archive_data ++ [0]

/-- State of the loop of `delete_from_archive`. -/
structure DelState where
  files : List FileEntry
  deleted_count : Nat
  stdout : List Byte
  stderr : List Diag
  deriving DecidableEq, Repr

/-- The loop of `delete_from_archive` (lines 908-967). The loop has no bounds
check on the descriptor and none on the capacity of the kept list; `none`
stands for a run that leaves defined behaviour: a read outside the object
`read_file` allocated, a store into the kept list at an index at or beyond its
capacity, or an overflow of the `int` counter. Allocations are taken to
succeed, `malloc(0)` returning a non-null pointer. -/
def delete_entries (archive_data : List Byte) (files_to_delete : List (List Byte))
    (options : Nat) (data_block_start : Nat) : Nat → Nat → DelState → Option DelState
  | 0, _, st => some st
  | n + 1, entry_offset, st =>
    let mem := read_file_buffer archive_data
    if entry_offset ≥ mem.length then none
    else
      let name_len := byteAt mem entry_offset
      if name_len > MAX_NAME_LEN then
        delete_entries archive_data files_to_delete options data_block_start n
          (entry_offset + ENTRY_SIZE) st
      else if entry_offset + 1 + name_len > mem.length then none
      else
        let name := slice mem (entry_offset + 1) name_len
        if should_delete name files_to_delete then
          if st.deleted_count + 1 > INT_MAX then none
          else
            delete_entries archive_data files_to_delete options data_block_start n
              (entry_offset + ENTRY_SIZE)
              { st with deleted_count := st.deleted_count + 1,
                        stdout := st.stdout ++ (if options &&& OPT_V ≠ 0 then verbose_d name else []) }
        else if entry_offset + ENTRY_SIZE > mem.length then none
        else
          let contents_offset := read_u32_le mem (entry_offset + 248)
          let contents_len := read_u32_le mem (entry_offset + 252)
          let actual_offset := data_block_start + contents_offset
          if actual_offset + contents_len > archive_data.length then
            delete_entries archive_data files_to_delete options data_block_start n
              (entry_offset + ENTRY_SIZE)
              { st with stderr := st.stderr ++ [Diag.invalidEntry (cstr name)] }
          else if st.files.length ≥ FILE_LIST_CAPACITY then none
          else
            delete_entries archive_data files_to_delete options data_block_start n
              (entry_offset + ENTRY_SIZE)
              { st with files := st.files ++
                  [{ name := cstr name, contents := slice mem actual_offset contents_len }] }

/-- Result of `delete_from_archive`: `written` holds the buffer handed to
`write_file` for the archive path, `none` when the archive is not touched. -/
structure Deleted where
  ret : Bool
  written : Option (List Byte)
  stdout : List Byte
  stderr : List Diag
  deriving DecidableEq, Repr

/-- `delete_from_archive` on the bytes `read_file` returned (lines 877-1037);
`write_ok` is the result of the final `write_file`. `none`: the loop left
defined behaviour (see `delete_entries`). -/
def delete_from_archive (archive_data : List Byte) (files_to_delete : List (List Byte))
    (options : Nat) (write_ok : Bool) : Option Deleted :=
  if archive_data.length < HEADER_SIZE then
    some { ret := false, written := none, stdout := [], stderr := [Diag.tooSmall] }
  else
    let magic := read_u64_le archive_data 0
    if magic ≠ MAGIC then
      some { ret := false, written := none, stdout := [], stderr := [Diag.invalidMagic none] }
    else
      let entries := read_u32_le archive_data 8
      let version := read_u32_le archive_data 12
      if version ≠ ARCHIVE_VERSION then
        some { ret := false, written := none, stdout := [],
               stderr := [Diag.unsupportedVersion version] }
      else
        match delete_entries archive_data files_to_delete options (data_block_start entries)
            entries HEADER_SIZE { files := [], deleted_count := 0, stdout := [], stderr := [] } with
        | none => none
        | some st =>
          if st.deleted_count = 0 then
            some { ret := false, written := none, stdout := st.stdout,
                   stderr := st.stderr ++ [Diag.noFilesDeleted] }
          else
            some { ret := write_ok, written := some (serialize st.files), stdout := st.stdout,
                   stderr := st.stderr ++
                     (if st.files.length = 0 then [Diag.allFilesDeleted] else []) }

/-! ### create_archive -/

/-- Result of `create_archive`: `written` is the buffer handed to `write_file`,
`announced` the file count of the "Created archive" line when it is printed. -/
structure Created where
  ret : Bool
  written : Option (List Byte)
  announced : Option Nat
  stderr : List Diag
  deriving DecidableEq, Repr

/-- `create_archive` from the list that `collect_files_recursive` filled (lines
455-523); `write_ok` is the result of `write_file`. -/
def create_archive (files : List FileEntry) (options : Nat) (write_ok : Bool) : Created :=
  if files.length = 0 then
    { ret := false, written := none, announced := none, stderr := [Diag.noFilesFound] }
  else
    { ret := write_ok, written := some (serialize files),
      announced := if write_ok && options &&& OPT_C = 0 then some files.length else none,
      stderr := [] }

/-! ### The layout in the words of the specification -/

/-- A 32-bit value as four bytes, least significant first. -/
def le32 (v : Nat) : List Byte :=
  [u8 v, u8 (v / 2 ^ 8), u8 (v / 2 ^ 16), u8 (v / 2 ^ 24)]

/-- A 64-bit value as eight bytes, least significant first. -/
def le64 (v : Nat) : List Byte :=
  [u8 v, u8 (v / 2 ^ 8), u8 (v / 2 ^ 16), u8 (v / 2 ^ 24),
   u8 (v / 2 ^ 32), u8 (v / 2 ^ 40), u8 (v / 2 ^ 48), u8 (v / 2 ^ 56)]

/-- The 16-byte header of the file format: magic, entry count, version. -/
def spec_header (entry_count : Nat) : List Byte :=
  le64 0x267052A0B125277D ++ le32 entry_count ++ le32 1

/-- The 256-byte entry descriptor of the file format: the length byte, the
name, zero padding up to offset 248, content offset, content length. -/
def spec_descriptor (name : List Byte) (content_offset content_length : Nat) : List Byte :=
  [u8 name.length] ++ name ++ List.replicate (247 - name.length) 0
    ++ le32 content_offset ++ le32 content_length

/-- The descriptors of a list of entries, the first content offset being
`content_offset`, each later one the running sum of the lengths before it. -/
def spec_descriptors : List FileEntry → Nat → List (List Byte)
  | [], _ => []
  | f :: fs, content_offset =>
    spec_descriptor (cstr f.name) content_offset f.contents.length
      :: spec_descriptors fs (content_offset + f.contents.length)

/-- The data block of the file format: the contents back to back. -/
def spec_data_block (files : List FileEntry) : List Byte :=
  (files.map (fun f => f.contents)).flatten

/-- Sum of the content lengths of the entries in front of entry `i`. -/
def offset_of (files : List FileEntry) (i : Nat) : Nat :=
  ((files.take i).map (fun f => f.contents.length)).sum

/-- The basename in the words of the specification: the part of a name after
its last `'/'`, or the whole name when it has none. -/
def basename (s : List Byte) : List Byte :=
  (s.reverse.takeWhile (fun b => b != SLASH)).reverse

/-! ### Concrete inputs used by the examples -/

/-- An archive with a correct magic, one entry `a` holding `hi`, and the
version field set to 2. -/
def version2_archive : List Byte :=
  [125, 39, 37, 177, 160, 82, 112, 38, 1, 0, 0, 0, 2, 0, 0, 0]
    ++ [1, 97] ++ List.replicate 246 0 ++ [0, 0, 0, 0, 2, 0, 0, 0]
    ++ [104, 105]

/-- The name `dir/b.txt`. -/
def name_dir_b : List Byte := [100, 105, 114, 47, 98, 46, 116, 120, 116]

/-- The name `other/b.txt`. -/
def name_other_b : List Byte := [111, 116, 104, 101, 114, 47, 98, 46, 116, 120, 116]

/-- The name `b.txt`. -/
def name_b : List Byte := [98, 46, 116, 120, 116]

/-- The name `x/b.txt`. -/
def name_x_b : List Byte := [120, 47, 98, 46, 116, 120, 116]

/-- The file list `dir/b.txt` (content `1`), `other/b.txt` (content `2`),
`c.txt` (content `3`). -/
def two_b_files : List FileEntry :=
  [⟨name_dir_b, [49]⟩, ⟨name_other_b, [50]⟩, ⟨[99, 46, 116, 120, 116], [51]⟩]

/-- A file list of `2^32` entries, each with the empty name and no content. -/
def many_empty_files : List FileEntry := List.replicate (2 ^ 32) ⟨[], []⟩

/-- A filesystem on which every call succeeds. -/
def fs_ok : Fs := ⟨true, fun _ _ => true⟩

/-! ### The stored entries of a buffer, in the words of the specification -/

/-- Name-length byte of descriptor `i`. -/
def entry_name_len (data : List Byte) (i : Nat) : Nat := byteAt data (16 + 256 * i)

/-- Name bytes of descriptor `i`: the `name_len` bytes after the length byte. -/
def entry_name_bytes (data : List Byte) (i : Nat) : List Byte :=
  slice data (16 + 256 * i + 1) (entry_name_len data i)

/-- Name of descriptor `i` as the C string the operations work with. -/
def entry_name (data : List Byte) (i : Nat) : List Byte := cstr (entry_name_bytes data i)

/-- The `content_offset` field of descriptor `i`. -/
def entry_content_offset (data : List Byte) (i : Nat) : Nat :=
  read_u32_le data (16 + 256 * i + 248)

/-- The `content_length` field of descriptor `i`. -/
def entry_content_length (data : List Byte) (i : Nat) : Nat :=
  read_u32_le data (16 + 256 * i + 252)

/-- Descriptor `i`'s content range lies inside the buffer, the data block
starting at `16 + 256 * count`. -/
def entry_in_range (data : List Byte) (count i : Nat) : Prop :=
  16 + 256 * count + entry_content_offset data i + entry_content_length data i ≤ data.length

instance (data : List Byte) (count i : Nat) : Decidable (entry_in_range data count i) := by
  unfold entry_in_range
  exact inferInstance

/-- Content bytes of descriptor `i`. -/
def entry_content (data : List Byte) (count i : Nat) : List Byte :=
  slice data (16 + 256 * count + entry_content_offset data i) (entry_content_length data i)

/-- Entry `i` is named by the delete list (names compared as C strings). -/
def entry_deleted (data : List Byte) (files_to_delete : List (List Byte)) (i : Nat) : Prop :=
  entry_name_len data i ≤ 247 ∧ entry_name data i ∈ files_to_delete.map cstr

instance (data : List Byte) (files_to_delete : List (List Byte)) (i : Nat) :
    Decidable (entry_deleted data files_to_delete i) := by
  unfold entry_deleted
  exact inferInstance

/-- Entry `i` as a member of the kept set: its name length is at most 247, no
name of the delete list equals its name, and its content range lies inside the
buffer. -/
def kept_entry (data : List Byte) (files_to_delete : List (List Byte)) (count i : Nat) :
    Option FileEntry :=
  if entry_name_len data i ≤ 247 ∧ entry_name data i ∉ files_to_delete.map cstr
      ∧ entry_in_range data count i then
    some ⟨entry_name data i, entry_content data count i⟩
  else none

/-- The kept set of a delete: the kept entries in stored order. -/
def kept_set (data : List Byte) (files_to_delete : List (List Byte)) : List FileEntry :=
  (List.range (read_u32_le data 8)).filterMap
    (kept_entry data files_to_delete (read_u32_le data 8))

/-- A valid archive with one entry `a` holding `hi`. -/
def one_entry_archive : List Byte :=
  [125, 39, 37, 177, 160, 82, 112, 38, 1, 0, 0, 0, 1, 0, 0, 0]
    ++ [1, 97] ++ List.replicate 246 0 ++ [0, 0, 0, 0, 2, 0, 0, 0]
    ++ [104, 105]

/-- An archive with one entry whose three name bytes are `a`, NUL, `b`, holding
the content `1`. -/
def nul_name_archive : List Byte :=
  [125, 39, 37, 177, 160, 82, 112, 38, 1, 0, 0, 0, 1, 0, 0, 0]
    ++ [3, 97, 0, 98] ++ List.replicate 244 0 ++ [0, 0, 0, 0, 1, 0, 0, 0]
    ++ [49]

/-- An archive with two entries: one whose three name bytes are `a`, NUL, `b`
(content `1`), and one named `x` (content `2`). -/
def nul_name_and_x_archive : List Byte :=
  [125, 39, 37, 177, 160, 82, 112, 38, 2, 0, 0, 0, 1, 0, 0, 0]
    ++ [3, 97, 0, 98] ++ List.replicate 244 0 ++ [0, 0, 0, 0, 1, 0, 0, 0]
    ++ [1, 120] ++ List.replicate 246 0 ++ [1, 0, 0, 0, 1, 0, 0, 0]
    ++ [49, 50]

/-! ### What the readers emit, in the words of the specification -/

/-- Number of complete 256-byte descriptors that fit in a buffer behind its
16-byte header. -/
def descriptors_held (data : List Byte) : Nat := (data.length - 16) / 256

/-- The filter of list, extract and print: an empty filter list selects every
name, otherwise a name is selected when its basename is the basename of some
filter. -/
def selected (file_filter : List (List Byte)) (name : List Byte) : Prop :=
  file_filter = [] ∨ ∃ f ∈ file_filter, basename (cstr f) = basename name

instance (file_filter : List (List Byte)) (name : List Byte) :
    Decidable (selected file_filter name) := by
  unfold selected
  exact inferInstance

/-- The line entry `i` contributes to a listing: its name and a newline when
its name length is at most 247 and the filter selects it, nothing otherwise. -/
def list_line (data : List Byte) (file_filter : List (List Byte)) (i : Nat) : List Byte :=
  if entry_name_len data i ≤ 247 ∧ selected file_filter (entry_name data i) then
    entry_name data i ++ [NEWLINE]
  else []

/-- The content slice entry `i` contributes when the data block starts at
`block_start`: present when the name length is at most 247, the filter selects
the name and the slice lies inside the buffer. -/
def content_piece (data : List Byte) (file_filter : List (List Byte)) (block_start i : Nat) :
    Option (List Byte) :=
  if entry_name_len data i ≤ 247 ∧ selected file_filter (entry_name data i)
      ∧ block_start + entry_content_offset data i + entry_content_length data i
          ≤ data.length then
    some (slice data (block_start + entry_content_offset data i) (entry_content_length data i))
  else none

/-- The `write_file` call entry `i` gives rise to in an extraction. -/
def extract_piece (data : List Byte) (dir_path : Option (List Byte))
    (file_filter : List (List Byte)) (block_start i : Nat) : Option (List Byte × List Byte) :=
  (content_piece data file_filter block_start i).map
    (fun c => (output_path dir_path (entry_name data i), c))

/-- A file list with one entry whose name is 248 bytes long (`a` repeated),
holding the content `1`. -/
def long_name_files : List FileEntry := [⟨List.replicate 248 97, [49]⟩]

/-- The bytes of the last `write_file` call made for `path`: what the file
holds afterwards when the calls succeed. -/
def last_write (writes : List (List Byte × List Byte)) (path : List Byte) :
    Option (List Byte) :=
  ((writes.filter (fun w => w.1 = path)).getLast?).map (fun w => w.2)

/-- A file list with two entries named `a`, holding `1` and `2`. -/
def duplicate_files : List FileEntry := [⟨[97], [49]⟩, ⟨[97], [50]⟩]

/-- A 16-byte buffer: correct magic, entry count 1, version 1, and no
descriptor behind the header. -/
def truncated_archive : List Byte :=
  [125, 39, 37, 177, 160, 82, 112, 38, 1, 0, 0, 0, 1, 0, 0, 0]

/-! ### Skip-and-continue references for list and print -/

/-- The loop of `list_archive` with the out-of-bounds case changed from `break`
to skip-and-continue: every index below the entry count is visited, and a
descriptor that is not inside the buffer is ignored (with its diagnostic). -/
def list_entries_reference (archive_data : List Byte) (file_filter : List (List Byte)) :
    Nat → Nat → Nat → List Byte × List Diag
  | 0, _, _ => ([], [])
  | n + 1, i, entry_offset =>
    let rest :=
      list_entries_reference archive_data file_filter n (i + 1) (entry_offset + ENTRY_SIZE)
    if entry_offset + ENTRY_SIZE > archive_data.length then
      (rest.1, Diag.entryOutOfBounds i :: rest.2)
    else
      let name_len := byteAt archive_data entry_offset
      if name_len > MAX_NAME_LEN then
        (rest.1, Diag.invalidNameLength i :: rest.2)
      else
        let name := slice archive_data (entry_offset + 1) name_len
        if should_list name file_filter then
          (cstr name ++ [NEWLINE] ++ rest.1, rest.2)
        else rest

/-- The skip-and-continue reference for `list_archive`. -/
def list_archive_reference (archive_data : List Byte) (file_filter : List (List Byte)) :
    Output :=
  if archive_data.length < HEADER_SIZE then
    { ret := false, stdout := [], stderr := [Diag.tooSmall] }
  else
    let magic := read_u64_le archive_data 0
    if magic ≠ MAGIC then
      { ret := false, stdout := [], stderr := [Diag.invalidMagic (some magic)] }
    else
      let entries := read_u32_le archive_data 8
      let r := list_entries_reference archive_data file_filter entries 0 HEADER_SIZE
      { ret := true, stdout := r.1, stderr := r.2 }

/-- The loop of `print_archive` with the out-of-bounds case changed from
`break` to skip-and-continue. -/
def print_entries_reference (archive_data : List Byte) (file_filter : List (List Byte))
    (data_block_start : Nat) : Nat → Nat → Nat → List Byte × List Diag
  | 0, _, _ => ([], [])
  | n + 1, i, entry_offset =>
    let rest :=
      print_entries_reference archive_data file_filter data_block_start n (i + 1)
        (entry_offset + ENTRY_SIZE)
    if entry_offset + ENTRY_SIZE > archive_data.length then
      (rest.1, Diag.entryOutOfBounds i :: rest.2)
    else
      let name_len := byteAt archive_data entry_offset
      if name_len > MAX_NAME_LEN then
        (rest.1, Diag.invalidNameLength i :: rest.2)
      else
        let name := slice archive_data (entry_offset + 1) name_len
        if should_print name file_filter then
          let contents_offset := read_u32_le archive_data (entry_offset + 248)
          let contents_len := read_u32_le archive_data (entry_offset + 252)
          let actual_offset := data_block_start + contents_offset
          if actual_offset + contents_len > archive_data.length then
            (rest.1, Diag.fileOutOfBounds (cstr name) :: rest.2)
          else
            (slice archive_data actual_offset contents_len ++ rest.1, rest.2)
        else rest

/-- The skip-and-continue reference for `print_archive`. -/
def print_archive_reference (archive_data : List Byte) (file_filter : List (List Byte)) :
    Output :=
  if archive_data.length < HEADER_SIZE then
    { ret := false, stdout := [], stderr := [Diag.tooSmall] }
  else
    let magic := read_u64_le archive_data 0
    if magic ≠ MAGIC then
      { ret := false, stdout := [], stderr := [Diag.invalidMagic (some magic)] }
    else
      let entries := read_u32_le archive_data 8
      let r := print_entries_reference archive_data file_filter (data_block_start entries)
        entries 0 HEADER_SIZE
      { ret := true, stdout := r.1, stderr := r.2 }

/-- An archive of two entries: the first with the name-length byte 250, the
second named `b` with the content `2`. -/
def bad_length_archive : List Byte :=
  [125, 39, 37, 177, 160, 82, 112, 38, 2, 0, 0, 0, 1, 0, 0, 0]
    ++ [250, 97] ++ List.replicate 246 0 ++ [0, 0, 0, 0, 1, 0, 0, 0]
    ++ [1, 98] ++ List.replicate 246 0 ++ [1, 0, 0, 0, 1, 0, 0, 0]
    ++ [49, 50]

/-- The valid archive without entries: magic, entry count 0, version 1. -/
def empty_archive : List Byte :=
  [125, 39, 37, 177, 160, 82, 112, 38, 0, 0, 0, 0, 1, 0, 0, 0]

/-- Eight letters `a` .. `p` spelling the number `i` in base 16: a file name. -/
def numbered_name (i : Nat) : List Byte :=
  (List.range 8).map (fun k => u8 (97 + i / 16 ^ k % 16))

/-- A file list of `2^32` empty files with the distinct names `numbered_name i`. -/
def many_numbered_files : List FileEntry :=
  (List.range (2 ^ 32)).map (fun i => ⟨numbered_name i, []⟩)

/-! ### Collecting the files of a directory -/

mutual
/-- What `stat` reports for a directory entry, with what lies behind it. The
directory tree is the one the path lookups of the traversal resolve to: the
traversal is handed the node that `full_path` names (`full_path` fits
`PATH_MAX` for every path the operating system lets `stat` resolve). -/
inductive FsNode where
  /-- a regular file; `none` when `read_file` fails on it -/
  | file (contents : Option (List Byte))
  /-- a directory; `opens` tells whether `opendir` succeeds -/
  | dir (opens : Bool) (entries : FsEntries)
  /-- `stat` fails, or the object is neither a regular file nor a directory -/
  | other
/-- The directory entries in the order `readdir` returns them. -/
inductive FsEntries where
  | nil
  | cons (d_name : List Byte) (node : FsNode) (rest : FsEntries)
end

/-- `file_list_add` (lines 357-396): the arrays are doubled when full, name
and path are duplicated, and the entry is dropped when `read_file` fails. -/
def file_list_add (list : List FileEntry) (name : List Byte) (contents : Option (List Byte)) :
    List FileEntry :=
  match contents with
  | some c => list ++ [⟨cstr name, c⟩]
  | none => list

/-- The name built into `relative_name` and into `new_base` (lines 419-425 and
434-440): `snprintf("%s/%s")` under a base path, `strncpy` at the top level,
both keeping at most `PATH_MAX - 1` characters. -/
def relative_path (base_path : Option (List Byte)) (d_name : List Byte) : List Byte :=
  match base_path with
  | some b => (cstr b ++ [SLASH] ++ cstr d_name).take (PATH_MAX - 1)
  | none => (cstr d_name).take (PATH_MAX - 1)

mutual
/-- The body of the `readdir` loop for one entry that is neither `.` nor `..`
(lines 410-442). -/
def collect_entry (base_path : Option (List Byte)) (d_name : List Byte) :
    FsNode → List FileEntry → List FileEntry
  | .other, list => list
  | .file contents, list =>
    let relative_name := relative_path base_path d_name
    if strlen relative_name > MAX_NAME_LEN then list
    else file_list_add list relative_name contents
  | .dir opens entries, list =>
    let new_base := relative_path base_path d_name
    if opens then collect_files_recursive (some new_base) entries list else list
/-- The `readdir` loop of `collect_files_recursive` (lines 405-443) over the
entries of an opened directory. -/
def collect_files_recursive (base_path : Option (List Byte)) :
    FsEntries → List FileEntry → List FileEntry
  | .nil, list => list
  | .cons d_name node rest, list =>
    if strcmp_eq d_name [46] || strcmp_eq d_name [46, 46] then
      collect_files_recursive base_path rest list
    else
      collect_files_recursive base_path rest (collect_entry base_path d_name node list)
end

/-- The file list `create_archive` collects from the directory `dir_path`
(lines 450-453): empty when `opendir(dir_path)` fails. -/
def collect_files (root : FsNode) : List FileEntry :=
  match root with
  | .dir true entries => collect_files_recursive none entries []
  | _ => []

/-- The relative path of a directory entry, without any length limit. -/
def full_relative_path (base : Option (List Byte)) (d_name : List Byte) : List Byte :=
  match base with
  | some b => b ++ [SLASH] ++ cstr d_name
  | none => cstr d_name

mutual
/-- The regular files behind one directory entry, in traversal order, each with
its relative path and what `read_file` gives for it. -/
def regular_files_of (base : Option (List Byte)) (d_name : List Byte) :
    FsNode → List (List Byte × Option (List Byte))
  | .other => []
  | .file contents => [(full_relative_path base d_name, contents)]
  | .dir opens entries =>
    if opens then regular_files (some (full_relative_path base d_name)) entries else []
/-- The regular files below a directory, in traversal order (depth first, in
`readdir` order; `.` and `..` are not entered). -/
def regular_files (base : Option (List Byte)) :
    FsEntries → List (List Byte × Option (List Byte))
  | .nil => []
  | .cons d_name node rest =>
    if cstr d_name = [46] ∨ cstr d_name = [46, 46] then regular_files base rest
    else regular_files_of base d_name node ++ regular_files base rest
end

/-- What becomes of a regular file during collection: it is added under its
relative path when that is at most 247 bytes long and the file can be read. -/
def collected_as (file : List Byte × Option (List Byte)) : Option FileEntry :=
  if file.1.length ≤ 247 then file.2.map (fun c => ⟨file.1, c⟩) else none

/-- A directory holding a file with a 247-byte name (content `1`), a file with
a 248-byte name (content `2`), and a sub-directory `d` holding the file `z`
(content `3`). -/
def boundary_tree : FsNode :=
  .dir true
    (.cons (List.replicate 247 97) (.file (some [49]))
      (.cons (List.replicate 248 97) (.file (some [50]))
        (.cons [100] (.dir true (.cons [122] (.file (some [51])) .nil)) .nil)))

/-- An archive with one entry `a` whose content length field is 100 while the
data block holds two bytes: its content range is out of bounds. -/
def oob_content_archive : List Byte :=
  [125, 39, 37, 177, 160, 82, 112, 38, 1, 0, 0, 0, 1, 0, 0, 0]
    ++ [1, 97] ++ List.replicate 246 0 ++ [0, 0, 0, 0, 100, 0, 0, 0]
    ++ [104, 105]

/-! ### An operation run against the filesystem -/

/-- What goes to `stderr` during a run: the "Failed to read archive" message
of the callers of `read_file`, or a diagnostic of the operation itself. -/
inductive Event where
  /-- "Failed to read archive: %s" -/
  | readFailed (path : List Byte)
  | diag (d : Diag)
  deriving DecidableEq, Repr

/-- The world of a run: what `read_file` gives for each path (`none` when the
file cannot be read), and what has been written to `stdout` and `stderr`. -/
structure World where
  file : List Byte → Option (List Byte)
  stdout : List Byte
  stderr : List Event

/-- A call `list_archive(archive_path, file_filter, filter_count)` (lines
763-835): the archive is read with `read_file`; the function makes no call of
`write_file` and opens no file for writing. -/
def run_list_archive (archive_path : List Byte) (file_filter : List (List Byte)) (w : World) :
    Bool × World :=
  match w.file (cstr archive_path) with
  | none => (false, { w with stderr := w.stderr ++ [Event.readFailed (cstr archive_path)] })
  | some archive_data =>
    let o := list_archive archive_data file_filter
    (o.ret, { w with stdout := w.stdout ++ o.stdout,
                     stderr := w.stderr ++ o.stderr.map Event.diag })

/-- A world in which every path holds the one-entry archive and nothing has
been written yet. -/
def one_archive_world : World := ⟨fun _ => some one_entry_archive, [], []⟩

/-- A 272-byte buffer: correct magic, entry count 2, version 1, and one
descriptor (`a`, content offset 0, content length 0); the second declared
descriptor is missing. -/
def two_declared_one_held : List Byte :=
  [125, 39, 37, 177, 160, 82, 112, 38, 2, 0, 0, 0, 1, 0, 0, 0]
    ++ [1, 97] ++ List.replicate 246 0 ++ [0, 0, 0, 0, 0, 0, 0, 0]

/-- A 272-byte buffer: correct magic, entry count `2^24`, version 1, and one
descriptor (`a`, content offset 0, content length 1). -/
def wrapped_count_archive : List Byte :=
  [125, 39, 37, 177, 160, 82, 112, 38, 0, 0, 0, 1, 1, 0, 0, 0]
    ++ [1, 97] ++ List.replicate 246 0 ++ [0, 0, 0, 0, 1, 0, 0, 0]

/-- Eighteen empty files named `a` .. `r`. -/
def eighteen_files : List FileEntry :=
  (List.range 18).map (fun i => ⟨[u8 (97 + i)], []⟩)

/-- An archive with three entries: `x` (content `1`), `a` (content `2`) and a
second `x` (content `3`). -/
def duplicate_x_archive : List Byte :=
  [125, 39, 37, 177, 160, 82, 112, 38, 3, 0, 0, 0, 1, 0, 0, 0]
    ++ [1, 120] ++ List.replicate 246 0 ++ [0, 0, 0, 0, 1, 0, 0, 0]
    ++ [1, 97] ++ List.replicate 246 0 ++ [1, 0, 0, 0, 1, 0, 0, 0]
    ++ [1, 120] ++ List.replicate 246 0 ++ [2, 0, 0, 0, 1, 0, 0, 0]
    ++ [49, 50, 51]

/-- What deleting `x` from `duplicate_x_archive` returns: the archive of the
one entry `a`. -/
def deleted_duplicates : Deleted :=
  { ret := true, written := some (spec_header 1 ++ spec_descriptor [97] 0 1 ++ [50]),
    stdout := [], stderr := [] }

/-- The content ranges stored in the first `n` descriptors of `w` follow one
another without gap or overlap: the first starts at offset 0, each next one
starts where the one before ends, the ranges of two distinct entries are
disjoint, and every range ends inside the buffer behind the `n` descriptors. -/
def ranges_contiguous (w : List Byte) (n : Nat) : Prop :=
  (0 < n → entry_content_offset w 0 = 0) ∧
  (∀ i, i + 1 < n →
    entry_content_offset w (i + 1) = entry_content_offset w i + entry_content_length w i) ∧
  (∀ i j, i < j → j < n →
    entry_content_offset w i + entry_content_length w i ≤ entry_content_offset w j) ∧
  (∀ i, i < n →
    16 + 256 * n + entry_content_offset w i + entry_content_length w i ≤ w.length)

/-- An archive whose two entries `a` and `b` both address the same two content
bytes `hi`. -/
def overlapping_archive : List Byte :=
  [125, 39, 37, 177, 160, 82, 112, 38, 2, 0, 0, 0, 1, 0, 0, 0]
    ++ [1, 97] ++ List.replicate 246 0 ++ [0, 0, 0, 0, 2, 0, 0, 0]
    ++ [1, 98] ++ List.replicate 246 0 ++ [0, 0, 0, 0, 2, 0, 0, 0]
    ++ [104, 105]

/-- A file list of two entries: `a` holding `X` and `b` holding one byte. -/
def boundary_files (X : List Byte) : List FileEntry := [⟨[97], X⟩, ⟨[98], [1]⟩]

/-- A content of `2^32 - 1` bytes. -/
def big_content : List Byte := List.replicate (2 ^ 32 - 1) 0

/-- A file list of `2^32` one-byte files with the distinct names
`numbered_name i`, each holding the byte `1`. -/
def many_one_byte_files : List FileEntry :=
  (List.range (2 ^ 32)).map (fun i => ⟨numbered_name i, [49]⟩)

/-! ## Theorems -/

theorem byteAt_lt (buf : List Byte) (i : Nat) : byteAt buf i < 256 :=
  (buf.getD i 0).isLt

theorem u8_val (x : Nat) : (u8 x).val = x % 256 := rfl

theorem and_ff (x : Nat) : x &&& 0xFF = x % 256 :=
  Nat.and_pow_two_sub_one_eq_mod x 8

theorem byteAt_set (buf : List Byte) (i j : Nat) (b : Byte) :
    byteAt (buf.set i b) j = if i = j ∧ i < buf.length then b.val else byteAt buf j := by
  unfold byteAt
  simp only [List.getD_eq_getElem?_getD, List.getElem?_set]
  by_cases h : i = j
  · subst h
    by_cases h2 : i < buf.length
    · simp [h2]
    · have h3 : buf[i]? = none := List.getElem?_eq_none (by omega)
      simp [h2, h3]
  · simp [h]

theorem or_shift_eq_add (a b k : Nat) (h : a < 2 ^ k) : a ||| (b <<< k) = a + 2 ^ k * b := by
  rw [Nat.shiftLeft_eq, Nat.or_comm, Nat.mul_comm, Nat.add_comm]
  exact (Nat.mul_add_lt_is_or h b).symm

theorem read_u32_le_eq_sum (buf : List Byte) (off : Nat) :
    read_u32_le buf off =
      byteAt buf off + 2 ^ 8 * byteAt buf (off + 1) + 2 ^ 16 * byteAt buf (off + 2)
        + 2 ^ 24 * byteAt buf (off + 3) := by
  have h0 := byteAt_lt buf off
  have h1 := byteAt_lt buf (off + 1)
  have h2 := byteAt_lt buf (off + 2)
  unfold read_u32_le
  rw [or_shift_eq_add _ _ 8 (by omega)]
  rw [or_shift_eq_add _ _ 16 (by omega)]
  rw [or_shift_eq_add _ _ 24 (by omega)]

theorem read_u64_le_eq_sum (buf : List Byte) (off : Nat) :
    read_u64_le buf off =
      byteAt buf off + 2 ^ 8 * byteAt buf (off + 1) + 2 ^ 16 * byteAt buf (off + 2)
        + 2 ^ 24 * byteAt buf (off + 3) + 2 ^ 32 * byteAt buf (off + 4)
        + 2 ^ 40 * byteAt buf (off + 5) + 2 ^ 48 * byteAt buf (off + 6)
        + 2 ^ 56 * byteAt buf (off + 7) := by
  have h0 := byteAt_lt buf off
  have h1 := byteAt_lt buf (off + 1)
  have h2 := byteAt_lt buf (off + 2)
  have h3 := byteAt_lt buf (off + 3)
  have h4 := byteAt_lt buf (off + 4)
  have h5 := byteAt_lt buf (off + 5)
  have h6 := byteAt_lt buf (off + 6)
  unfold read_u64_le
  rw [or_shift_eq_add _ _ 8 (by omega)]
  rw [or_shift_eq_add _ _ 16 (by omega)]
  rw [or_shift_eq_add _ _ 24 (by omega)]
  rw [or_shift_eq_add _ _ 32 (by omega)]
  rw [or_shift_eq_add _ _ 40 (by omega)]
  rw [or_shift_eq_add _ _ 48 (by omega)]
  rw [or_shift_eq_add _ _ 56 (by omega)]

theorem write_u32_le_length (buf : List Byte) (off v : Nat) :
    (write_u32_le buf off v).length = buf.length := by
  simp [write_u32_le]

theorem write_u64_le_length (buf : List Byte) (off v : Nat) :
    (write_u64_le buf off v).length = buf.length := by
  simp [write_u64_le]

theorem byteAt_write_u32_le (buf : List Byte) (off v k : Nat) (hb : off + 4 ≤ buf.length)
    (hk : k < 4) : byteAt (write_u32_le buf off v) (off + k) = (v >>> (8 * k)) &&& 0xFF := by
  have e : ∀ x : Nat, (x &&& 0xFF) % 256 = x &&& 0xFF := fun x => by
    rw [and_ff]; exact Nat.mod_mod _ _
  unfold write_u32_le
  interval_cases k <;>
    simp [byteAt_set, List.length_set, u8_val, e] <;> omega

theorem byteAt_write_u64_le (buf : List Byte) (off v k : Nat) (hb : off + 8 ≤ buf.length)
    (hk : k < 8) : byteAt (write_u64_le buf off v) (off + k) = (v >>> (8 * k)) &&& 0xFF := by
  have e : ∀ x : Nat, (x &&& 0xFF) % 256 = x &&& 0xFF := fun x => by
    rw [and_ff]; exact Nat.mod_mod _ _
  unfold write_u64_le
  interval_cases k <;>
    simp [byteAt_set, List.length_set, u8_val, e] <;> omega

/-- C10: `write_u32_le` / `write_u64_le` store byte `k` of the value, i.e.
`(v >> 8k) & 0xFF`, at position `k` (for `k < 4`, resp. `k < 8`), and
`read_u32_le` / `read_u64_le` return the sum over `k` of `byte_k * 2^(8k)`;
the functions only index single bytes, so the result does not depend on the
byte order of the host. -/
theorem C10_codec_little_endian (buf : List Byte) (off v k : Nat) :
    (off + 4 ≤ buf.length → k < 4 →
        byteAt (write_u32_le buf off v) (off + k) = (v >>> (8 * k)) &&& 0xFF) ∧
    (off + 8 ≤ buf.length → k < 8 →
        byteAt (write_u64_le buf off v) (off + k) = (v >>> (8 * k)) &&& 0xFF) ∧
    read_u32_le buf off = ∑ j in Finset.range 4, byteAt buf (off + j) * 2 ^ (8 * j) ∧
    read_u64_le buf off = ∑ j in Finset.range 8, byteAt buf (off + j) * 2 ^ (8 * j) := by
  refine ⟨byteAt_write_u32_le buf off v k, byteAt_write_u64_le buf off v k, ?_, ?_⟩
  · rw [read_u32_le_eq_sum]
    simp [Finset.sum_range_succ]
    ring
  · rw [read_u64_le_eq_sum]
    simp [Finset.sum_range_succ]
    ring

/-- C10 at a concrete input: the value `0x11223344` written at offset 1 of a
six-byte buffer, and byte 2 of it read back. -/
theorem C10_codec_little_endian_witness :
    byteAt (write_u32_le (List.replicate 6 0) 1 0x11223344) (1 + 2)
      = (0x11223344 >>> (8 * 2)) &&& 0xFF :=
  (C10_codec_little_endian (List.replicate 6 0) 1 0x11223344 2).1 (by decide) (by decide)

/-! ### Stores into the middle of a buffer -/

theorem set_mid (pre post : List Byte) (m x : Byte) (off : Nat) (h : off = pre.length) :
    (pre ++ (m :: post)).set off x = pre ++ (x :: post) := by
  subst h
  simp [List.set_append]

theorem memcpy_mid (src : List Byte) :
    ∀ (pre mid post : List Byte) (off : Nat), off = pre.length → mid.length = src.length →
      memcpy (pre ++ (mid ++ post)) off src = pre ++ (src ++ post) := by
  induction src with
  | nil =>
    intro pre mid post off _ h
    have hm : mid = [] := List.length_eq_zero.mp h
    simp [memcpy, hm]
  | cons x xs ih =>
    intro pre mid post off ho h
    cases mid with
    | nil => simp at h
    | cons m ms =>
      have h1 : (pre ++ (m :: ms ++ post)).set off x = (pre ++ [x]) ++ (ms ++ post) := by
        rw [List.cons_append, set_mid pre (ms ++ post) m x off ho]
        simp
      simp only [memcpy]
      rw [h1, ih (pre ++ [x]) ms post (off + 1) (by simp [ho]) (by simpa using h)]
      simp

theorem u8_and_ff (x : Nat) : u8 (x &&& 0xFF) = u8 x := by
  apply Fin.ext
  rw [u8_val, u8_val, and_ff]
  exact Nat.mod_mod _ _

theorem write_u32_le_eq_memcpy (buf : List Byte) (off v : Nat) :
    write_u32_le buf off v = memcpy buf off (le32 v) := by
  simp only [write_u32_le, le32, memcpy, u8_and_ff, Nat.shiftRight_eq_div_pow, Nat.add_assoc]

theorem write_u64_le_eq_memcpy (buf : List Byte) (off v : Nat) :
    write_u64_le buf off v = memcpy buf off (le64 v) := by
  simp only [write_u64_le, le64, memcpy, u8_and_ff, Nat.shiftRight_eq_div_pow, Nat.add_assoc]

theorem le32_length (v : Nat) : (le32 v).length = 4 := rfl

theorem le64_length (v : Nat) : (le64 v).length = 8 := rfl

theorem write_u32_le_mid (pre mid post : List Byte) (off v : Nat) (ho : off = pre.length)
    (hm : mid.length = 4) :
    write_u32_le (pre ++ (mid ++ post)) off v = pre ++ (le32 v ++ post) := by
  rw [write_u32_le_eq_memcpy]
  exact memcpy_mid (le32 v) pre mid post off ho hm

theorem write_u64_le_mid (pre mid post : List Byte) (off v : Nat) (ho : off = pre.length)
    (hm : mid.length = 8) :
    write_u64_le (pre ++ (mid ++ post)) off v = pre ++ (le64 v ++ post) := by
  rw [write_u64_le_eq_memcpy]
  exact memcpy_mid (le64 v) pre mid post off ho hm

/-! ### The writer produces the layout of the file format -/

theorem le32_mod (v : Nat) : le32 (v % 2 ^ 32) = le32 v := by
  simp only [le32, List.cons.injEq, and_true]
  refine ⟨?_, ?_, ?_, ?_⟩ <;> (apply Fin.ext; simp only [u8_val]; omega)

theorem spec_descriptor_length (name : List Byte) (o l : Nat) (h : name.length ≤ 247) :
    (spec_descriptor name o l).length = 256 := by
  simp only [spec_descriptor, List.length_append, List.length_cons, List.length_nil,
    List.length_replicate, le32_length]
  omega

theorem replicate_descriptor (L : Nat) (h : L ≤ 247) :
    List.replicate 256 (0 : Byte) =
      (0 : Byte) :: (List.replicate L 0 ++ (List.replicate (247 - L) 0
        ++ (List.replicate 4 0 ++ List.replicate 4 0))) := by
  rw [← List.replicate_add, ← List.replicate_add, ← List.replicate_add, ← List.replicate_succ]
  congr 1
  omega

theorem write_descriptor (pre post : List Byte) (f : FileEntry) (off x y : Nat)
    (ho : off = pre.length) (hn : strlen f.name ≤ 247) :
    write_u32_le
      (write_u32_le
        (memcpy ((pre ++ (List.replicate 256 0 ++ post)).set off (u8 (strlen f.name % 256)))
          (off + 1) ((cstr f.name).take (strlen f.name % 256)))
        (off + 248) x)
      (off + 252) y
    = pre ++ (spec_descriptor (cstr f.name) x y ++ post) := by
  have hL : strlen f.name % 256 = (cstr f.name).length := by
    unfold strlen at hn ⊢
    omega
  have hn2 : (cstr f.name).length ≤ 247 := hn
  rw [hL, List.take_length, replicate_descriptor (cstr f.name).length hn2]
  rw [List.cons_append, set_mid pre _ 0 _ off ho]
  have e1 : pre ++ (u8 (cstr f.name).length :: (List.replicate (cstr f.name).length 0
        ++ (List.replicate (247 - (cstr f.name).length) 0
          ++ (List.replicate 4 0 ++ List.replicate 4 0)) ++ post))
      = (pre ++ [u8 (cstr f.name).length]) ++ (List.replicate (cstr f.name).length 0
        ++ (List.replicate (247 - (cstr f.name).length) 0
          ++ (List.replicate 4 0 ++ (List.replicate 4 0 ++ post)))) := by
    simp
  rw [e1, memcpy_mid (cstr f.name) _ _ _ (off + 1) (by simp [ho]) (by simp)]
  have e2 : pre ++ [u8 (cstr f.name).length] ++ (cstr f.name
        ++ (List.replicate (247 - (cstr f.name).length) 0
          ++ (List.replicate 4 0 ++ (List.replicate 4 0 ++ post))))
      = (pre ++ [u8 (cstr f.name).length] ++ cstr f.name
          ++ List.replicate (247 - (cstr f.name).length) 0)
        ++ (List.replicate 4 0 ++ (List.replicate 4 0 ++ post)) := by
    simp
  rw [e2, write_u32_le_mid _ _ _ (off + 248) x (by simp [ho]; omega) (by simp)]
  have e3 : pre ++ [u8 (cstr f.name).length] ++ cstr f.name
          ++ List.replicate (247 - (cstr f.name).length) 0
        ++ (le32 x ++ (List.replicate 4 0 ++ post))
      = (pre ++ [u8 (cstr f.name).length] ++ cstr f.name
          ++ List.replicate (247 - (cstr f.name).length) 0 ++ le32 x)
        ++ (List.replicate 4 0 ++ post) := by
    simp
  rw [e3, write_u32_le_mid _ _ _ (off + 252) y (by simp [ho, le32_length]; omega) (by simp)]
  simp [spec_descriptor]

theorem le32_mod_descriptor (n : List Byte) (x y : Nat) :
    spec_descriptor n (x % 2 ^ 32) (y % 2 ^ 32) = spec_descriptor n x y := by
  unfold spec_descriptor
  rw [le32_mod, le32_mod]

theorem spec_descriptors_length (fs : List FileEntry) (o : Nat) :
    (spec_descriptors fs o).length = fs.length := by
  induction fs generalizing o with
  | nil => rfl
  | cons f fs ih => simp [spec_descriptors, ih]

theorem spec_descriptors_each_length (fs : List FileEntry) (o : Nat)
    (hn : ∀ f ∈ fs, strlen f.name ≤ 247) :
    ∀ d ∈ spec_descriptors fs o, d.length = 256 := by
  induction fs generalizing o with
  | nil => intro d hd; simp [spec_descriptors] at hd
  | cons f fs ih =>
    intro d hd
    simp only [spec_descriptors, List.mem_cons] at hd
    rcases hd with hd | hd
    · rw [hd]
      exact spec_descriptor_length _ _ _ (hn f (List.mem_cons_self _ _))
    · exact ih _ (fun g hg => hn g (List.mem_cons_of_mem _ hg)) d hd

theorem write_entries_mid (fs : List FileEntry) :
    ∀ (pre post : List Byte) (entry_offset data_pos data_offset : Nat),
      entry_offset = pre.length → data_offset ≤ data_pos →
      (∀ f ∈ fs, strlen f.name ≤ 247) →
      write_entries fs (pre ++ (List.replicate (256 * fs.length) 0 ++ post))
          entry_offset data_pos data_offset
        = pre ++ ((spec_descriptors fs (data_pos - data_offset)).flatten ++ post) := by
  induction fs with
  | nil =>
    intro pre post eo dp d _ _ _
    simp [write_entries, spec_descriptors]
  | cons f fs ih =>
    intro pre post eo dp d ho hd hn
    have hf := hn f (List.mem_cons_self _ _)
    have hrep : List.replicate (256 * (f :: fs).length) (0 : Byte)
        = List.replicate 256 0 ++ List.replicate (256 * fs.length) 0 := by
      rw [← List.replicate_add]
      congr 1
      simp only [List.length_cons]
      omega
    simp only [write_entries]
    rw [hrep, List.append_assoc, write_descriptor pre _ f eo _ _ ho hf]
    rw [le32_mod_descriptor]
    rw [← List.append_assoc pre, ih (pre ++ _) post (eo + ENTRY_SIZE) (dp + f.contents.length) d
      (by simp [ho, ENTRY_SIZE, spec_descriptor_length _ _ _ hf]) (by omega)
      (fun g hg => hn g (List.mem_cons_of_mem _ hg))]
    have e : dp + f.contents.length - d = dp - d + f.contents.length := by omega
    simp [spec_descriptors, e]
theorem memcpy_length (src : List Byte) : ∀ (buf : List Byte) (off : Nat),
    (memcpy buf off src).length = buf.length := by
  induction src with
  | nil => intro buf off; rfl
  | cons x xs ih => intro buf off; simp [memcpy, ih]
theorem total_data_size_eq (fs : List FileEntry) :
    total_data_size fs = (fs.map (fun f => f.contents.length)).sum := by
  induction fs with
  | nil => rfl
  | cons f fs ih => simp [total_data_size, ih]

theorem spec_data_block_length (fs : List FileEntry) :
    (spec_data_block fs).length = total_data_size fs := by
  induction fs with
  | nil => rfl
  | cons f fs ih =>
    simp only [spec_data_block, List.map_cons, List.flatten_cons, List.length_append] at ih ⊢
    simp [total_data_size, ih]

theorem write_contents_mid (fs : List FileEntry) :
    ∀ (pre post : List Byte) (data_pos : Nat), data_pos = pre.length →
      write_contents fs (pre ++ (List.replicate (total_data_size fs) 0 ++ post)) data_pos
        = pre ++ (spec_data_block fs ++ post) := by
  induction fs with
  | nil =>
    intro pre post dp _
    simp [write_contents, total_data_size, spec_data_block]
  | cons f fs ih =>
    intro pre post dp hd
    simp only [write_contents, total_data_size]
    rw [List.replicate_add, List.append_assoc,
      memcpy_mid f.contents pre _ _ dp hd (by simp)]
    rw [← List.append_assoc pre, ih (pre ++ f.contents) post (dp + f.contents.length) (by simp [hd])]
    simp [spec_data_block]

theorem spec_header_length (c : Nat) : (spec_header c).length = 16 := rfl

theorem flatten_length_uniform (L : List (List Byte)) (m : Nat) (h : ∀ d ∈ L, d.length = m) :
    L.flatten.length = m * L.length := by
  induction L with
  | nil => simp
  | cons d L ih =>
    have h1 := h d (List.mem_cons_self _ _)
    have h2 := ih (fun e he => h e (List.mem_cons_of_mem _ he))
    simp only [List.flatten_cons, List.length_append, List.length_cons, h1, h2]
    ring

theorem serialize_eq (files : List FileEntry) (hn : ∀ f ∈ files, strlen f.name ≤ 247) :
    serialize files = spec_header (files.length % 2 ^ 32)
      ++ ((spec_descriptors files 0).flatten ++ spec_data_block files) := by
  have hrep : List.replicate (HEADER_SIZE + ENTRY_SIZE * files.length + total_data_size files)
        (0 : Byte)
      = List.replicate 8 0 ++ (List.replicate 4 0 ++ (List.replicate 4 0
          ++ (List.replicate (256 * files.length) 0
            ++ (List.replicate (total_data_size files) 0 ++ [])))) := by
    rw [List.append_nil, ← List.replicate_add, ← List.replicate_add, ← List.replicate_add,
      ← List.replicate_add]
    congr 1
    simp only [HEADER_SIZE, ENTRY_SIZE]
    omega
  unfold serialize
  simp only []
  rw [hrep]
  have s1 := write_u64_le_mid [] (List.replicate 8 0) (List.replicate 4 0 ++ (List.replicate 4 0
          ++ (List.replicate (256 * files.length) 0
            ++ (List.replicate (total_data_size files) 0 ++ [])))) 0 MAGIC rfl (by simp)
  rw [List.nil_append, List.nil_append] at s1
  rw [s1]
  rw [write_u32_le_mid (le64 MAGIC) (List.replicate 4 0) _ 8 _ rfl (by simp)]
  have s3 := write_u32_le_mid (le64 MAGIC ++ le32 (files.length % 2 ^ 32)) (List.replicate 4 0)
    (List.replicate (256 * files.length) 0
            ++ (List.replicate (total_data_size files) 0 ++ [])) 12 ARCHIVE_VERSION rfl (by simp)
  simp only [List.append_assoc] at s3 ⊢
  rw [s3]
  have s4 := write_entries_mid files (le64 MAGIC ++ le32 (files.length % 2 ^ 32) ++ le32 ARCHIVE_VERSION)
    (List.replicate (total_data_size files) 0 ++ []) HEADER_SIZE
    (HEADER_SIZE + ENTRY_SIZE * files.length) (HEADER_SIZE + ENTRY_SIZE * files.length) rfl
    (Nat.le_refl _) hn
  simp only [List.append_assoc] at s4 ⊢
  rw [s4, Nat.sub_self]
  have s5 := write_contents_mid files
    (le64 MAGIC ++ le32 (files.length % 2 ^ 32) ++ le32 ARCHIVE_VERSION
      ++ (spec_descriptors files 0).flatten) []
    (HEADER_SIZE + ENTRY_SIZE * files.length)
    (by
      rw [List.length_append, flatten_length_uniform _ 256
        (spec_descriptors_each_length files 0 hn), spec_descriptors_length]
      rfl)
  simp only [List.append_assoc] at s5
  rw [s5]
  simp [spec_header, MAGIC, ARCHIVE_VERSION]

theorem serialize_length (files : List FileEntry) :
    (serialize files).length = 16 + 256 * files.length + total_data_size files := by
  have h1 : ∀ (fs : List FileEntry) (a : List Byte) (e p d : Nat),
      (write_entries fs a e p d).length = a.length := by
    intro fs
    induction fs with
    | nil => intro a e p d; rfl
    | cons f fs ih =>
      intro a e p d
      simp only [write_entries]
      rw [ih, write_u32_le_length, write_u32_le_length, memcpy_length, List.length_set]
  have h2 : ∀ (fs : List FileEntry) (a : List Byte) (p : Nat),
      (write_contents fs a p).length = a.length := by
    intro fs
    induction fs with
    | nil => intro a p; rfl
    | cons f fs ih =>
      intro a p
      simp only [write_contents]
      rw [ih, memcpy_length]
  unfold serialize
  simp only [h2, h1, write_u32_le_length, write_u64_le_length, List.length_replicate,
    HEADER_SIZE, ENTRY_SIZE]

/-- C8: for a list of `n` entries whose names are at most 247 bytes long, the
buffer the writer builds has length `16 + 256 n + (sum of the content lengths)`
and is the 16-byte header (magic `0x267052A0B125277D`, the count `n` as a
`u32`, version 1, all little-endian), followed by `n` descriptors of 256 bytes
in input order, followed, from offset `16 + 256 n` on, by the contents
concatenated in input order with nothing in between. -/
theorem C8_writer_layout (files : List FileEntry) (hn : ∀ f ∈ files, strlen f.name ≤ 247) :
    (serialize files).length
        = 16 + 256 * files.length + (files.map (fun f => f.contents.length)).sum ∧
    serialize files
        = (le64 0x267052A0B125277D ++ le32 (files.length % 2 ^ 32) ++ le32 1)
          ++ (spec_descriptors files 0).flatten
          ++ (files.map (fun f => f.contents)).flatten ∧
    (le64 0x267052A0B125277D ++ le32 (files.length % 2 ^ 32) ++ le32 1).length = 16 ∧
    (spec_descriptors files 0).length = files.length ∧
    (∀ d ∈ spec_descriptors files 0, d.length = 256) ∧
    (serialize files).drop (16 + 256 * files.length)
        = (files.map (fun f => f.contents)).flatten := by
  have he := serialize_eq files hn
  have hl := flatten_length_uniform _ 256 (spec_descriptors_each_length files 0 hn)
  rw [spec_descriptors_length] at hl
  refine ⟨?_, ?_, rfl, spec_descriptors_length files 0,
    spec_descriptors_each_length files 0 hn, ?_⟩
  · rw [serialize_length, total_data_size_eq]
  · rw [he]
    simp [spec_header, spec_data_block]
  · rw [he, ← List.append_assoc]
    rw [List.drop_left' (by rw [List.length_append, hl, spec_header_length])]
    rfl

/-- C8 at a concrete input: two entries `a` / `b` with contents `[1, 2]` / `[3]`. -/
theorem C8_writer_layout_witness :
    (serialize [⟨[97], [1, 2]⟩, ⟨[98], [3]⟩]).drop (16 + 256 * 2) = [1, 2, 3] :=
  (C8_writer_layout [⟨[97], [1, 2]⟩, ⟨[98], [3]⟩] (by decide)).2.2.2.2.2

/-! ### Reading fields back from a buffer -/

theorem byteAt_slice (buf : List Byte) (a n k : Nat) (h : k < n) :
    byteAt (slice buf a n) k = byteAt buf (a + k) := by
  unfold byteAt slice
  simp only [List.getD_eq_getElem?_getD, List.getElem?_take, List.getElem?_drop, h, if_true]

theorem slice_slice (buf : List Byte) (a n k m : Nat) (h : k + m ≤ n) :
    slice (slice buf a n) k m = slice buf (a + k) m := by
  unfold slice
  rw [List.drop_take, List.take_take, List.drop_drop, Nat.min_eq_left (by omega)]

theorem read_u32_le_slice (buf : List Byte) (a n k : Nat) (h : k + 4 ≤ n) :
    read_u32_le (slice buf a n) k = read_u32_le buf (a + k) := by
  unfold read_u32_le
  rw [byteAt_slice _ _ _ _ (by omega), byteAt_slice _ _ _ _ (by omega),
    byteAt_slice _ _ _ _ (by omega), byteAt_slice _ _ _ _ (by omega)]
  simp only [Nat.add_assoc]

theorem slice_append_mid (pre mid post : List Byte) (a n : Nat) (ha : a = pre.length)
    (hn : n = mid.length) : slice (pre ++ (mid ++ post)) a n = mid := by
  subst ha hn
  unfold slice
  simp

theorem byteAt_append_right (pre post : List Byte) (a k : Nat) (ha : a = pre.length) :
    byteAt (pre ++ post) (a + k) = byteAt post k := by
  subst ha
  unfold byteAt
  simp [List.getD_eq_getElem?_getD, List.getElem?_append_right]

theorem read_u32_le_le32 (v : Nat) : read_u32_le (le32 v) 0 = v % 2 ^ 32 := by
  rw [read_u32_le_eq_sum]
  simp only [byteAt, le32, List.getD_cons_zero, List.getD_cons_succ, u8_val]
  omega

theorem read_u64_le_le64 (v : Nat) : read_u64_le (le64 v) 0 = v % 2 ^ 64 := by
  rw [read_u64_le_eq_sum]
  simp only [byteAt, le64, List.getD_cons_zero, List.getD_cons_succ, u8_val]
  omega

theorem read_u32_le_of_slice (buf : List Byte) (a v : Nat) (h : slice buf a 4 = le32 v) :
    read_u32_le buf a = v % 2 ^ 32 := by
  have := read_u32_le_slice buf a 4 0 (by omega)
  rw [h, read_u32_le_le32] at this
  simpa using this.symm

theorem read_u64_le_of_slice (buf : List Byte) (a v : Nat) (h : slice buf a 8 = le64 v) :
    read_u64_le buf a = v % 2 ^ 64 := by
  have e : read_u64_le (slice buf a 8) 0 = read_u64_le buf a := by
    unfold read_u64_le
    rw [byteAt_slice _ _ _ _ (by omega), byteAt_slice _ _ _ _ (by omega),
      byteAt_slice _ _ _ _ (by omega), byteAt_slice _ _ _ _ (by omega),
      byteAt_slice _ _ _ _ (by omega), byteAt_slice _ _ _ _ (by omega),
      byteAt_slice _ _ _ _ (by omega), byteAt_slice _ _ _ _ (by omega)]
    simp only [Nat.add_assoc, Nat.add_zero, Nat.zero_add]
  rw [← e, h, read_u64_le_le64]

/-! ### The fields of a descriptor of the file format -/

theorem spec_descriptor_fields (name : List Byte) (o l : Nat) (h : name.length ≤ 247) :
    byteAt (spec_descriptor name o l) 0 = name.length ∧
    slice (spec_descriptor name o l) 1 name.length = name ∧
    (∀ k, 1 + name.length ≤ k → k < 248 → byteAt (spec_descriptor name o l) k = 0) ∧
    slice (spec_descriptor name o l) 248 4 = le32 o ∧
    slice (spec_descriptor name o l) 252 4 = le32 l := by
  refine ⟨?_, ?_, ?_, ?_, ?_⟩
  · simp only [spec_descriptor, byteAt, List.singleton_append, List.cons_append,
      List.getD_cons_zero, u8_val]
    omega
  · have e : spec_descriptor name o l
        = [u8 name.length] ++ (name ++ (List.replicate (247 - name.length) 0
            ++ le32 o ++ le32 l)) := by
      simp [spec_descriptor]
    rw [e]
    exact slice_append_mid _ _ _ 1 _ rfl rfl
  · intro k h1 h2
    have e : spec_descriptor name o l
        = ([u8 name.length] ++ name) ++ (List.replicate (247 - name.length) 0
            ++ (le32 o ++ le32 l)) := by
      simp [spec_descriptor]
    obtain ⟨j, rfl⟩ : ∃ j, k = (1 + name.length) + j := ⟨k - (1 + name.length), by omega⟩
    rw [e, byteAt_append_right _ _ _ _ (by simp; omega)]
    unfold byteAt
    rw [List.getD_eq_getElem?_getD, List.getElem?_append_left (by simp; omega)]
    rw [List.getElem?_replicate]
    have hj : j < 247 - name.length := by omega
    simp [hj]
  · have e : spec_descriptor name o l
        = ([u8 name.length] ++ name ++ List.replicate (247 - name.length) 0)
            ++ (le32 o ++ le32 l) := by
      simp [spec_descriptor]
    rw [e]
    exact slice_append_mid _ _ _ 248 _ (by simp; omega) rfl
  · have e : spec_descriptor name o l
        = ([u8 name.length] ++ name ++ List.replicate (247 - name.length) 0 ++ le32 o)
            ++ (le32 l ++ []) := by
      simp [spec_descriptor]
    rw [e]
    exact slice_append_mid _ _ _ 252 _ (by simp [le32_length]; omega) rfl

theorem flatten_slice_uniform (L : List (List Byte)) (m : Nat) (h : ∀ d ∈ L, d.length = m)
    (post : List Byte) :
    ∀ (i : Nat) (hi : i < L.length), slice (L.flatten ++ post) (m * i) m = L[i] := by
  induction L with
  | nil => intro i hi; simp at hi
  | cons d L ih =>
    intro i hi
    have hd := h d (List.mem_cons_self _ _)
    cases i with
    | zero =>
      have := slice_append_mid [] d (L.flatten ++ post) 0 m rfl hd.symm
      simpa using this
    | succ i =>
      have hi2 : i < L.length := by simpa using hi
      have := ih (fun e he => h e (List.mem_cons_of_mem _ he)) i hi2
      simp only [List.flatten_cons, List.getElem_cons_succ, List.append_assoc]
      rw [← this]
      unfold slice
      rw [show m * (i + 1) = d.length + m * i by rw [hd]; ring, ← List.drop_drop,
        List.drop_left]

theorem spec_descriptors_getElem (fs : List FileEntry) :
    ∀ (o i : Nat) (hi : i < fs.length) (hi2 : i < (spec_descriptors fs o).length),
      (spec_descriptors fs o)[i]
        = spec_descriptor (cstr fs[i].name) (o + offset_of fs i) fs[i].contents.length := by
  induction fs with
  | nil => intro o i hi; simp at hi
  | cons f fs ih =>
    intro o i hi hi2
    cases i with
    | zero => simp [spec_descriptors, offset_of]
    | succ i =>
      have hi3 : i < fs.length := by simpa using hi
      simp only [spec_descriptors, List.getElem_cons_succ]
      rw [ih (o + f.contents.length) i hi3]
      simp [offset_of, Nat.add_assoc]

theorem cstr_of_nul_free (s : List Byte) (h : ∀ b ∈ s, b ≠ 0) : cstr s = s := by
  unfold cstr
  rw [List.takeWhile_eq_self_iff]
  intro b hb
  simpa using h b hb

theorem strlen_of_nul_free (s : List Byte) (h : ∀ b ∈ s, b ≠ 0) : strlen s = s.length := by
  unfold strlen
  rw [cstr_of_nul_free s h]

theorem slice_append_right (pre post : List Byte) (a k n : Nat) (ha : a = pre.length) :
    slice (pre ++ post) (a + k) n = slice post k n := by
  subst ha
  unfold slice
  rw [← List.drop_drop, List.drop_left]

theorem descriptor_slice (files : List FileEntry) (hn : ∀ f ∈ files, strlen f.name ≤ 247)
    (i : Nat) (hi : i < files.length) :
    slice (serialize files) (16 + 256 * i) 256
      = spec_descriptor (cstr files[i].name) (offset_of files i) files[i].contents.length := by
  rw [serialize_eq files hn, slice_append_right _ _ 16 _ _ (spec_header_length _).symm]
  have hi2 : i < (spec_descriptors files 0).length := by
    rw [spec_descriptors_length]; exact hi
  rw [flatten_slice_uniform _ 256 (spec_descriptors_each_length files 0 hn) _ i hi2]
  rw [spec_descriptors_getElem files 0 i hi hi2, Nat.zero_add]

theorem offset_of_add_le (files : List FileEntry) :
    ∀ (i : Nat) (hi : i < files.length),
      offset_of files i + files[i].contents.length ≤ total_data_size files := by
  induction files with
  | nil => intro i hi; simp at hi
  | cons f fs ih =>
    intro i hi
    cases i with
    | zero => simp [offset_of, total_data_size]
    | succ i =>
      have hi3 : i < fs.length := by simpa using hi
      have := ih i hi3
      simp only [offset_of, List.take_succ_cons, List.map_cons, List.sum_cons,
        List.getElem_cons_succ, total_data_size] at this ⊢
      omega

/-- The fields of the `i`-th descriptor of a buffer the writer built. -/
theorem descriptor_layout (files : List FileEntry) (i : Nat) (hi : i < files.length)
    (hn : ∀ f ∈ files, strlen f.name ≤ 247) (ht : total_data_size files < 2 ^ 32) :
    byteAt (slice (serialize files) (16 + 256 * i) 256) 0 = strlen files[i].name ∧
    slice (slice (serialize files) (16 + 256 * i) 256) 1 (strlen files[i].name)
      = cstr files[i].name ∧
    ((∀ b ∈ files[i].name, b ≠ 0) → cstr files[i].name = files[i].name) ∧
    (∀ k, 1 + strlen files[i].name ≤ k → k < 248 →
      byteAt (slice (serialize files) (16 + 256 * i) 256) k = 0) ∧
    slice (slice (serialize files) (16 + 256 * i) 256) 248 4 = le32 (offset_of files i) ∧
    read_u32_le (slice (serialize files) (16 + 256 * i) 256) 248 = offset_of files i ∧
    offset_of files 0 = 0 ∧
    slice (slice (serialize files) (16 + 256 * i) 256) 252 4
      = le32 files[i].contents.length ∧
    read_u32_le (slice (serialize files) (16 + 256 * i) 256) 252
      = files[i].contents.length := by
  have hf : strlen files[i].name ≤ 247 := hn _ (List.getElem_mem _)
  have hb := offset_of_add_le files i hi
  obtain ⟨h0, h1, h2, h3, h4⟩ :=
    spec_descriptor_fields (cstr files[i].name) (offset_of files i) files[i].contents.length hf
  rw [descriptor_slice files hn i hi]
  refine ⟨h0, h1, cstr_of_nul_free _, h2, h3, ?_, rfl, h4, ?_⟩
  · rw [read_u32_le_of_slice _ _ _ h3]
    exact Nat.mod_eq_of_lt (by omega)
  · rw [read_u32_le_of_slice _ _ _ h4]
    exact Nat.mod_eq_of_lt (by omega)

/-- C9: for a list of entries whose names are at most 247 bytes long and whose
contents total less than `2^32` bytes, the `i`-th 256-byte descriptor the
writer produces has the name length in byte 0, the name in bytes `1 ..
1 + name_len`, zero in every byte from `1 + name_len` up to offset 248, in
bytes `248 .. 252` the little-endian `u32` sum of the content lengths of the
entries in front of it (0 for the first), and in bytes `252 .. 256` the
little-endian `u32` content length of the entry itself. The name is the C
string of the list slot; for a NUL-free byte list that is the list itself. -/
theorem C9_descriptor_layout (files : List FileEntry) (i : Nat) (hi : i < files.length)
    (hn : ∀ f ∈ files, strlen f.name ≤ 247) (ht : total_data_size files < 2 ^ 32) :
    byteAt (slice (serialize files) (16 + 256 * i) 256) 0 = strlen files[i].name ∧
    slice (slice (serialize files) (16 + 256 * i) 256) 1 (strlen files[i].name)
      = cstr files[i].name ∧
    ((∀ b ∈ files[i].name, b ≠ 0) → cstr files[i].name = files[i].name) ∧
    (∀ k, 1 + strlen files[i].name ≤ k → k < 248 →
      byteAt (slice (serialize files) (16 + 256 * i) 256) k = 0) ∧
    slice (slice (serialize files) (16 + 256 * i) 256) 248 4 = le32 (offset_of files i) ∧
    read_u32_le (slice (serialize files) (16 + 256 * i) 256) 248 = offset_of files i ∧
    offset_of files 0 = 0 ∧
    slice (slice (serialize files) (16 + 256 * i) 256) 252 4
      = le32 files[i].contents.length ∧
    read_u32_le (slice (serialize files) (16 + 256 * i) 256) 252
      = files[i].contents.length :=
  descriptor_layout files i hi hn ht

/-- C9 at a concrete input: the second descriptor of a two-entry archive holds
content offset 2, the length of the first entry's content. -/
theorem C9_descriptor_layout_witness :
    read_u32_le (slice (serialize [⟨[97], [1, 2]⟩, ⟨[98], [3]⟩]) (16 + 256 * 1) 256) 248
      = offset_of [⟨[97], [1, 2]⟩, ⟨[98], [3]⟩] 1 :=
  (C9_descriptor_layout [⟨[97], [1, 2]⟩, ⟨[98], [3]⟩] 1 (by decide) (by decide)
    (by decide)).2.2.2.2.2.1

/-! ### Archive-level failures -/

/-- C6: on a buffer shorter than 16 bytes each of `list_archive`,
`print_archive`, `extract_archive` and `delete_from_archive` fails with the
"Archive too small" diagnostic, prints nothing to `stdout`, makes no
`write_file` call for an extracted file and does not rewrite the archive. -/
theorem C6_too_small (fs : Fs) (archive_data : List Byte) (dir_path : Option (List Byte))
    (file_filter files_to_delete : List (List Byte)) (options : Nat) (write_ok : Bool)
    (h : archive_data.length < 16) :
    list_archive archive_data file_filter
      = { ret := false, stdout := [], stderr := [Diag.tooSmall] } ∧
    print_archive archive_data file_filter
      = { ret := false, stdout := [], stderr := [Diag.tooSmall] } ∧
    extract_archive fs archive_data dir_path file_filter options
      = { ret := false, writes := [], stdout := [], stderr := [Diag.tooSmall] } ∧
    delete_from_archive archive_data files_to_delete options write_ok
      = some { ret := false, written := none, stdout := [], stderr := [Diag.tooSmall] } := by
  have h' : archive_data.length < HEADER_SIZE := h
  simp [list_archive, print_archive, extract_archive, delete_from_archive, h']

/-- C6 at a concrete input: a valid-looking header cut to 15 bytes. -/
theorem C6_too_small_witness :
    list_archive [125, 39, 37, 177, 160, 82, 112, 38, 1, 0, 0, 0, 1, 0, 0] [[97]]
      = { ret := false, stdout := [], stderr := [Diag.tooSmall] } :=
  (C6_too_small ⟨true, fun _ _ => true⟩
    [125, 39, 37, 177, 160, 82, 112, 38, 1, 0, 0, 0, 1, 0, 0] none [[97]] [[97]] 0 true
    (by decide)).1

/-- C7: on a buffer of at least 16 bytes whose first 8 bytes, read as a
little-endian 64-bit integer, are not `0x267052A0B125277D`, each of the four
operations fails with the "Invalid magic number" diagnostic and does nothing
else, whatever the rest of the buffer holds. -/
theorem C7_bad_magic (fs : Fs) (archive_data : List Byte) (dir_path : Option (List Byte))
    (file_filter files_to_delete : List (List Byte)) (options : Nat) (write_ok : Bool)
    (hlen : 16 ≤ archive_data.length)
    (hmagic : read_u64_le archive_data 0 ≠ 0x267052A0B125277D) :
    list_archive archive_data file_filter
      = { ret := false, stdout := [],
          stderr := [Diag.invalidMagic (some (read_u64_le archive_data 0))] } ∧
    print_archive archive_data file_filter
      = { ret := false, stdout := [],
          stderr := [Diag.invalidMagic (some (read_u64_le archive_data 0))] } ∧
    extract_archive fs archive_data dir_path file_filter options
      = { ret := false, writes := [], stdout := [],
          stderr := [Diag.invalidMagic (some (read_u64_le archive_data 0))] } ∧
    delete_from_archive archive_data files_to_delete options write_ok
      = some { ret := false, written := none, stdout := [],
               stderr := [Diag.invalidMagic none] } := by
  have h' : ¬ archive_data.length < HEADER_SIZE := by
    simp only [HEADER_SIZE]; omega
  have hm : read_u64_le archive_data 0 ≠ MAGIC := hmagic
  simp [list_archive, print_archive, extract_archive, delete_from_archive, h', hm]

/-- C7 at a concrete input: a 16-byte header whose first magic byte is flipped
from `0x7D` to `0x7C`. -/
theorem C7_bad_magic_witness :
    list_archive [124, 39, 37, 177, 160, 82, 112, 38, 0, 0, 0, 0, 1, 0, 0, 0] []
      = { ret := false, stdout := [],
          stderr := [Diag.invalidMagic (some (read_u64_le
            [124, 39, 37, 177, 160, 82, 112, 38, 0, 0, 0, 0, 1, 0, 0, 0] 0))] } :=
  (C7_bad_magic ⟨true, fun _ _ => true⟩
    [124, 39, 37, 177, 160, 82, 112, 38, 0, 0, 0, 0, 1, 0, 0, 0] none [] [] 0 true
    (by decide) (by decide)).1

set_option maxRecDepth 100000 in
/-- C5 (what the code does at the failing input): on an archive whose version
field is 2, `list_archive` and `print_archive` succeed and process the entry:
they never read the version field. -/
theorem C5_list_print_ignore_version :
    read_u32_le version2_archive 12 = 2 ∧
    list_archive version2_archive []
      = { ret := true, stdout := [97, 10], stderr := [] } ∧
    print_archive version2_archive []
      = { ret := true, stdout := [104, 105], stderr := [] } := by
  decide

/-- The part of C5 that holds: `extract_archive` and `delete_from_archive`
reject every archive with correct magic whose version field is not 1, before
any entry is looked at. -/
theorem version_checked_by_extract_and_delete (fs : Fs) (archive_data : List Byte)
    (dir_path : Option (List Byte)) (file_filter files_to_delete : List (List Byte))
    (options : Nat) (write_ok : Bool)
    (hlen : 16 ≤ archive_data.length)
    (hmagic : read_u64_le archive_data 0 = 0x267052A0B125277D)
    (hver : read_u32_le archive_data 12 ≠ 1) :
    extract_archive fs archive_data dir_path file_filter options
      = { ret := false, writes := [], stdout := [],
          stderr := [Diag.unsupportedVersion (read_u32_le archive_data 12)] } ∧
    delete_from_archive archive_data files_to_delete options write_ok
      = some { ret := false, written := none, stdout := [],
               stderr := [Diag.unsupportedVersion (read_u32_le archive_data 12)] } := by
  have h' : ¬ archive_data.length < HEADER_SIZE := by
    simp only [HEADER_SIZE]; omega
  have hm : read_u64_le archive_data 0 = MAGIC := hmagic
  have hv : read_u32_le archive_data 12 ≠ ARCHIVE_VERSION := hver
  simp [extract_archive, delete_from_archive, h', hm, hv]

/-! ### Filter matching -/

theorem lastIndexOf_none (c : Byte) (l : List Byte) (h : c ∉ l) : lastIndexOf c l = none := by
  induction l with
  | nil => rfl
  | cons b bs ih =>
    have h1 : c ∉ bs := fun hm => h (List.mem_cons_of_mem _ hm)
    have h2 : b ≠ c := fun e => h (e ▸ List.mem_cons_self _ _)
    simp [lastIndexOf, ih h1, h2]

theorem lastIndexOf_append (c : Byte) (pre suf : List Byte) (h : c ∉ suf) :
    lastIndexOf c (pre ++ c :: suf) = some pre.length := by
  induction pre with
  | nil => simp [lastIndexOf, lastIndexOf_none c suf h]
  | cons p pre ih => simp [lastIndexOf, ih]

theorem split_at_last (c : Byte) (l : List Byte) :
    c ∉ l ∨ ∃ pre suf, l = pre ++ c :: suf ∧ c ∉ suf := by
  induction l with
  | nil => left; simp
  | cons b bs ih =>
    rcases ih with h | ⟨pre, suf, h1, h2⟩
    · by_cases hb : b = c
      · right
        exact ⟨[], bs, by simp [hb], h⟩
      · left
        intro hm
        rcases List.mem_cons.mp hm with e | e
        · exact hb e.symm
        · exact h e
    · right
      exact ⟨b :: pre, suf, by simp [h1], h2⟩

/-- The basename of the specification is the part after the last `'/'`, and the
whole name when there is none. -/
theorem basename_spec :
    (∀ pre suf : List Byte, SLASH ∉ suf → basename (pre ++ SLASH :: suf) = suf) ∧
    (∀ s : List Byte, SLASH ∉ s → basename s = s) := by
  constructor
  · intro pre suf h
    unfold basename
    rw [List.reverse_append, List.reverse_cons, List.append_assoc,
      List.takeWhile_append_of_pos (by
        intro a ha
        have : a ∈ suf := List.mem_reverse.mp ha
        simp only [bne_iff_ne, ne_eq]
        intro e
        exact h (e ▸ this))]
    simp
  · intro s h
    unfold basename
    rw [List.takeWhile_eq_self_iff.mpr (by
      intro a ha
      have : a ∈ s := List.mem_reverse.mp ha
      simp only [bne_iff_ne, ne_eq]
      intro e
      exact h (e ▸ this))]
    simp

theorem to_match_eq_basename (s : List Byte) : to_match s = basename (cstr s) := by
  unfold to_match strrchr
  rcases split_at_last SLASH (cstr s) with h | ⟨pre, suf, h1, h2⟩
  · rw [lastIndexOf_none _ _ h, basename_spec.2 _ h]
  · rw [h1, lastIndexOf_append _ _ _ h2, basename_spec.1 _ _ h2]
    simp

theorem should_list_iff (name : List Byte) (file_filter : List (List Byte)) :
    should_list name file_filter = true ↔
      (file_filter = [] ∨ ∃ f ∈ file_filter, basename (cstr f) = basename (cstr name)) := by
  unfold should_list
  cases file_filter with
  | nil => simp
  | cons g gs =>
    have hc : ∀ s : List Byte, cstr (basename (cstr s)) = basename (cstr s) := by
      intro s
      apply cstr_of_nul_free
      intro b hb
      have h1 : b ∈ cstr s := by
        unfold basename at hb
        exact List.mem_reverse.mp ((List.takeWhile_sublist _).subset (List.mem_reverse.mp hb))
      have h2 := List.mem_takeWhile_imp h1
      simpa using h2
    simp only [List.length_cons, gt_iff_lt, Nat.zero_lt_succ, if_true, List.any_eq_true,
      strcmp_eq, to_match_eq_basename, hc, beq_iff_eq, reduceCtorEq, false_or]
    constructor
    · rintro ⟨f, hf, e⟩
      exact ⟨f, hf, e.symm⟩
    · rintro ⟨f, hf, e⟩
      exact ⟨f, hf, e.symm⟩

/-- C4, the claim as stated fails: with the filter `x/b.txt` the stored name
`dir/b.txt` is selected, though the filter is not empty and no filter equals
the basename `b.txt` of the stored name. -/
theorem C4_counterexample :
    ¬ (should_list name_dir_b [name_x_b] = true ↔
        ([name_x_b] = [] ∨ ∃ f ∈ [name_x_b], cstr f = basename (cstr name_dir_b))) := by
  decide

set_option maxRecDepth 1000000 in
/-- C4 as amended: in `list_archive`, `extract_archive` and `print_archive` an
entry is selected if and only if the filter list is empty or the basename of
some filter equals the basename of the stored name (both read as C strings);
the three operations use the same selection; the filter `b.txt` selects both
`dir/b.txt` and `other/b.txt`, in each of the three operations. -/
theorem C4_filter_selection (name : List Byte) (file_filter : List (List Byte)) :
    (should_list name file_filter = true ↔
      (file_filter = [] ∨ ∃ f ∈ file_filter, basename (cstr f) = basename (cstr name))) ∧
    should_extract name file_filter = should_list name file_filter ∧
    should_print name file_filter = should_list name file_filter ∧
    (list_archive (serialize two_b_files) [name_b]).stdout
      = name_dir_b ++ [NEWLINE] ++ name_other_b ++ [NEWLINE] ∧
    (print_archive (serialize two_b_files) [name_b]).stdout = [49, 50] ∧
    (extract_archive ⟨true, fun _ _ => true⟩ (serialize two_b_files) none [name_b] 0).writes
      = [(name_dir_b, [49]), (name_other_b, [50])] := by
  refine ⟨should_list_iff name file_filter, rfl, rfl, ?_, ?_, ?_⟩ <;> decide

/-! ### Reading back what the writer wrote -/

theorem slice_zero_append (pre post : List Byte) (n : Nat) (hn : n = pre.length) :
    slice (pre ++ post) 0 n = pre := by
  have := slice_append_mid [] pre post 0 n rfl hn
  simpa using this

theorem serialize_header (files : List FileEntry) (hn : ∀ f ∈ files, strlen f.name ≤ 247) :
    16 ≤ (serialize files).length ∧
    read_u64_le (serialize files) 0 = MAGIC ∧
    read_u32_le (serialize files) 8 = files.length % 2 ^ 32 ∧
    read_u32_le (serialize files) 12 = 1 := by
  have he := serialize_eq files hn
  refine ⟨by rw [serialize_length]; omega, ?_, ?_, ?_⟩
  · have : slice (serialize files) 0 8 = le64 MAGIC := by
      rw [he]
      simp only [spec_header, List.append_assoc]
      exact slice_zero_append _ _ 8 rfl
    rw [read_u64_le_of_slice _ _ _ this]
    decide
  · have : slice (serialize files) 8 4 = le32 (files.length % 2 ^ 32) := by
      rw [he]
      simp only [spec_header, List.append_assoc]
      exact slice_append_mid _ _ _ 8 4 rfl rfl
    rw [read_u32_le_of_slice _ _ _ this]
    exact Nat.mod_mod _ _
  · have : slice (serialize files) 12 4 = le32 1 := by
      rw [he]
      simp only [spec_header, List.append_assoc]
      rw [← List.append_assoc]
      exact slice_append_mid _ _ _ 12 4 rfl rfl
    rw [read_u32_le_of_slice _ _ _ this]
    rfl

theorem data_block_slice (files : List FileEntry) :
    ∀ (i : Nat) (hi : i < files.length),
      slice (spec_data_block files) (offset_of files i) files[i].contents.length
        = files[i].contents := by
  induction files with
  | nil => intro i hi; simp at hi
  | cons f fs ih =>
    intro i hi
    cases i with
    | zero =>
      simp only [spec_data_block, List.map_cons, List.flatten_cons, offset_of, List.take_zero,
        List.map_nil, List.sum_nil, List.getElem_cons_zero]
      exact slice_zero_append _ _ _ rfl
    | succ i =>
      have hi3 : i < fs.length := by simpa using hi
      have := ih i hi3
      simp only [spec_data_block, List.map_cons, List.flatten_cons, offset_of,
        List.take_succ_cons, List.sum_cons, List.getElem_cons_succ] at this ⊢
      rw [slice_append_right _ _ _ _ _ rfl]
      exact this

/-- The fields a reader finds at entry `i` of a buffer the writer built. -/
theorem serialize_fields (files : List FileEntry) (hn : ∀ f ∈ files, strlen f.name ≤ 247)
    (ht : total_data_size files < 2 ^ 32) (i : Nat) (hi : i < files.length) :
    16 + 256 * i + 256 ≤ (serialize files).length ∧
    byteAt (serialize files) (16 + 256 * i) = strlen files[i].name ∧
    slice (serialize files) (16 + 256 * i + 1) (strlen files[i].name) = cstr files[i].name ∧
    read_u32_le (serialize files) (16 + 256 * i + 248) = offset_of files i ∧
    read_u32_le (serialize files) (16 + 256 * i + 252) = files[i].contents.length ∧
    16 + 256 * files.length + offset_of files i + files[i].contents.length
      ≤ (serialize files).length ∧
    slice (serialize files) (16 + 256 * files.length + offset_of files i)
      files[i].contents.length = files[i].contents := by
  obtain ⟨c0, c1, _, _, _, c5, _, _, c8⟩ := descriptor_layout files i hi hn ht
  have hf : strlen files[i].name ≤ 247 := hn _ (List.getElem_mem _)
  have hb := offset_of_add_le files i hi
  refine ⟨by rw [serialize_length]; omega, ?_, ?_, ?_, ?_, by rw [serialize_length]; omega, ?_⟩
  · rw [← c0, byteAt_slice _ _ _ _ (by omega)]
    rfl
  · rw [← c1, slice_slice _ _ _ _ _ (by omega)]
  · rw [← c5, read_u32_le_slice _ _ _ _ (by omega)]
  · rw [← c8, read_u32_le_slice _ _ _ _ (by omega)]
  · have he := serialize_eq files hn
    have hl := flatten_length_uniform _ 256 (spec_descriptors_each_length files 0 hn)
    rw [spec_descriptors_length] at hl
    rw [he, ← List.append_assoc]
    rw [slice_append_right _ _ (16 + 256 * files.length) _ _
      (by rw [List.length_append, hl, spec_header_length])]
    rw [← List.append_nil (spec_data_block files)]
    have := data_block_slice files i hi
    unfold slice at this ⊢
    rw [List.drop_append_of_le_length (by rw [spec_data_block_length]; omega),
      List.take_append_of_le_length (by
        rw [List.length_drop, spec_data_block_length]; omega)]
    exact this

theorem data_block_start_eq (n : Nat) (h : n < 2 ^ 24) : data_block_start n = 16 + 256 * n := by
  unfold data_block_start HEADER_SIZE ENTRY_SIZE
  omega

theorem cstr_cstr (s : List Byte) : cstr (cstr s) = cstr s := by
  apply cstr_of_nul_free
  intro b hb
  have := List.mem_takeWhile_imp hb
  simpa using this

theorem print_entries_serialize (files : List FileEntry)
    (hn : ∀ f ∈ files, strlen f.name ≤ 247) (ht : total_data_size files < 2 ^ 32) :
    ∀ (k i : Nat), i + k = files.length →
      print_entries (serialize files) [] (16 + 256 * files.length) k i (16 + 256 * i)
        = (spec_data_block (files.drop i), []) := by
  intro k
  induction k with
  | zero =>
    intro i hi
    have : files.drop i = [] := List.drop_eq_nil_of_le (by omega)
    simp [print_entries, this, spec_data_block]
  | succ k ih =>
    intro i hi
    have hi' : i < files.length := by omega
    obtain ⟨f0, f1, f2, f3, f4, f5, f6⟩ := serialize_fields files hn ht i hi'
    have hf : strlen files[i].name ≤ 247 := hn _ (List.getElem_mem _)
    have hstep : 16 + 256 * i + ENTRY_SIZE = 16 + 256 * (i + 1) := by
      unfold ENTRY_SIZE; omega
    have hdrop : files.drop i = files[i] :: files.drop (i + 1) := List.drop_eq_getElem_cons hi'
    rw [print_entries]
    simp only [f1, f2, f3, f4, f6, hstep, ih (i + 1) (by omega), should_print,
      List.length_nil, gt_iff_lt, Nat.lt_irrefl, if_false, if_true, MAX_NAME_LEN]
    rw [if_neg (by unfold ENTRY_SIZE at hstep; omega), if_neg (by omega), if_neg (by omega)]
    rw [hdrop]
    simp only [spec_data_block, List.map_cons, List.flatten_cons]

theorem extract_entries_serialize (fs : Fs) (options : Nat) (files : List FileEntry)
    (hn : ∀ f ∈ files, strlen f.name ≤ 247) (ht : total_data_size files < 2 ^ 32) :
    ∀ (k i : Nat), i + k = files.length →
      (extract_entries fs (serialize files) none [] options (16 + 256 * files.length) k i
          (16 + 256 * i)).ret = true ∧
      (extract_entries fs (serialize files) none [] options (16 + 256 * files.length) k i
          (16 + 256 * i)).writes = (files.drop i).map (fun f => (cstr f.name, f.contents)) := by
  intro k
  induction k with
  | zero =>
    intro i hi
    have : files.drop i = [] := List.drop_eq_nil_of_le (by omega)
    simp [extract_entries, this]
  | succ k ih =>
    intro i hi
    have hi' : i < files.length := by omega
    obtain ⟨f0, f1, f2, f3, f4, f5, f6⟩ := serialize_fields files hn ht i hi'
    have hf : strlen files[i].name ≤ 247 := hn _ (List.getElem_mem _)
    have hstep : 16 + 256 * i + ENTRY_SIZE = 16 + 256 * (i + 1) := by
      unfold ENTRY_SIZE; omega
    have hdrop : files.drop i = files[i] :: files.drop (i + 1) := List.drop_eq_getElem_cons hi'
    have hpath : output_path none (cstr files[i].name) = cstr files[i].name := by
      unfold output_path
      simp only [cstr_cstr]
      apply List.take_of_length_le
      unfold strlen at hf
      unfold PATH_MAX
      omega
    obtain ⟨ih1, ih2⟩ := ih (i + 1) (by omega)
    rw [extract_entries]
    simp only [f1, f2, f3, f4, f6, hstep, should_extract,
      List.length_nil, gt_iff_lt, Nat.lt_irrefl, if_false, if_true, MAX_NAME_LEN, hpath]
    rw [if_neg (by unfold ENTRY_SIZE at hstep; omega), if_neg (by omega)]
    simp only [Bool.not_true, Bool.false_eq_true, if_false]
    rw [if_neg (by omega), hdrop]
    cases hw : fs.write_ok (cstr files[i].name) files[i].contents <;>
      simp only [Bool.not_false, Bool.not_true, if_true, Bool.false_eq_true, if_false, ih1, ih2,
        List.map_cons, and_self]

/-! ### Round trip -/

theorem strlen_le_of_names (files : List FileEntry)
    (hnames : ∀ f ∈ files, (∀ b ∈ f.name, b ≠ 0) ∧ f.name.length ≤ 247) :
    ∀ f ∈ files, strlen f.name ≤ 247 := by
  intro f hf
  rw [strlen_of_nul_free _ (hnames f hf).1]
  exact (hnames f hf).2

theorem extract_archive_no_entries (fs : Fs) (buf : List Byte) (options : Nat)
    (h16 : 16 ≤ buf.length) (hmagic : read_u64_le buf 0 = MAGIC)
    (hcnt : read_u32_le buf 8 = 0) (hver : read_u32_le buf 12 = 1) :
    (extract_archive fs buf none [] options).writes = [] := by
  have h16' : ¬ buf.length < 16 := by omega
  simp only [extract_archive, h16', hmagic, hver, hcnt, ARCHIVE_VERSION, ne_eq,
    not_true_eq_false, if_false, Option.isSome_none, Bool.false_and, Bool.false_eq_true,
    extract_entries, HEADER_SIZE]

theorem total_data_size_replicate_empty (n : Nat) (name : List Byte) :
    total_data_size (List.replicate n ⟨name, []⟩) = 0 := by
  induction n with
  | zero => rfl
  | succ n ih => simp [List.replicate_succ, total_data_size, ih]

/-- C1, the claim as stated fails: a list of `2^32` entries (empty names, no
content) meets every condition of the claim, but the header's 32-bit entry
count of its archive is 0 and walking the archive yields no entry at all. -/
theorem C1_counterexample :
    (∀ f ∈ many_empty_files, (∀ b ∈ f.name, b ≠ 0) ∧ f.name.length ≤ 247) ∧
    (many_empty_files.map (fun f => f.contents.length)).sum < 2 ^ 32 ∧
    (extract_archive fs_ok (serialize many_empty_files) none [] 0).writes = [] ∧
    (extract_archive fs_ok (serialize many_empty_files) none [] 0).writes
      ≠ many_empty_files.map (fun f => (f.name, f.contents)) := by
  have hmem : ∀ f ∈ many_empty_files, f = ⟨[], []⟩ := fun f hf => List.eq_of_mem_replicate hf
  have hnames : ∀ f ∈ many_empty_files, (∀ b ∈ f.name, b ≠ 0) ∧ f.name.length ≤ 247 := by
    intro f hf
    rw [hmem f hf]
    simp
  have hn := strlen_le_of_names _ hnames
  have hlen : many_empty_files.length = 2 ^ 32 := List.length_replicate _ _
  obtain ⟨h16, hmagic, hcnt, hver⟩ := serialize_header many_empty_files hn
  have hcnt' : read_u32_le (serialize many_empty_files) 8 = 0 := by
    rw [hcnt, hlen]
    exact Nat.mod_self _
  have hw : (extract_archive fs_ok (serialize many_empty_files) none [] 0).writes = [] :=
    extract_archive_no_entries fs_ok _ 0 h16 hmagic hcnt' hver
  refine ⟨hnames, ?_, hw, ?_⟩
  · rw [← total_data_size_eq]
    unfold many_empty_files
    rw [total_data_size_replicate_empty]
    exact Nat.two_pow_pos 32
  · rw [hw]
    intro h
    have := congrArg List.length h
    rw [List.length_map, hlen] at this
    simp at this

/-- C1 as amended: for every ordered list of fewer than `2^24` (name, content)
pairs in which each name is a NUL-free byte string of at most 247 bytes and the
total content length is below `2^32`, walking the archive the writer
serializes from the list, as `extract_archive` and `print_archive` do with an
empty filter, yields one entry per pair, with the same names and the same
content bytes in the same order (`extract_archive` makes exactly one
`write_file` call per pair, `print_archive` prints the contents back to back);
entries with equal names stay separate entries. -/
theorem C1_round_trip (fs : Fs) (options : Nat) (files : List FileEntry)
    (hcount : files.length < 2 ^ 24)
    (hnames : ∀ f ∈ files, (∀ b ∈ f.name, b ≠ 0) ∧ f.name.length ≤ 247)
    (ht : (files.map (fun f => f.contents.length)).sum < 2 ^ 32) :
    (extract_archive fs (serialize files) none [] options).ret = true ∧
    (extract_archive fs (serialize files) none [] options).writes
      = files.map (fun f => (f.name, f.contents)) ∧
    print_archive (serialize files) []
      = { ret := true, stdout := (files.map (fun f => f.contents)).flatten, stderr := [] } := by
  have hn := strlen_le_of_names files hnames
  rw [← total_data_size_eq] at ht
  obtain ⟨h16, hmagic, hcnt, hver⟩ := serialize_header files hn
  have hcnt' : read_u32_le (serialize files) 8 = files.length := by
    rw [hcnt]; exact Nat.mod_eq_of_lt (by omega)
  have h16' : ¬ (serialize files).length < 16 := by omega
  have hdbs := data_block_start_eq files.length hcount
  have hx := extract_entries_serialize fs options files hn ht files.length 0 (by omega)
  have hp := print_entries_serialize files hn ht files.length 0 (by omega)
  have hmap : files.map (fun f => (cstr f.name, f.contents))
      = files.map (fun f => (f.name, f.contents)) := by
    apply List.map_congr_left
    intro f hf
    rw [cstr_of_nul_free _ (hnames f hf).1]
  simp only [Nat.mul_zero, Nat.add_zero, List.drop_zero] at hx hp
  refine ⟨?_, ?_, ?_⟩
  · simp only [extract_archive, h16', hmagic, hver, hcnt', hdbs, ARCHIVE_VERSION, ne_eq,
      not_true_eq_false, if_false, Option.isSome_none, Bool.false_and, Bool.false_eq_true,
      HEADER_SIZE]
    exact hx.1
  · simp only [extract_archive, h16', hmagic, hver, hcnt', hdbs, ARCHIVE_VERSION, ne_eq,
      not_true_eq_false, if_false, Option.isSome_none, Bool.false_and, Bool.false_eq_true,
      HEADER_SIZE]
    rw [hx.2, hmap]
  · simp only [print_archive, h16', hmagic, hcnt', hdbs, ne_eq,
      not_true_eq_false, if_false, HEADER_SIZE, hp]
    rfl

set_option maxRecDepth 10000 in
/-- C1 at a concrete input: two entries with the same name `a` and different
contents come back as two entries. -/
theorem C1_round_trip_witness :
    (extract_archive fs_ok (serialize [⟨[97], [1]⟩, ⟨[97], [2]⟩]) none [] 0).writes
      = [([97], [1]), ([97], [2])] :=
  (C1_round_trip fs_ok 0 [⟨[97], [1]⟩, ⟨[97], [2]⟩] (by norm_num) (by decide) (by norm_num)).2.1

/-! ### delete_from_archive -/

theorem byteAt_mem (data : List Byte) (x : Nat) (h : x < data.length) :
    byteAt (read_file_buffer data) x = byteAt data x := by
  unfold byteAt read_file_buffer
  simp [List.getD_eq_getElem?_getD, List.getElem?_append_left h]

theorem slice_mem (data : List Byte) (a n : Nat) (h : a + n ≤ data.length) :
    slice (read_file_buffer data) a n = slice data a n := by
  unfold slice read_file_buffer
  rw [List.drop_append_of_le_length (by omega),
    List.take_append_of_le_length (by rw [List.length_drop]; omega)]

theorem read_u32_le_mem (data : List Byte) (a : Nat) (h : a + 4 ≤ data.length) :
    read_u32_le (read_file_buffer data) a = read_u32_le data a := by
  unfold read_u32_le
  rw [byteAt_mem _ _ (by omega), byteAt_mem _ _ (by omega), byteAt_mem _ _ (by omega),
    byteAt_mem _ _ (by omega)]

theorem read_file_buffer_length (data : List Byte) :
    (read_file_buffer data).length = data.length + 1 := by
  simp [read_file_buffer]

theorem should_delete_iff (name : List Byte) (files_to_delete : List (List Byte)) :
    should_delete name files_to_delete = true ↔ cstr name ∈ files_to_delete.map cstr := by
  unfold should_delete strcmp_eq
  simp only [List.any_eq_true, beq_iff_eq, List.mem_map]
  constructor
  · rintro ⟨f, hf, e⟩
    exact ⟨f, hf, e.symm⟩
  · rintro ⟨f, hf, e⟩
    exact ⟨f, hf, e.symm⟩

/-- The loop of `delete_from_archive` on a buffer that holds all the
descriptors it visits, while the kept list stays within its 16 slots: the loop
ends in a defined state, having appended the kept entries in stored order and
counted the deleted ones. -/
theorem delete_entries_spec (data : List Byte) (files_to_delete : List (List Byte))
    (options count : Nat) :
    ∀ (k i : Nat) (st : DelState),
      16 + 256 * (i + k) ≤ data.length →
      st.files.length + ((List.range' i k).filterMap
        (kept_entry data files_to_delete count)).length ≤ 16 →
      st.deleted_count + k ≤ INT_MAX →
      ∃ st', delete_entries data files_to_delete options (16 + 256 * count) k (16 + 256 * i) st
          = some st' ∧
        st'.files = st.files ++ (List.range' i k).filterMap
          (kept_entry data files_to_delete count) ∧
        st'.deleted_count = st.deleted_count
          + ((List.range' i k).filter (fun j => entry_deleted data files_to_delete j)).length := by
  intro k
  induction k with
  | zero =>
    intro i st _ _ _
    exact ⟨st, rfl, by simp, by simp⟩
  | succ k ih =>
    intro i st hb hcap hint
    have hstep : 16 + 256 * i + ENTRY_SIZE = 16 + 256 * (i + 1) := by
      unfold ENTRY_SIZE; omega
    have hb' : 16 + 256 * (i + 1 + k) ≤ data.length := by omega
    have hr : List.range' i (k + 1) = i :: List.range' (i + 1) k := List.range'_succ _ _ _
    have hlen := read_file_buffer_length data
    rw [hr] at hcap ⊢
    rw [delete_entries]
    simp only [hlen, hstep]
    rw [if_neg (by omega), byteAt_mem _ _ (by omega)]
    by_cases hnl : byteAt data (16 + 256 * i) > MAX_NAME_LEN
    · -- malformed name length: skipped
      have hk : kept_entry data files_to_delete count i = none := by
        unfold kept_entry entry_name_len
        unfold MAX_NAME_LEN at hnl
        rw [if_neg (by omega)]
      have hd : ¬ entry_deleted data files_to_delete i := by
        unfold entry_deleted entry_name_len
        unfold MAX_NAME_LEN at hnl
        omega
      rw [if_pos hnl]
      rw [List.filterMap_cons_none hk] at hcap ⊢
      rw [List.filter_cons_of_neg (by simpa using hd)]
      exact ih (i + 1) st hb' hcap (by omega)
    · have hnl' : byteAt data (16 + 256 * i) ≤ 247 := by
        unfold MAX_NAME_LEN at hnl; omega
      rw [if_neg hnl, if_neg (by omega), slice_mem _ _ _ (by omega)]
      by_cases hsd : should_delete (slice data (16 + 256 * i + 1) (byteAt data (16 + 256 * i)))
          files_to_delete = true
      · -- named by the delete list
        have hin : entry_name data i ∈ files_to_delete.map cstr :=
          (should_delete_iff _ _).mp hsd
        have hk : kept_entry data files_to_delete count i = none := by
          unfold kept_entry
          rw [if_neg (by
            intro h
            exact h.2.1 hin)]
        have hd : entry_deleted data files_to_delete i := ⟨hnl', hin⟩
        rw [if_pos hsd, if_neg (by omega)]
        rw [List.filterMap_cons_none hk] at hcap ⊢
        rw [List.filter_cons_of_pos (by simpa using hd)]
        obtain ⟨st', h1, h2, h3⟩ := ih (i + 1)
          { st with deleted_count := st.deleted_count + 1,
                    stdout := st.stdout ++ (if options &&& OPT_V ≠ 0 then
                      verbose_d (slice data (16 + 256 * i + 1) (byteAt data (16 + 256 * i)))
                      else []) } hb' hcap (by simp only []; omega)
        refine ⟨st', h1, h2, ?_⟩
        rw [h3]
        simp only [List.length_cons]
        omega
      · have hnin : entry_name data i ∉ files_to_delete.map cstr :=
          fun h => hsd ((should_delete_iff _ _).mpr h)
        have hd : ¬ entry_deleted data files_to_delete i := fun h => hnin h.2
        rw [if_neg hsd, if_neg (by omega), read_u32_le_mem _ _ (by omega),
          read_u32_le_mem _ _ (by omega)]
        rw [List.filter_cons_of_neg (by simpa using hd)]
        by_cases hrange : 16 + 256 * count + read_u32_le data (16 + 256 * i + 248)
            + read_u32_le data (16 + 256 * i + 252) > data.length
        · -- content range outside the buffer: skipped with a warning
          have hk : kept_entry data files_to_delete count i = none := by
            unfold kept_entry entry_in_range entry_content_offset entry_content_length
            rw [if_neg (by
              intro h
              omega)]
          rw [if_pos hrange]
          rw [List.filterMap_cons_none hk] at hcap ⊢
          exact ih (i + 1) _ hb' hcap (by simp only []; omega)
        · -- kept
          have hk : kept_entry data files_to_delete count i
              = some ⟨entry_name data i, entry_content data count i⟩ := by
            unfold kept_entry entry_in_range entry_content_offset entry_content_length
            rw [if_pos ⟨hnl', hnin, by omega⟩]
          rw [List.filterMap_cons_some hk] at hcap ⊢
          rw [if_neg hrange, if_neg (by
            unfold FILE_LIST_CAPACITY
            simp only [List.length_cons] at hcap
            omega)]
          rw [slice_mem _ _ _ (by omega)]
          obtain ⟨st', h1, h2, h3⟩ := ih (i + 1)
            { st with files := st.files ++
                [{ name := cstr (slice data (16 + 256 * i + 1) (byteAt data (16 + 256 * i))),
                   contents := slice data (16 + 256 * count + read_u32_le data (16 + 256 * i + 248))
                     (read_u32_le data (16 + 256 * i + 252)) }] } hb'
            (by simp only [List.length_append, List.length_cons, List.length_nil] at hcap ⊢
                omega)
            (by simp only []; omega)
          refine ⟨st', h1, ?_, h3⟩
          rw [h2]
          simp [entry_name, entry_name_bytes, entry_name_len, entry_content,
            entry_content_offset, entry_content_length]

theorem delete_run (data : List Byte) (files_to_delete : List (List Byte))
    (options : Nat)
    (hcount : read_u32_le data 8 < 2 ^ 24)
    (hdesc : 16 + 256 * read_u32_le data 8 ≤ data.length)
    (hkept : (kept_set data files_to_delete).length ≤ 16) :
    ∃ st, delete_entries data files_to_delete options (data_block_start (read_u32_le data 8))
        (read_u32_le data 8) HEADER_SIZE
        { files := [], deleted_count := 0, stdout := [], stderr := [] } = some st ∧
      st.files = kept_set data files_to_delete ∧
      (st.deleted_count = 0 ↔
        ¬ ∃ i, i < read_u32_le data 8 ∧ entry_deleted data files_to_delete i) := by
  obtain ⟨st, h1, h2, h3⟩ := delete_entries_spec data files_to_delete options
    (read_u32_le data 8) (read_u32_le data 8) 0
    { files := [], deleted_count := 0, stdout := [], stderr := [] }
    (by omega)
    (by rw [← List.range_eq_range']; simpa [kept_set] using hkept)
    (by unfold INT_MAX; simp only []; omega)
  refine ⟨st, ?_, ?_, ?_⟩
  · rw [data_block_start_eq _ hcount]
    exact h1
  · rw [h2, ← List.range_eq_range']
    rfl
  · rw [h3, ← List.range_eq_range']
    simp only [Nat.zero_add, List.length_eq_zero, List.filter_eq_nil_iff, List.mem_range,
      decide_eq_true_eq, not_exists, not_and]

set_option maxRecDepth 100000 in
/-- C2, the claim as stated fails: deleting `x` from an archive that also holds
an entry whose three name bytes are `a`, NUL, `b` writes an archive whose only
entry has the one name byte `a`: the kept entry does not keep its original
name, and the bytes written are not the archive of the kept entry under its
original name. -/
theorem C2_counterexample :
    entry_name_bytes nul_name_and_x_archive 0 = [97, 0, 98] ∧
    entry_name_bytes nul_name_and_x_archive 1 = [120] ∧
    delete_from_archive nul_name_and_x_archive [[120]] 0 true
      = some { ret := true,
               written := some (spec_header 1 ++ spec_descriptor [97] 0 1 ++ [49]),
               stdout := [], stderr := [] } ∧
    entry_name_bytes (spec_header 1 ++ spec_descriptor [97] 0 1 ++ [49]) 0 = [97] ∧
    spec_header 1 ++ spec_descriptor [97] 0 1 ++ [49]
      ≠ spec_header 1 ++ spec_descriptor [97, 0, 98] 0 1 ++ [49] := by
  decide

/-- C2 as amended: for every archive buffer with a valid header that declares
fewer than `2^24` entries, all of whose declared descriptors lie inside the
buffer, and every delete list that matches at least one stored entry and
leaves at most 16 entries to keep, the bytes `delete_from_archive` writes are
exactly the writer's serialization of the kept set: the entries, in their
stored order, whose name (a C string: the stored name bytes up to the first
NUL) equals no name of the delete list (and whose name length is at most 247
and whose content range lies inside the buffer), each with its name as a C
string and its original content bytes. -/
theorem C2_delete_writes_kept_set (data : List Byte) (files_to_delete : List (List Byte))
    (options : Nat) (write_ok : Bool)
    (h16 : 16 ≤ data.length)
    (hmagic : read_u64_le data 0 = 0x267052A0B125277D)
    (hver : read_u32_le data 12 = 1)
    (hcount : read_u32_le data 8 < 2 ^ 24)
    (hdesc : 16 + 256 * read_u32_le data 8 ≤ data.length)
    (hkept : (kept_set data files_to_delete).length ≤ 16)
    (hmatch : ∃ i, i < read_u32_le data 8 ∧ entry_deleted data files_to_delete i) :
    ∃ d, delete_from_archive data files_to_delete options write_ok = some d ∧
      d.ret = write_ok ∧
      d.written = some (serialize (kept_set data files_to_delete)) := by
  obtain ⟨st, h1, h2, h3⟩ := delete_run data files_to_delete options hcount hdesc hkept
  have h16' : ¬ data.length < 16 := by omega
  have hm : read_u64_le data 0 = MAGIC := hmagic
  have hdc : st.deleted_count ≠ 0 := fun h => (h3.mp h) hmatch
  simp only [delete_from_archive, HEADER_SIZE, h16', hm, hver, ARCHIVE_VERSION, ne_eq,
    not_true_eq_false, if_false]
  simp only [HEADER_SIZE] at h1
  rw [h1]
  simp only [hdc, if_false, h2]
  exact ⟨_, rfl, rfl, rfl⟩

set_option maxRecDepth 100000 in
/-- C2 at a concrete input: deleting `a` from the archive that holds `x`
(content `1`), `a` (content `2`) and a second `x` (content `3`). The kept set is
the two entries `x` in their stored order, with their names and their contents
`1` and `3`, and the bytes written are the writer's serialization of it. -/
theorem C2_delete_writes_kept_set_witness :
    kept_set duplicate_x_archive [[97]] = [⟨[120], [49]⟩, ⟨[120], [51]⟩] ∧
    ∃ d, delete_from_archive duplicate_x_archive [[97]] 0 true = some d ∧
      d.ret = true ∧
      d.written = some (serialize (kept_set duplicate_x_archive [[97]])) :=
  ⟨by decide,
    C2_delete_writes_kept_set duplicate_x_archive [[97]] 0 true (by decide) (by decide)
      (by decide) (by decide) (by decide) (by decide) ⟨1, by decide, by decide⟩⟩

set_option maxRecDepth 100000 in
/-- C3, the claim as stated fails: the only stored entry of the archive has the
three name bytes `a`, NUL, `b`, so no stored name equals the delete-list name
`a`; all the same the delete does not fail: the entry is matched (its name
compared as a C string), deleted, and the archive is rewritten empty. -/
theorem C3_counterexample :
    read_u32_le nul_name_archive 8 = 1 ∧
    entry_name_bytes nul_name_archive 0 = [97, 0, 98] ∧
    entry_name_bytes nul_name_archive 0 ∉ [[(97 : Byte)]] ∧
    delete_from_archive nul_name_archive [[97]] 0 true
      = some { ret := true, written := some (spec_header 0), stdout := [],
               stderr := [Diag.allFilesDeleted] } := by
  decide

set_option maxRecDepth 1000000 in
/-- C3 as amended: for every archive buffer with a valid header that declares
fewer than `2^24` entries, all of whose declared descriptors lie inside the
buffer, and every delete list that leaves at most 16 entries to keep,
`delete_from_archive` fails with "No files deleted" if and only if no stored
entry with a name length of at most 247 has a name that, read as a C string,
equals a name of the delete list, and in that case nothing is written; in
particular deleting `b.txt` from an archive holding `dir/b.txt` and
`other/b.txt` matches neither entry and fails. -/
theorem C3_nothing_deleted (data : List Byte) (files_to_delete : List (List Byte))
    (options : Nat) (write_ok : Bool)
    (h16 : 16 ≤ data.length)
    (hmagic : read_u64_le data 0 = 0x267052A0B125277D)
    (hver : read_u32_le data 12 = 1)
    (hcount : read_u32_le data 8 < 2 ^ 24)
    (hdesc : 16 + 256 * read_u32_le data 8 ≤ data.length)
    (hkept : (kept_set data files_to_delete).length ≤ 16) :
    (∃ d, delete_from_archive data files_to_delete options write_ok = some d ∧
      ((d.ret = false ∧ d.written = none ∧ Diag.noFilesDeleted ∈ d.stderr) ↔
        ¬ ∃ i, i < read_u32_le data 8 ∧ entry_deleted data files_to_delete i)) ∧
    delete_from_archive (serialize two_b_files) [name_b] 0 true
      = some { ret := false, written := none, stdout := [],
               stderr := [Diag.noFilesDeleted] } := by
  refine ⟨?_, by decide⟩
  obtain ⟨st, h1, h2, h3⟩ := delete_run data files_to_delete options hcount hdesc hkept
  have h16' : ¬ data.length < 16 := by omega
  have hm : read_u64_le data 0 = MAGIC := hmagic
  simp only [delete_from_archive, HEADER_SIZE, h16', hm, hver, ARCHIVE_VERSION, ne_eq,
    not_true_eq_false, if_false]
  simp only [HEADER_SIZE] at h1
  rw [h1]
  by_cases hdc : st.deleted_count = 0
  · simp only [hdc, if_true]
    refine ⟨_, rfl, ?_⟩
    constructor
    · intro _
      exact h3.mp hdc
    · intro _
      exact ⟨rfl, rfl, by simp⟩
  · simp only [hdc, if_false]
    refine ⟨_, rfl, ?_⟩
    constructor
    · intro h
      exact absurd h.2.1 (by simp)
    · intro h
      exact absurd (h3.mpr h) hdc

set_option maxRecDepth 100000 in
/-- C3 at a concrete input: deleting `b` from the one-entry archive holding `a`. -/
theorem C3_nothing_deleted_witness :
    ∃ d, delete_from_archive one_entry_archive [[98]] 0 true = some d ∧
      ((d.ret = false ∧ d.written = none ∧ Diag.noFilesDeleted ∈ d.stderr) ↔
        ¬ ∃ i, i < read_u32_le one_entry_archive 8 ∧ entry_deleted one_entry_archive [[98]] i) :=
  (C3_nothing_deleted one_entry_archive [[98]] 0 true (by decide) (by decide) (by decide)
    (by decide) (by decide) (by decide)).1

/-! ### The byte codec is a bijection -/

theorem le32_read_u32_le (b : List Byte) (hb : b.length = 4) : le32 (read_u32_le b 0) = b := by
  match b, hb with
  | [b0, b1, b2, b3], _ =>
    rw [read_u32_le_eq_sum]
    simp only [byteAt, le32, List.getD_cons_zero, List.getD_cons_succ, Nat.zero_add]
    have h0 := b0.isLt
    have h1 := b1.isLt
    have h2 := b2.isLt
    have h3 := b3.isLt
    simp only [List.cons.injEq, and_true]
    refine ⟨?_, ?_, ?_, ?_⟩ <;> (apply Fin.ext; simp only [u8_val]; omega)

theorem le64_read_u64_le (b : List Byte) (hb : b.length = 8) : le64 (read_u64_le b 0) = b := by
  match b, hb with
  | [b0, b1, b2, b3, b4, b5, b6, b7], _ =>
    rw [read_u64_le_eq_sum]
    simp only [byteAt, le64, List.getD_cons_zero, List.getD_cons_succ, Nat.zero_add]
    have h0 := b0.isLt
    have h1 := b1.isLt
    have h2 := b2.isLt
    have h3 := b3.isLt
    have h4 := b4.isLt
    have h5 := b5.isLt
    have h6 := b6.isLt
    have h7 := b7.isLt
    simp only [List.cons.injEq, and_true]
    refine ⟨?_, ?_, ?_, ?_, ?_, ?_, ?_, ?_⟩ <;> (apply Fin.ext; simp only [u8_val]; omega)

theorem memcpy_whole (b src : List Byte) (h : b.length = src.length) : memcpy b 0 src = src := by
  have := memcpy_mid src [] b [] 0 rfl h
  simpa using this

/-- C11: the codec's reads and writes are mutually inverse. For `v < 2^32`
reading the four bytes `write_u32_le` stored gives `v` back, for `v < 2^64`
reading the eight bytes `write_u64_le` stored gives `v` back, and for every
4-byte (8-byte) sequence `b`, writing `read_u32_le b` (`read_u64_le b`) over
four (eight) bytes reproduces `b`. -/
theorem C11_codec_inverse (buf b : List Byte) (off v : Nat) :
    (v < 2 ^ 32 → off + 4 ≤ buf.length → read_u32_le (write_u32_le buf off v) off = v) ∧
    (v < 2 ^ 64 → off + 8 ≤ buf.length → read_u64_le (write_u64_le buf off v) off = v) ∧
    (b.length = 4 → write_u32_le b 0 (read_u32_le b 0) = b) ∧
    (b.length = 8 → write_u64_le b 0 (read_u64_le b 0) = b) ∧
    (b.length = 4 → off + 4 ≤ buf.length →
      slice (write_u32_le buf off (read_u32_le b 0)) off 4 = b) ∧
    (b.length = 8 → off + 8 ≤ buf.length →
      slice (write_u64_le buf off (read_u64_le b 0)) off 8 = b) := by
  have hsplit : ∀ n, buf = buf.take off ++ ((buf.drop off).take n ++ (buf.drop off).drop n) := by
    intro n
    rw [List.take_append_drop, List.take_append_drop]
  have w32 : ∀ x, off + 4 ≤ buf.length → slice (write_u32_le buf off x) off 4 = le32 x := by
    intro x hb
    rw [write_u32_le_eq_memcpy, hsplit 4,
      memcpy_mid (le32 x) _ _ _ off (by simp; omega) (by simp [le32_length]; omega)]
    exact slice_append_mid _ _ _ off 4 (by simp; omega) rfl
  have w64 : ∀ x, off + 8 ≤ buf.length → slice (write_u64_le buf off x) off 8 = le64 x := by
    intro x hb
    rw [write_u64_le_eq_memcpy, hsplit 8,
      memcpy_mid (le64 x) _ _ _ off (by simp; omega) (by simp [le64_length]; omega)]
    exact slice_append_mid _ _ _ off 8 (by simp; omega) rfl
  refine ⟨?_, ?_, ?_, ?_, ?_, ?_⟩
  · intro hv hb
    rw [read_u32_le_of_slice _ _ v (w32 v hb)]
    exact Nat.mod_eq_of_lt hv
  · intro hv hb
    rw [read_u64_le_of_slice _ _ v (w64 v hb)]
    exact Nat.mod_eq_of_lt hv
  · intro hb
    rw [write_u32_le_eq_memcpy, le32_read_u32_le b hb]
    exact memcpy_whole b b rfl
  · intro hb
    rw [write_u64_le_eq_memcpy, le64_read_u64_le b hb]
    exact memcpy_whole b b rfl
  · intro hb hbuf
    rw [w32 _ hbuf, le32_read_u32_le b hb]
  · intro hb hbuf
    rw [w64 _ hbuf, le64_read_u64_le b hb]

/-- C11 at a concrete input: `0xDEADBEEF` written at offset 2 of an eight-byte
buffer and read back. -/
theorem C11_codec_inverse_witness :
    read_u32_le (write_u32_le (List.replicate 8 0) 2 0xDEADBEEF) 2 = 0xDEADBEEF :=
  (C11_codec_inverse (List.replicate 8 0) [] 2 0xDEADBEEF).1 (by norm_num) (by decide)

/-! ### The reader loops as comprehensions over the stored entries -/

theorem should_list_selected (bytes : List Byte) (file_filter : List (List Byte)) :
    should_list bytes file_filter = true ↔ selected file_filter (cstr bytes) := by
  rw [should_list_iff]
  rfl

theorem held_le_iff (data : List Byte) (h16 : 16 ≤ data.length) (i : Nat) :
    16 + 256 * i + 256 ≤ data.length ↔ i < descriptors_held data := by
  unfold descriptors_held
  omega

theorem list_entries_stdout (data : List Byte) (file_filter : List (List Byte))
    (h16 : 16 ≤ data.length) :
    ∀ (k i : Nat),
      (list_entries data file_filter k i (16 + 256 * i)).1
        = ((List.range' i (min k (descriptors_held data - i))).map
            (list_line data file_filter)).flatten := by
  intro k
  induction k with
  | zero => intro i; simp [list_entries]
  | succ k ih =>
    intro i
    have hstep : 16 + 256 * i + ENTRY_SIZE = 16 + 256 * (i + 1) := by
      unfold ENTRY_SIZE; omega
    have hh := held_le_iff data h16 i
    rw [list_entries]
    by_cases hoob : 16 + 256 * i + ENTRY_SIZE > data.length
    · have : descriptors_held data - i = 0 := by
        unfold ENTRY_SIZE at hoob; omega
      rw [if_pos hoob, this]
      simp
    · have hi : i < descriptors_held data := by
        unfold ENTRY_SIZE at hoob; omega
      have hmin : min (k + 1) (descriptors_held data - i)
          = min k (descriptors_held data - (i + 1)) + 1 := by omega
      rw [if_neg hoob, hmin, List.range'_succ, List.map_cons, List.flatten_cons, ← ih (i + 1)]
      simp only [hstep]
      unfold list_line entry_name entry_name_bytes entry_name_len
      by_cases hnl : byteAt data (16 + 256 * i) > MAX_NAME_LEN
      · have : ¬ byteAt data (16 + 256 * i) ≤ 247 := by
          unfold MAX_NAME_LEN at hnl; omega
        simp [hnl, this]
      · have hle : byteAt data (16 + 256 * i) ≤ 247 := by
          unfold MAX_NAME_LEN at hnl; omega
        by_cases hs : should_list (slice data (16 + 256 * i + 1) (byteAt data (16 + 256 * i)))
            file_filter = true
        · have hsel := (should_list_selected _ _).mp hs
          simp [hnl, hle, hs, hsel]
        · have hsel : ¬ selected file_filter
              (cstr (slice data (16 + 256 * i + 1) (byteAt data (16 + 256 * i)))) :=
            fun h => hs ((should_list_selected _ _).mpr h)
          simp [hnl, hle, hs, hsel]

theorem print_entries_stdout (data : List Byte) (file_filter : List (List Byte))
    (block_start : Nat) (h16 : 16 ≤ data.length) :
    ∀ (k i : Nat),
      (print_entries data file_filter block_start k i (16 + 256 * i)).1
        = ((List.range' i (min k (descriptors_held data - i))).filterMap
            (content_piece data file_filter block_start)).flatten := by
  intro k
  induction k with
  | zero => intro i; simp [print_entries]
  | succ k ih =>
    intro i
    have hstep : 16 + 256 * i + ENTRY_SIZE = 16 + 256 * (i + 1) := by
      unfold ENTRY_SIZE; omega
    have hh := held_le_iff data h16 i
    rw [print_entries]
    by_cases hoob : 16 + 256 * i + ENTRY_SIZE > data.length
    · have : descriptors_held data - i = 0 := by
        unfold ENTRY_SIZE at hoob; omega
      rw [if_pos hoob, this]
      simp
    · have hi : i < descriptors_held data := by
        unfold ENTRY_SIZE at hoob; omega
      have hmin : min (k + 1) (descriptors_held data - i)
          = min k (descriptors_held data - (i + 1)) + 1 := by omega
      rw [if_neg hoob, hmin, List.range'_succ]
      simp only [hstep]
      by_cases hnl : byteAt data (16 + 256 * i) > MAX_NAME_LEN
      · have hc : content_piece data file_filter block_start i = none := by
          unfold content_piece entry_name_len
          unfold MAX_NAME_LEN at hnl
          rw [if_neg (by omega)]
        rw [if_pos hnl, List.filterMap_cons_none hc]
        exact ih (i + 1)
      · have hle : byteAt data (16 + 256 * i) ≤ 247 := by
          unfold MAX_NAME_LEN at hnl; omega
        rw [if_neg hnl]
        by_cases hs : should_print (slice data (16 + 256 * i + 1) (byteAt data (16 + 256 * i)))
            file_filter = true
        · have hsel : selected file_filter (entry_name data i) := (should_list_selected _ _).mp hs
          rw [if_pos hs]
          by_cases hr : block_start + read_u32_le data (16 + 256 * i + 248)
              + read_u32_le data (16 + 256 * i + 252) > data.length
          · have hc : content_piece data file_filter block_start i = none := by
              unfold content_piece entry_content_offset entry_content_length
              rw [if_neg (by omega)]
            rw [if_pos hr, List.filterMap_cons_none hc]
            exact ih (i + 1)
          · have hc : content_piece data file_filter block_start i
                = some (slice data (block_start + read_u32_le data (16 + 256 * i + 248))
                    (read_u32_le data (16 + 256 * i + 252))) := by
              unfold content_piece entry_content_offset entry_content_length entry_name_len
              rw [if_pos ⟨hle, hsel, by omega⟩]
            rw [if_neg hr, List.filterMap_cons_some hc, List.flatten_cons, ← ih (i + 1)]
        · have hsel : ¬ selected file_filter (entry_name data i) :=
            fun h => hs ((should_list_selected _ _).mpr h)
          have hc : content_piece data file_filter block_start i = none := by
            unfold content_piece
            rw [if_neg (by intro h; exact hsel h.2.1)]
          rw [if_neg hs, List.filterMap_cons_none hc]
          exact ih (i + 1)

theorem extract_entries_spec (fs : Fs) (data : List Byte) (dir_path : Option (List Byte))
    (file_filter : List (List Byte)) (options block_start : Nat) (h16 : 16 ≤ data.length) :
    ∀ (k i : Nat),
      ((extract_entries fs data dir_path file_filter options block_start k i
          (16 + 256 * i)).ret = decide (k ≤ descriptors_held data - i)) ∧
      (extract_entries fs data dir_path file_filter options block_start k i
          (16 + 256 * i)).writes
        = (List.range' i (min k (descriptors_held data - i))).filterMap
            (extract_piece data dir_path file_filter block_start) := by
  intro k
  induction k with
  | zero => intro i; simp [extract_entries]
  | succ k ih =>
    intro i
    have hstep : 16 + 256 * i + ENTRY_SIZE = 16 + 256 * (i + 1) := by
      unfold ENTRY_SIZE; omega
    have hh := held_le_iff data h16 i
    obtain ⟨ih1, ih2⟩ := ih (i + 1)
    have hdec : ∀ (a b : Nat), (i < descriptors_held data) →
        decide (k ≤ descriptors_held data - (i + 1))
          = decide (k + 1 ≤ descriptors_held data - i) := by
      intro _ _ hi
      apply decide_eq_decide.mpr
      omega
    rw [extract_entries]
    by_cases hoob : 16 + 256 * i + ENTRY_SIZE > data.length
    · have h0 : descriptors_held data - i = 0 := by
        unfold ENTRY_SIZE at hoob; omega
      rw [if_pos hoob, h0]
      simp
    · have hi : i < descriptors_held data := by
        unfold ENTRY_SIZE at hoob; omega
      have hmin : min (k + 1) (descriptors_held data - i)
          = min k (descriptors_held data - (i + 1)) + 1 := by omega
      rw [if_neg hoob, hmin, List.range'_succ, ← hdec 0 0 hi]
      simp only [hstep]
      by_cases hnl : byteAt data (16 + 256 * i) > MAX_NAME_LEN
      · have hc : extract_piece data dir_path file_filter block_start i = none := by
          unfold extract_piece content_piece entry_name_len
          unfold MAX_NAME_LEN at hnl
          rw [if_neg (by omega)]
          rfl
        rw [if_pos hnl, List.filterMap_cons_none hc]
        exact ⟨ih1, ih2⟩
      · have hle : byteAt data (16 + 256 * i) ≤ 247 := by
          unfold MAX_NAME_LEN at hnl; omega
        rw [if_neg hnl]
        by_cases hs : should_extract (slice data (16 + 256 * i + 1) (byteAt data (16 + 256 * i)))
            file_filter = true
        · have hsel : selected file_filter (entry_name data i) := (should_list_selected _ _).mp hs
          simp only [hs, Bool.not_true, Bool.false_eq_true, if_false]
          by_cases hr : block_start + read_u32_le data (16 + 256 * i + 248)
              + read_u32_le data (16 + 256 * i + 252) > data.length
          · have hc : extract_piece data dir_path file_filter block_start i = none := by
              unfold extract_piece content_piece entry_content_offset entry_content_length
              rw [if_neg (by omega)]
              rfl
            rw [if_pos hr, List.filterMap_cons_none hc]
            exact ⟨ih1, ih2⟩
          · have hc : extract_piece data dir_path file_filter block_start i
                = some (output_path dir_path
                    (slice data (16 + 256 * i + 1) (byteAt data (16 + 256 * i))),
                  slice data (block_start + read_u32_le data (16 + 256 * i + 248))
                    (read_u32_le data (16 + 256 * i + 252))) := by
              unfold extract_piece content_piece entry_content_offset entry_content_length
                entry_name_len
              rw [if_pos ⟨hle, hsel, by omega⟩]
              simp [entry_name, entry_name_bytes, entry_name_len, output_path, cstr_cstr]
            rw [if_neg hr, List.filterMap_cons_some hc]
            cases hw : fs.write_ok
                (output_path dir_path (slice data (16 + 256 * i + 1) (byteAt data (16 + 256 * i))))
                (slice data (block_start + read_u32_le data (16 + 256 * i + 248))
                    (read_u32_le data (16 + 256 * i + 252))) <;>
              simp only [Bool.not_false, Bool.not_true, if_true, Bool.false_eq_true, if_false,
                ih1, ih2, and_self]
        · have hsel : ¬ selected file_filter (entry_name data i) :=
            fun h => hs ((should_list_selected _ _).mpr h)
          have hc : extract_piece data dir_path file_filter block_start i = none := by
            unfold extract_piece content_piece
            rw [if_neg (by intro h; exact hsel h.2.1)]
            rfl
          have hs' : should_extract (slice data (16 + 256 * i + 1) (byteAt data (16 + 256 * i)))
              file_filter = false := by simpa using hs
          simp only [hs', Bool.not_false, if_true]
          rw [List.filterMap_cons_none hc]
          exact ⟨ih1, ih2⟩

/-! ### The reading operations as comprehensions -/

theorem list_archive_spec (data : List Byte) (file_filter : List (List Byte))
    (h16 : 16 ≤ data.length) (hmagic : read_u64_le data 0 = MAGIC) :
    (list_archive data file_filter).ret = true ∧
    (list_archive data file_filter).stdout
      = ((List.range (min (read_u32_le data 8) (descriptors_held data))).map
          (list_line data file_filter)).flatten := by
  have h16' : ¬ data.length < 16 := by omega
  have h := list_entries_stdout data file_filter h16 (read_u32_le data 8) 0
  simp only [Nat.mul_zero, Nat.add_zero, Nat.sub_zero, ← List.range_eq_range'] at h
  simp only [list_archive, HEADER_SIZE, h16', hmagic, ne_eq, not_true_eq_false, if_false, h,
    and_self]

theorem print_archive_spec (data : List Byte) (file_filter : List (List Byte))
    (h16 : 16 ≤ data.length) (hmagic : read_u64_le data 0 = MAGIC) :
    (print_archive data file_filter).ret = true ∧
    (print_archive data file_filter).stdout
      = ((List.range (min (read_u32_le data 8) (descriptors_held data))).filterMap
          (content_piece data file_filter (data_block_start (read_u32_le data 8)))).flatten := by
  have h16' : ¬ data.length < 16 := by omega
  have h := print_entries_stdout data file_filter (data_block_start (read_u32_le data 8)) h16
    (read_u32_le data 8) 0
  simp only [Nat.mul_zero, Nat.add_zero, Nat.sub_zero, ← List.range_eq_range'] at h
  simp only [print_archive, HEADER_SIZE, h16', hmagic, ne_eq, not_true_eq_false, if_false, h,
    and_self]

theorem extract_archive_spec (fs : Fs) (data : List Byte) (file_filter : List (List Byte))
    (options : Nat) (h16 : 16 ≤ data.length) (hmagic : read_u64_le data 0 = MAGIC)
    (hver : read_u32_le data 12 = 1) :
    (extract_archive fs data none file_filter options).ret
      = decide (read_u32_le data 8 ≤ descriptors_held data) ∧
    (extract_archive fs data none file_filter options).writes
      = (List.range (min (read_u32_le data 8) (descriptors_held data))).filterMap
          (extract_piece data none file_filter (data_block_start (read_u32_le data 8))) := by
  have h16' : ¬ data.length < 16 := by omega
  have h := extract_entries_spec fs data none file_filter options
    (data_block_start (read_u32_le data 8)) h16 (read_u32_le data 8) 0
  simp only [Nat.mul_zero, Nat.add_zero, Nat.sub_zero, ← List.range_eq_range'] at h
  simp only [extract_archive, HEADER_SIZE, h16', hmagic, hver, ARCHIVE_VERSION, ne_eq,
    not_true_eq_false, if_false, Option.isSome_none, Bool.false_and, Bool.false_eq_true]
  exact h

/-! ### Listing -/

theorem serialize_name_fields (files : List FileEntry) (hn : ∀ f ∈ files, strlen f.name ≤ 247)
    (i : Nat) (hi : i < files.length) :
    16 + 256 * i + 256 ≤ (serialize files).length ∧
    byteAt (serialize files) (16 + 256 * i) = strlen files[i].name ∧
    slice (serialize files) (16 + 256 * i + 1) (strlen files[i].name) = cstr files[i].name := by
  have hf : strlen files[i].name ≤ 247 := hn _ (List.getElem_mem _)
  obtain ⟨h0, h1, _, _, _⟩ :=
    spec_descriptor_fields (cstr files[i].name) (offset_of files i) files[i].contents.length hf
  rw [← descriptor_slice files hn i hi] at h0 h1
  refine ⟨by rw [serialize_length]; omega, ?_, ?_⟩
  · rw [byteAt_slice _ _ _ _ (by omega)] at h0
    exact h0
  · rw [slice_slice _ _ _ _ _ (by unfold strlen at hf; omega)] at h1
    exact h1

theorem list_entries_serialize (files : List FileEntry)
    (hn : ∀ f ∈ files, strlen f.name ≤ 247) :
    ∀ (k i : Nat), i + k = files.length →
      list_entries (serialize files) [] k i (16 + 256 * i)
        = (((files.drop i).map (fun f => cstr f.name ++ [NEWLINE])).flatten, []) := by
  intro k
  induction k with
  | zero =>
    intro i hi
    have : files.drop i = [] := List.drop_eq_nil_of_le (by omega)
    simp [list_entries, this]
  | succ k ih =>
    intro i hi
    have hi' : i < files.length := by omega
    obtain ⟨f0, f1, f2⟩ := serialize_name_fields files hn i hi'
    have hf : strlen files[i].name ≤ 247 := hn _ (List.getElem_mem _)
    have hstep : 16 + 256 * i + ENTRY_SIZE = 16 + 256 * (i + 1) := by
      unfold ENTRY_SIZE; omega
    have hdrop : files.drop i = files[i] :: files.drop (i + 1) := List.drop_eq_getElem_cons hi'
    rw [list_entries]
    simp only [f1, f2, hstep, ih (i + 1) (by omega), should_list,
      List.length_nil, gt_iff_lt, Nat.lt_irrefl, if_false, if_true, MAX_NAME_LEN, cstr_cstr]
    rw [if_neg (by unfold ENTRY_SIZE at hstep; omega), if_neg (by omega), hdrop]
    simp only [List.map_cons, List.flatten_cons, List.append_assoc]

theorem list_archive_serialize (files : List FileEntry) (hcount : files.length < 2 ^ 32)
    (hn : ∀ f ∈ files, strlen f.name ≤ 247) :
    list_archive (serialize files) []
      = { ret := true,
          stdout := (files.map (fun f => cstr f.name ++ [NEWLINE])).flatten,
          stderr := [] } := by
  obtain ⟨h16, hmagic, hcnt, _⟩ := serialize_header files hn
  have hcnt' : read_u32_le (serialize files) 8 = files.length := by
    rw [hcnt]; exact Nat.mod_eq_of_lt hcount
  have h16' : ¬ (serialize files).length < 16 := by omega
  have hl := list_entries_serialize files hn files.length 0 (by omega)
  simp only [Nat.mul_zero, Nat.add_zero, List.drop_zero] at hl
  simp only [list_archive, HEADER_SIZE, h16', hmagic, hcnt', ne_eq, not_true_eq_false,
    if_false, hl]

/-- C12 as amended: for every archive buffer with a valid header (at least 16
bytes, correct magic) `list_archive` succeeds and outputs, in stored descriptor
order, the name (read as a C string) of each entry whose descriptor lies inside
the buffer, whose name length is at most 247 and that matches the filter, each
followed by one newline, and nothing else; on the archive serialized from a
list of fewer than `2^32` pairs whose names are NUL-free and at most 247 bytes
long, with an empty filter, the output is the input names in input order, one
per line. -/
theorem C12_list_output (data : List Byte) (file_filter : List (List Byte))
    (files : List FileEntry) :
    (16 ≤ data.length → read_u64_le data 0 = 0x267052A0B125277D →
      (list_archive data file_filter).ret = true ∧
      (list_archive data file_filter).stdout
        = ((List.range (min (read_u32_le data 8) (descriptors_held data))).map
            (list_line data file_filter)).flatten) ∧
    (files.length < 2 ^ 32 →
      (∀ f ∈ files, (∀ b ∈ f.name, b ≠ 0) ∧ f.name.length ≤ 247) →
      list_archive (serialize files) []
        = { ret := true,
            stdout := (files.map (fun f => f.name ++ [NEWLINE])).flatten,
            stderr := [] }) := by
  constructor
  · intro h16 hmagic
    exact list_archive_spec data file_filter h16 hmagic
  · intro hcount hnames
    rw [list_archive_serialize files hcount (strlen_le_of_names files hnames)]
    have hmap : files.map (fun f => cstr f.name ++ [NEWLINE])
        = files.map (fun f => f.name ++ [NEWLINE]) := by
      apply List.map_congr_left
      intro f hf
      rw [cstr_of_nul_free _ (hnames f hf).1]
    rw [hmap]

set_option maxRecDepth 100000 in
/-- C12 at a concrete input: the one-entry archive, and the list `a`, `b`. -/
theorem C12_list_output_witness :
    ((list_archive one_entry_archive []).ret = true ∧
      (list_archive one_entry_archive []).stdout
        = ((List.range (min (read_u32_le one_entry_archive 8)
              (descriptors_held one_entry_archive))).map
            (list_line one_entry_archive [])).flatten) ∧
    list_archive (serialize [⟨[97], [1]⟩, ⟨[98], [2]⟩]) []
      = { ret := true, stdout := [97, 10, 98, 10], stderr := [] } :=
  ⟨(C12_list_output one_entry_archive [] []).1 (by decide) (by decide),
   (C12_list_output [] [] [⟨[97], [1]⟩, ⟨[98], [2]⟩]).2 (by norm_num) (by decide)⟩

/-! ### Entries with equal names -/

theorem last_write_filterMap (f : Nat → Option (List Byte × List Byte)) (m j : Nat)
    (path c : List Byte) (hj : j < m) (hf : f j = some (path, c))
    (hlater : ∀ k, j < k → k < m → ∀ c', f k ≠ some (path, c')) :
    last_write ((List.range m).filterMap f) path = some c := by
  have hsplit : List.range m = List.range' 0 j ++ (j :: List.range' (j + 1) (m - j - 1)) := by
    rw [List.range_eq_range', ← List.range'_succ, ← Nat.zero_add j]
    rw [show ∀ a b, List.range' 0 (0 + j) ++ List.range' (0 + j) (b + 1)
        = List.range' 0 (0 + j) ++ List.range' (0 + (0 + j)) (b + 1) from by
      intro a b; rw [Nat.zero_add (0 + j)]]
    · rw [List.range'_append_1]
      congr 1
      omega
    · exact 0
  have htail : (List.filterMap f (List.range' (j + 1) (m - j - 1))).filter
      (fun w => decide (w.1 = path)) = [] := by
    rw [List.filter_eq_nil_iff]
    intro w hw hp
    obtain ⟨k, hk, hfk⟩ := List.mem_filterMap.mp hw
    have hk' := List.mem_range'_1.mp hk
    have hw1 : w.1 = path := by simpa using hp
    apply hlater k (by omega) (by omega) w.2
    rw [hfk, ← hw1]
  unfold last_write
  rw [hsplit, List.filterMap_append, List.filterMap_cons_some hf, List.filter_append,
    List.filter_cons_of_pos (by simp), htail, List.getLast?_concat]
  rfl

set_option maxRecDepth 100000 in
/-- C17, the claim as stated fails: on the archive holding two entries named
`a` (contents `1` and `2`), `print_archive` with the filter `a` prints both
contents, not only the first one, and `extract_archive` writes both entries to
the path `a`, the second after the first, so the file left holds the second
entry's content. -/
theorem C17_counterexample :
    (print_archive (serialize duplicate_files) [[97]]).stdout = [49, 50] ∧
    (print_archive (serialize duplicate_files) [[97]]).stdout ≠ [49] ∧
    (extract_archive fs_ok (serialize duplicate_files) none [[97]] 0).writes
      = [([97], [49]), ([97], [50])] ∧
    last_write (extract_archive fs_ok (serialize duplicate_files) none [[97]] 0).writes [97]
      ≠ some [49] := by
  decide

set_option maxRecDepth 100000 in
/-- C17 as amended: every matching entry is acted on, in stored order. For
every archive buffer with a valid header (version 1, fewer than `2^24` declared
entries) and every filter, `print_archive` outputs the content of every
selected entry in stored order, `extract_archive` makes one `write_file` call
per selected entry in stored order, and the last call made for an output path,
whose bytes the file holds afterwards, is that of the last selected entry with
that path; so for two entries with the same stored name the filter naming them
prints both contents and leaves the second entry's content in the file. -/
theorem C17_all_matches (fs : Fs) (data : List Byte) (file_filter : List (List Byte))
    (options : Nat) (h16 : 16 ≤ data.length)
    (hmagic : read_u64_le data 0 = 0x267052A0B125277D)
    (hver : read_u32_le data 12 = 1) (hcount : read_u32_le data 8 < 2 ^ 24) :
    (print_archive data file_filter).stdout
      = ((List.range (min (read_u32_le data 8) (descriptors_held data))).filterMap
          (content_piece data file_filter (16 + 256 * read_u32_le data 8))).flatten ∧
    (extract_archive fs data none file_filter options).writes
      = (List.range (min (read_u32_le data 8) (descriptors_held data))).filterMap
          (extract_piece data none file_filter (16 + 256 * read_u32_le data 8)) ∧
    (∀ (j : Nat) (path c : List Byte),
      j < min (read_u32_le data 8) (descriptors_held data) →
      extract_piece data none file_filter (16 + 256 * read_u32_le data 8) j = some (path, c) →
      (∀ k, j < k → k < min (read_u32_le data 8) (descriptors_held data) → ∀ c',
        extract_piece data none file_filter (16 + 256 * read_u32_le data 8) k
          ≠ some (path, c')) →
      last_write (extract_archive fs data none file_filter options).writes path = some c) ∧
    (print_archive (serialize duplicate_files) [[97]]).stdout = [49, 50] ∧
    last_write (extract_archive fs_ok (serialize duplicate_files) none [[97]] 0).writes [97]
      = some [50] := by
  have hp := (print_archive_spec data file_filter h16 hmagic).2
  have hx := (extract_archive_spec fs data file_filter options h16 hmagic hver).2
  rw [data_block_start_eq _ hcount] at hp hx
  refine ⟨hp, hx, ?_, by decide, by decide⟩
  intro j path c hj hf hlater
  rw [hx]
  exact last_write_filterMap _ _ j path c hj hf hlater

set_option maxRecDepth 100000 in
/-- C17 at a concrete input: the two-entry archive with equal names and the
filter `a`. -/
theorem C17_all_matches_witness :
    (print_archive (serialize duplicate_files) [[97]]).stdout
      = ((List.range (min (read_u32_le (serialize duplicate_files) 8)
            (descriptors_held (serialize duplicate_files)))).filterMap
          (content_piece (serialize duplicate_files) [[97]]
            (16 + 256 * read_u32_le (serialize duplicate_files) 8))).flatten :=
  (C17_all_matches fs_ok (serialize duplicate_files) [[97]] 0 (by decide) (by decide)
    (by decide) (by decide)).1

/-! ### Declared entries beyond the end of the buffer -/

/-- An archive that declares more entries than it holds descriptors makes
`extract_archive` return failure. -/
theorem extract_fails_when_truncated (fs : Fs) (data : List Byte)
    (file_filter : List (List Byte)) (options : Nat) (h16 : 16 ≤ data.length)
    (hmagic : read_u64_le data 0 = MAGIC) (hver : read_u32_le data 12 = 1)
    (hmore : descriptors_held data < read_u32_le data 8) :
    (extract_archive fs data none file_filter options).ret = false := by
  rw [(extract_archive_spec fs data file_filter options h16 hmagic hver).1]
  simp only [decide_eq_false_iff_not]
  omega

/-- C18 (what the code does at the failing input): on a buffer with correct
magic and version that declares one entry and holds no descriptor,
`extract_archive` reports the entry as out of bounds and returns failure,
where `list_archive` and `print_archive` report it and return success. -/
theorem C18_extract_aborts :
    descriptors_held truncated_archive < read_u32_le truncated_archive 8 ∧
    extract_archive fs_ok truncated_archive none [] 0
      = { ret := false, writes := [], stdout := [], stderr := [Diag.entryOutOfBounds 0] } ∧
    list_archive truncated_archive []
      = { ret := true, stdout := [], stderr := [Diag.entryOutOfBounds 0] } ∧
    print_archive truncated_archive []
      = { ret := true, stdout := [], stderr := [Diag.entryOutOfBounds 0] } := by
  decide

theorem list_entries_reference_out (data : List Byte) (file_filter : List (List Byte)) :
    ∀ (k i entry_offset : Nat), entry_offset + ENTRY_SIZE > data.length →
      (list_entries_reference data file_filter k i entry_offset).1 = [] := by
  intro k
  induction k with
  | zero => intro i eo _; rfl
  | succ k ih =>
    intro i eo h
    rw [list_entries_reference]
    simp only [if_pos h]
    exact ih (i + 1) (eo + ENTRY_SIZE) (by omega)

theorem list_entries_eq_reference (data : List Byte) (file_filter : List (List Byte)) :
    ∀ (k i entry_offset : Nat),
      (list_entries data file_filter k i entry_offset).1
        = (list_entries_reference data file_filter k i entry_offset).1 := by
  intro k
  induction k with
  | zero => intro i eo; rfl
  | succ k ih =>
    intro i eo
    rw [list_entries, list_entries_reference]
    by_cases h : eo + ENTRY_SIZE > data.length
    · simp only [if_pos h]
      exact (list_entries_reference_out data file_filter k (i + 1) (eo + ENTRY_SIZE)
        (by omega)).symm
    · simp only [if_neg h]
      split
      · exact ih _ _
      · split
        · simp only [ih]
        · exact ih _ _

theorem print_entries_reference_out (data : List Byte) (file_filter : List (List Byte))
    (dbs : Nat) :
    ∀ (k i entry_offset : Nat), entry_offset + ENTRY_SIZE > data.length →
      (print_entries_reference data file_filter dbs k i entry_offset).1 = [] := by
  intro k
  induction k with
  | zero => intro i eo _; rfl
  | succ k ih =>
    intro i eo h
    rw [print_entries_reference]
    simp only [if_pos h]
    exact ih (i + 1) (eo + ENTRY_SIZE) (by omega)

theorem print_entries_eq_reference (data : List Byte) (file_filter : List (List Byte))
    (dbs : Nat) :
    ∀ (k i entry_offset : Nat),
      (print_entries data file_filter dbs k i entry_offset).1
        = (print_entries_reference data file_filter dbs k i entry_offset).1 := by
  intro k
  induction k with
  | zero => intro i eo; rfl
  | succ k ih =>
    intro i eo
    rw [print_entries, print_entries_reference]
    by_cases h : eo + ENTRY_SIZE > data.length
    · simp only [if_pos h]
      exact (print_entries_reference_out data file_filter dbs k (i + 1) (eo + ENTRY_SIZE)
        (by omega)).symm
    · simp only [if_neg h]
      split
      · exact ih _ _
      · split
        · split
          · exact ih _ _
          · simp only [ih]
        · exact ih _ _

/-- C19: for every archive buffer with valid magic, in particular one whose
declared entry count is larger than the number of complete descriptors it
holds, `list_archive` and `print_archive` return success, and what each writes
to the output stream is what its skip-and-continue reference writes, the
reference visiting every index below the count and ignoring each descriptor
that is not inside the buffer. -/
theorem C19_break_equals_skip (data : List Byte) (file_filter : List (List Byte))
    (h16 : 16 ≤ data.length) (hmagic : read_u64_le data 0 = 0x267052A0B125277D) :
    (list_archive data file_filter).ret = true ∧
    (print_archive data file_filter).ret = true ∧
    (list_archive data file_filter).stdout
      = (list_archive_reference data file_filter).stdout ∧
    (print_archive data file_filter).stdout
      = (print_archive_reference data file_filter).stdout := by
  have h16' : ¬ data.length < 16 := by omega
  have hm : read_u64_le data 0 = MAGIC := hmagic
  simp only [list_archive, print_archive, list_archive_reference, print_archive_reference,
    HEADER_SIZE, h16', hm, ne_eq, not_true_eq_false, if_false, true_and]
  exact ⟨list_entries_eq_reference _ _ _ _ _, print_entries_eq_reference _ _ _ _ _ _⟩

/-- C19 at a concrete input: the 16-byte buffer that declares one entry and
holds no descriptor. -/
theorem C19_break_equals_skip_witness :
    (list_archive truncated_archive []).ret = true ∧
    (print_archive truncated_archive []).ret = true ∧
    (list_archive truncated_archive []).stdout
      = (list_archive_reference truncated_archive []).stdout ∧
    (print_archive truncated_archive []).stdout
      = (print_archive_reference truncated_archive []).stdout :=
  C19_break_equals_skip truncated_archive [] (by decide) (by decide)

/-! ### Malformed name lengths -/

set_option maxRecDepth 100000 in
/-- C20: an entry whose descriptor lies inside the buffer and whose name-length
byte is greater than 247 is skipped by all four operations, which then go on
with the following entries. When its loop reaches such an entry `i`,
`list_archive`, `print_archive` and `extract_archive` emit nothing for it but
the "Invalid name length" diagnostic and continue exactly as the loop started
at entry `i + 1` does (so the return value is that of the continuation), and
`delete_from_archive` continues from entry `i + 1` with its state unchanged:
the entry is neither counted as deleted nor kept. Accordingly the entry has no
line in a listing, no content piece, no `write_file` call, no place in the kept
set, and is not matched by any delete list. -/
theorem C20_bad_name_length_skipped (fs : Fs) (data : List Byte)
    (dir_path : Option (List Byte)) (file_filter files_to_delete : List (List Byte))
    (options block_start count k i : Nat) (st : DelState)
    (hin : 16 + 256 * i + 256 ≤ data.length) (hbad : entry_name_len data i > 247) :
    list_entries data file_filter (k + 1) i (16 + 256 * i)
      = ((list_entries data file_filter k (i + 1) (16 + 256 * (i + 1))).1,
         Diag.invalidNameLength i
           :: (list_entries data file_filter k (i + 1) (16 + 256 * (i + 1))).2) ∧
    print_entries data file_filter block_start (k + 1) i (16 + 256 * i)
      = ((print_entries data file_filter block_start k (i + 1) (16 + 256 * (i + 1))).1,
         Diag.invalidNameLength i
           :: (print_entries data file_filter block_start k (i + 1) (16 + 256 * (i + 1))).2) ∧
    extract_entries fs data dir_path file_filter options block_start (k + 1) i (16 + 256 * i)
      = { extract_entries fs data dir_path file_filter options block_start k (i + 1)
            (16 + 256 * (i + 1)) with
          stderr := Diag.invalidNameLength i
            :: (extract_entries fs data dir_path file_filter options block_start k (i + 1)
                  (16 + 256 * (i + 1))).stderr } ∧
    delete_entries data files_to_delete options block_start (k + 1) (16 + 256 * i) st
      = delete_entries data files_to_delete options block_start k (16 + 256 * (i + 1)) st ∧
    list_line data file_filter i = [] ∧
    content_piece data file_filter block_start i = none ∧
    extract_piece data dir_path file_filter block_start i = none ∧
    kept_entry data files_to_delete count i = none ∧
    ¬ entry_deleted data files_to_delete i ∧
    (list_archive bad_length_archive []).stdout = [98, 10] ∧
    (print_archive bad_length_archive []).stdout = [50] ∧
    (extract_archive fs_ok bad_length_archive none [] 0).writes = [([98], [50])] ∧
    (extract_archive fs_ok bad_length_archive none [] 0).ret = true ∧
    delete_from_archive bad_length_archive [[97]] 0 true
      = some { ret := false, written := none, stdout := [],
               stderr := [Diag.noFilesDeleted] } := by
  have hstep : 16 + 256 * i + ENTRY_SIZE = 16 + 256 * (i + 1) := by
    unfold ENTRY_SIZE; omega
  have hb : byteAt data (16 + 256 * i) > MAX_NAME_LEN := hbad
  have hnb : ¬ entry_name_len data i ≤ 247 := by omega
  have hoob : ¬ 16 + 256 * i + ENTRY_SIZE > data.length := by
    unfold ENTRY_SIZE; omega
  refine ⟨?_, ?_, ?_, ?_, ?_, ?_, ?_, ?_, ?_, by decide, by decide, by decide, by decide,
    by decide⟩
  · rw [list_entries, if_neg hoob]
    simp only [if_pos hb, hstep]
  · rw [print_entries, if_neg hoob]
    simp only [if_pos hb, hstep]
  · rw [extract_entries, if_neg hoob]
    simp only [if_pos hb, hstep]
  · rw [delete_entries]
    simp only [read_file_buffer_length, hstep]
    rw [if_neg (by omega), byteAt_mem _ _ (by omega), if_pos hb]
  · unfold list_line
    rw [if_neg (fun h => hnb h.1)]
  · unfold content_piece
    rw [if_neg (fun h => hnb h.1)]
  · unfold extract_piece content_piece
    rw [if_neg (fun h => hnb h.1)]
    rfl
  · unfold kept_entry
    rw [if_neg (fun h => hnb h.1)]
  · exact fun h => hnb h.1

set_option maxRecDepth 100000 in
/-- C20 at a concrete input: entry 0 of the archive whose first name-length
byte is 250 has no line in a listing. -/
theorem C20_bad_name_length_skipped_witness :
    list_line bad_length_archive [] 0 = [] :=
  (C20_bad_name_length_skipped fs_ok bad_length_archive none [] [] 0 0 0 0 0
    ⟨[], 0, [], []⟩ (by decide) (by decide)).2.2.2.2.1

/-! ### Deleting every entry -/

theorem delete_entries_all_deleted (data : List Byte) (files_to_delete : List (List Byte))
    (options block_start : Nat) :
    ∀ (k i : Nat) (st : DelState),
      16 + 256 * (i + k) ≤ data.length →
      (∀ j, i ≤ j → j < i + k → entry_name_len data j ≤ 247 →
        entry_name data j ∈ files_to_delete.map cstr) →
      st.deleted_count + k ≤ INT_MAX →
      ∃ st', delete_entries data files_to_delete options block_start k (16 + 256 * i) st
          = some st' ∧
        st'.files = st.files ∧ st'.stderr = st.stderr ∧
        st'.deleted_count = st.deleted_count
          + ((List.range' i k).filter (fun j => entry_name_len data j ≤ 247)).length := by
  intro k
  induction k with
  | zero =>
    intro i st _ _ _
    exact ⟨st, rfl, rfl, rfl, by simp⟩
  | succ k ih =>
    intro i st hb hall hint
    have hstep : 16 + 256 * i + ENTRY_SIZE = 16 + 256 * (i + 1) := by
      unfold ENTRY_SIZE; omega
    have hb' : 16 + 256 * (i + 1 + k) ≤ data.length := by omega
    have hall' : ∀ j, i + 1 ≤ j → j < i + 1 + k → entry_name_len data j ≤ 247 →
        entry_name data j ∈ files_to_delete.map cstr :=
      fun j h1 h2 h3 => hall j (by omega) (by omega) h3
    have hlen := read_file_buffer_length data
    rw [List.range'_succ, delete_entries]
    simp only [hlen, hstep]
    rw [if_neg (by omega), byteAt_mem _ _ (by omega)]
    by_cases hnl : byteAt data (16 + 256 * i) > MAX_NAME_LEN
    · have hn : ¬ entry_name_len data i ≤ 247 := by
        unfold entry_name_len
        unfold MAX_NAME_LEN at hnl
        omega
      rw [if_pos hnl, List.filter_cons_of_neg (by simpa using hn)]
      exact ih (i + 1) st hb' hall' (by omega)
    · have hnl' : entry_name_len data i ≤ 247 := by
        unfold entry_name_len
        unfold MAX_NAME_LEN at hnl
        omega
      have hin := hall i (Nat.le_refl _) (by omega) hnl'
      have hsd : should_delete (slice data (16 + 256 * i + 1) (byteAt data (16 + 256 * i)))
          files_to_delete = true := (should_delete_iff _ _).mpr hin
      unfold entry_name_len at hnl'
      rw [if_neg hnl, if_neg (by omega), slice_mem _ _ _ (by omega), if_pos hsd,
        if_neg (by omega), List.filter_cons_of_pos (by simpa [entry_name_len] using hnl')]
      obtain ⟨st', h1, h2, h3, h4⟩ := ih (i + 1)
        { st with deleted_count := st.deleted_count + 1,
                  stdout := st.stdout ++ (if options &&& OPT_V ≠ 0 then
                    verbose_d (slice data (16 + 256 * i + 1) (byteAt data (16 + 256 * i)))
                    else []) } hb' hall' (by simp only []; omega)
      refine ⟨st', h1, h2, h3, ?_⟩
      rw [h4]
      simp only [List.length_cons]
      omega

/-- C14, the claim as stated fails: on the valid archive without entries every
delete list contains the name of every stored entry, and the delete does not
succeed: it fails with "No files deleted" and writes nothing. -/
theorem C14_counterexample :
    read_u32_le empty_archive 8 = 0 ∧
    delete_from_archive empty_archive [[97]] 0 true
      = some { ret := false, written := none, stdout := [],
               stderr := [Diag.noFilesDeleted] } := by
  decide

/-- C14 as amended: for every archive buffer with a valid header (version 1)
that declares fewer than `2^31` entries, all of whose declared descriptors lie
inside the buffer and that holds at least one entry with a name length of at
most 247, and every delete list that contains the name (a C string) of every
such entry, `delete_from_archive` writes a valid zero-entry archive, exactly
the 16 bytes magic, entry count 0, version 1, and returns the result of that
write; `list_archive` on the result succeeds and outputs nothing. -/
theorem C14_delete_everything (data : List Byte) (files_to_delete : List (List Byte))
    (options : Nat) (write_ok : Bool)
    (h16 : 16 ≤ data.length)
    (hmagic : read_u64_le data 0 = 0x267052A0B125277D)
    (hver : read_u32_le data 12 = 1)
    (hcount : read_u32_le data 8 < 2 ^ 31)
    (hdesc : 16 + 256 * read_u32_le data 8 ≤ data.length)
    (hsome : ∃ j, j < read_u32_le data 8 ∧ entry_name_len data j ≤ 247)
    (hall : ∀ j, j < read_u32_le data 8 → entry_name_len data j ≤ 247 →
      entry_name data j ∈ files_to_delete.map cstr) :
    (∃ d, delete_from_archive data files_to_delete options write_ok = some d ∧
      d.ret = write_ok ∧
      d.written = some [125, 39, 37, 177, 160, 82, 112, 38, 0, 0, 0, 0, 1, 0, 0, 0] ∧
      d.stderr = [Diag.allFilesDeleted]) ∧
    (∀ file_filter,
      list_archive [125, 39, 37, 177, 160, 82, 112, 38, 0, 0, 0, 0, 1, 0, 0, 0] file_filter
        = { ret := true, stdout := [], stderr := [] }) := by
  constructor
  · obtain ⟨st, h1, h2, h3, h4⟩ := delete_entries_all_deleted data files_to_delete options
      (data_block_start (read_u32_le data 8)) (read_u32_le data 8) 0
      { files := [], deleted_count := 0, stdout := [], stderr := [] }
      (by omega) (fun j _ hj hn => hall j (by omega) hn)
      (by unfold INT_MAX; simp only []; omega)
    have h16' : ¬ data.length < 16 := by omega
    have hm : read_u64_le data 0 = MAGIC := hmagic
    have hdc : st.deleted_count ≠ 0 := by
      obtain ⟨j, hj, hn⟩ := hsome
      rw [h4]
      simp only [Nat.zero_add, ne_eq, List.length_eq_zero, List.filter_eq_nil_iff,
        decide_eq_true_eq, not_forall]
      exact ⟨j, List.mem_range'_1.mpr (by omega), fun h => h hn⟩
    simp only [delete_from_archive, HEADER_SIZE, h16', hm, hver, ARCHIVE_VERSION, ne_eq,
      not_true_eq_false, if_false]
    simp only [Nat.mul_zero, Nat.add_zero] at h1
    rw [h1]
    simp only [hdc, if_false, h2, h3]
    have hs : serialize [] = [125, 39, 37, 177, 160, 82, 112, 38, 0, 0, 0, 0, 1, 0, 0, 0] := by
      decide
    exact ⟨_, rfl, rfl, by simp only [hs], rfl⟩
  · intro file_filter
    have hmg : read_u64_le [125, 39, 37, 177, 160, 82, 112, 38, 0, 0, 0, 0, 1, 0, 0, 0] 0
        = MAGIC := by decide
    have hc : read_u32_le [125, 39, 37, 177, 160, 82, 112, 38, 0, 0, 0, 0, 1, 0, 0, 0] 8
        = 0 := by decide
    simp only [list_archive, HEADER_SIZE, List.length_cons, List.length_nil, hmg, hc, ne_eq,
      not_true_eq_false, if_false, list_entries]
    rfl

set_option maxRecDepth 100000 in
/-- C14 at a concrete input: deleting `a` from the archive whose only entry is
`a`. -/
theorem C14_delete_everything_witness :
    ∃ d, delete_from_archive one_entry_archive [[97]] 0 true = some d ∧
      d.ret = true ∧
      d.written = some [125, 39, 37, 177, 160, 82, 112, 38, 0, 0, 0, 0, 1, 0, 0, 0] ∧
      d.stderr = [Diag.allFilesDeleted] :=
  (C14_delete_everything one_entry_archive [[97]] 0 true (by decide) (by decide) (by decide)
    (by decide) (by decide) ⟨0, by decide, by decide⟩
    (fun j hj _ => by
      have h1 : read_u32_le one_entry_archive 8 = 1 := by decide
      have h0 : j = 0 := by omega
      subst h0
      decide)).1

/-! ### The header does not depend on the entries -/

theorem take_set_of_le (l : List Byte) (m n : Nat) (a : Byte) (h : m ≤ n) :
    (l.set n a).take m = l.take m := by
  rw [List.set_take]
  apply List.set_eq_of_length_le
  rw [List.length_take]
  omega

theorem memcpy_take (src : List Byte) :
    ∀ (buf : List Byte) (off m : Nat), m ≤ off → (memcpy buf off src).take m = buf.take m := by
  induction src with
  | nil => intro buf off m _; rfl
  | cons x xs ih =>
    intro buf off m h
    rw [memcpy, ih _ _ _ (by omega), take_set_of_le _ _ _ _ h]

theorem write_u32_le_take (buf : List Byte) (off v m : Nat) (h : m ≤ off) :
    (write_u32_le buf off v).take m = buf.take m := by
  rw [write_u32_le_eq_memcpy]
  exact memcpy_take _ _ _ _ h

theorem write_entries_take (fs : List FileEntry) :
    ∀ (buf : List Byte) (entry_offset data_pos data_offset m : Nat), m ≤ entry_offset →
      (write_entries fs buf entry_offset data_pos data_offset).take m = buf.take m := by
  induction fs with
  | nil => intro buf eo dp d m _; rfl
  | cons f fs ih =>
    intro buf eo dp d m h
    simp only [write_entries]
    rw [ih _ _ _ _ _ (by unfold ENTRY_SIZE; omega), write_u32_le_take _ _ _ _ (by omega),
      write_u32_le_take _ _ _ _ (by omega), memcpy_take _ _ _ _ (by omega),
      take_set_of_le _ _ _ _ h]

theorem write_contents_take (fs : List FileEntry) :
    ∀ (buf : List Byte) (data_pos m : Nat), m ≤ data_pos →
      (write_contents fs buf data_pos).take m = buf.take m := by
  induction fs with
  | nil => intro buf dp m _; rfl
  | cons f fs ih =>
    intro buf dp m h
    simp only [write_contents]
    rw [ih _ _ _ (by omega), memcpy_take _ _ _ _ h]

/-- The first 16 bytes the writer produces are the header, whatever the
entries are. -/
theorem serialize_take_header (files : List FileEntry) :
    (serialize files).take 16 = spec_header (files.length % 2 ^ 32) := by
  have hrep : List.replicate (HEADER_SIZE + ENTRY_SIZE * files.length + total_data_size files)
        (0 : Byte)
      = List.replicate 8 0 ++ (List.replicate 4 0 ++ (List.replicate 4 0
          ++ List.replicate (256 * files.length + total_data_size files) 0)) := by
    rw [← List.replicate_add, ← List.replicate_add, ← List.replicate_add]
    congr 1
    simp only [HEADER_SIZE, ENTRY_SIZE]
    omega
  unfold serialize
  simp only []
  rw [write_contents_take _ _ _ _ (by unfold HEADER_SIZE; omega),
    write_entries_take _ _ _ _ _ _ (by unfold HEADER_SIZE; omega), hrep]
  have s1 := write_u64_le_mid [] (List.replicate 8 0) (List.replicate 4 0 ++ (List.replicate 4 0
          ++ List.replicate (256 * files.length + total_data_size files) 0)) 0 MAGIC rfl
          (by simp)
  rw [List.nil_append, List.nil_append] at s1
  rw [s1, write_u32_le_mid (le64 MAGIC) (List.replicate 4 0) _ 8 _ rfl (by simp)]
  have s3 := write_u32_le_mid (le64 MAGIC ++ le32 (files.length % 2 ^ 32)) (List.replicate 4 0)
    (List.replicate (256 * files.length + total_data_size files) 0) 12 ARCHIVE_VERSION rfl
    (by simp)
  simp only [List.append_assoc] at s3 ⊢
  rw [s3]
  have e : le64 MAGIC ++ (le32 (files.length % 2 ^ 32) ++ (le32 ARCHIVE_VERSION
        ++ List.replicate (256 * files.length + total_data_size files) 0))
      = spec_header (files.length % 2 ^ 32)
        ++ List.replicate (256 * files.length + total_data_size files) 0 := by
    simp [spec_header, MAGIC, ARCHIVE_VERSION]
  rw [e, List.take_left' (spec_header_length _)]

theorem serialize_count_field (files : List FileEntry) :
    read_u32_le (serialize files) 8 = files.length % 2 ^ 32 := by
  have h := read_u32_le_slice (serialize files) 0 16 8 (by omega)
  have hs : slice (serialize files) 0 16 = spec_header (files.length % 2 ^ 32) := by
    unfold slice
    rw [List.drop_zero, serialize_take_header]
  rw [hs] at h
  rw [show 8 = 0 + 8 from rfl, ← h]
  have : slice (spec_header (files.length % 2 ^ 32)) 8 4 = le32 (files.length % 2 ^ 32) := by
    simp only [spec_header, List.append_assoc]
    have := slice_append_mid (le64 0x267052A0B125277D) (le32 (files.length % 2 ^ 32))
      (le32 1) 8 4 rfl rfl
    exact this
  rw [read_u32_le_of_slice _ _ _ this]
  exact Nat.mod_mod _ _

/-! ### create_archive -/

/-- C15, the claim as stated fails: a non-empty list of `2^32` collected files
(distinct eight-letter names) is written with the header entry count 0, not
with the number of collected files. -/
theorem C15_counterexample :
    many_numbered_files.length = 2 ^ 32 ∧
    (∃ buf, (create_archive many_numbered_files 0 true).written = some buf ∧
      read_u32_le buf 8 = 0 ∧ read_u32_le buf 8 ≠ many_numbered_files.length) := by
  have hlen : many_numbered_files.length = 2 ^ 32 := by
    unfold many_numbered_files
    rw [List.length_map, List.length_range]
  have hc : read_u32_le (serialize many_numbered_files) 8 = 0 := by
    rw [serialize_count_field, hlen]
    exact Nat.mod_self _
  refine ⟨hlen, serialize many_numbered_files, ?_, hc, ?_⟩
  · unfold create_archive
    rw [if_neg (by rw [hlen]; exact Nat.ne_of_gt (Nat.two_pow_pos 32))]
  · rw [hc, hlen]
    exact Nat.ne_of_lt (Nat.two_pow_pos 32)

/-- C15 as amended: `create_archive` fails and writes no archive whenever the
collected file list is empty; whenever the list is non-empty it hands an
archive to `write_file` whose header entry count is the number of collected
files modulo `2^32`, which is the number of collected files itself when that is
below `2^32`. -/
theorem C15_create_archive (files : List FileEntry) (options : Nat) (write_ok : Bool) :
    (files = [] →
      create_archive files options write_ok
        = { ret := false, written := none, announced := none,
            stderr := [Diag.noFilesFound] }) ∧
    (files ≠ [] →
      ∃ buf, (create_archive files options write_ok).written = some buf ∧
        (create_archive files options write_ok).ret = write_ok ∧
        read_u32_le buf 8 = files.length % 2 ^ 32 ∧
        (files.length < 2 ^ 32 → read_u32_le buf 8 = files.length)) := by
  constructor
  · intro h
    subst h
    rfl
  · intro h
    have hl : ¬ files.length = 0 := fun e => h (List.length_eq_zero.mp e)
    refine ⟨serialize files, ?_, ?_, serialize_count_field files, ?_⟩
    · unfold create_archive
      rw [if_neg hl]
    · unfold create_archive
      rw [if_neg hl]
    · intro hlt
      rw [serialize_count_field]
      exact Nat.mod_eq_of_lt hlt

/-- C15 at a concrete input: the empty list, and the two-entry list `a`, `a`. -/
theorem C15_create_archive_witness :
    create_archive [] 0 true
      = { ret := false, written := none, announced := none, stderr := [Diag.noFilesFound] } ∧
    (∃ buf, (create_archive duplicate_files 0 true).written = some buf ∧
      (create_archive duplicate_files 0 true).ret = true ∧
      read_u32_le buf 8 = duplicate_files.length % 2 ^ 32 ∧
      (duplicate_files.length < 2 ^ 32 → read_u32_le buf 8 = duplicate_files.length)) :=
  ⟨(C15_create_archive [] 0 true).1 rfl,
   (C15_create_archive duplicate_files 0 true).2 (by decide)⟩

/-! ### Collection -/

theorem cstr_nul_free (s : List Byte) : ∀ x ∈ cstr s, x ≠ 0 := by
  intro x hx
  have := List.mem_takeWhile_imp hx
  simpa using this

theorem full_relative_path_nul_free (base : Option (List Byte)) (d_name : List Byte)
    (hb : ∀ b, base = some b → ∀ x ∈ b, x ≠ (0 : Byte)) :
    ∀ x ∈ full_relative_path base d_name, x ≠ (0 : Byte) := by
  intro x hx
  cases base with
  | none => exact cstr_nul_free d_name x hx
  | some b =>
    simp only [full_relative_path, List.mem_append, List.mem_singleton] at hx
    rcases hx with (h | h) | h
    · exact hb b rfl x h
    · rw [h]; decide
    · exact cstr_nul_free d_name x h

theorem take_take_append (b x : List Byte) (n : Nat) :
    (b.take n ++ x).take n = (b ++ x).take n := by
  by_cases h : b.length ≤ n
  · rw [List.take_of_length_le h]
  · rw [List.take_append_of_le_length (by rw [List.length_take]; omega),
      List.take_append_of_le_length (by omega), List.take_take, Nat.min_self]

theorem relative_path_eq (base : Option (List Byte)) (d_name : List Byte)
    (hb : ∀ b, base = some b → ∀ x ∈ b, x ≠ (0 : Byte)) :
    relative_path (base.map (fun b => b.take (PATH_MAX - 1))) d_name
      = (full_relative_path base d_name).take (PATH_MAX - 1) := by
  cases base with
  | none => rfl
  | some b =>
    have hc : cstr (b.take (PATH_MAX - 1)) = b.take (PATH_MAX - 1) :=
      cstr_of_nul_free _ (fun x hx => hb b rfl x (List.mem_of_mem_take hx))
    simp only [relative_path, full_relative_path, Option.map_some', hc, List.append_assoc]
    exact take_take_append _ _ _

theorem strlen_take_path (p : List Byte) (hp : ∀ x ∈ p, x ≠ (0 : Byte)) :
    (strlen (p.take (PATH_MAX - 1)) > MAX_NAME_LEN ↔ ¬ p.length ≤ 247) ∧
    (p.length ≤ 247 → cstr (p.take (PATH_MAX - 1)) = p) := by
  have hc : cstr (p.take (PATH_MAX - 1)) = p.take (PATH_MAX - 1) :=
    cstr_of_nul_free _ (fun x hx => hp x (List.mem_of_mem_take hx))
  constructor
  · unfold strlen
    rw [hc, List.length_take]
    unfold PATH_MAX MAX_NAME_LEN
    omega
  · intro h
    rw [hc]
    apply List.take_of_length_le
    unfold PATH_MAX
    omega

theorem dot_names (d_name : List Byte) :
    (strcmp_eq d_name [46] || strcmp_eq d_name [46, 46]) = true
      ↔ (cstr d_name = [46] ∨ cstr d_name = [46, 46]) := by
  have h1 : cstr [46] = [46] := by decide
  have h2 : cstr [46, 46] = [46, 46] := by decide
  simp only [strcmp_eq, h1, h2, Bool.or_eq_true, beq_iff_eq]

mutual
theorem collect_entry_spec : ∀ (node : FsNode) (base : Option (List Byte))
    (d_name : List Byte) (list : List FileEntry),
    (∀ b, base = some b → ∀ x ∈ b, x ≠ (0 : Byte)) →
    collect_entry (base.map (fun b => b.take (PATH_MAX - 1))) d_name node list
      = list ++ (regular_files_of base d_name node).filterMap collected_as
  | .other, base, d_name, list, _ => by
    simp [collect_entry, regular_files_of]
  | .file contents, base, d_name, list, hb => by
    have hp := full_relative_path_nul_free base d_name hb
    obtain ⟨h1, h2⟩ := strlen_take_path (full_relative_path base d_name) hp
    simp only [collect_entry, regular_files_of, relative_path_eq base d_name hb]
    by_cases hl : (full_relative_path base d_name).length ≤ 247
    · rw [if_neg (fun h => (h1.mp h) hl)]
      cases contents with
      | none => simp [file_list_add, collected_as, hl]
      | some c => simp [file_list_add, collected_as, hl, h2 hl]
    · rw [if_pos (h1.mpr hl)]
      simp [collected_as, hl]
  | .dir opens entries, base, d_name, list, hb => by
    have hp := full_relative_path_nul_free base d_name hb
    simp only [collect_entry, regular_files_of, relative_path_eq base d_name hb]
    cases opens with
    | false => simp
    | true =>
      simp only [if_true]
      exact collect_files_recursive_spec entries (some (full_relative_path base d_name)) list
        (fun b hb' x hx => by
          have : full_relative_path base d_name = b := Option.some.inj hb'
          exact hp x (this ▸ hx))
theorem collect_files_recursive_spec : ∀ (entries : FsEntries) (base : Option (List Byte))
    (list : List FileEntry),
    (∀ b, base = some b → ∀ x ∈ b, x ≠ (0 : Byte)) →
    collect_files_recursive (base.map (fun b => b.take (PATH_MAX - 1))) entries list
      = list ++ (regular_files base entries).filterMap collected_as
  | .nil, base, list, _ => by
    simp [collect_files_recursive, regular_files]
  | .cons d_name node rest, base, list, hb => by
    simp only [collect_files_recursive, regular_files]
    by_cases hd : (cstr d_name = [46] ∨ cstr d_name = [46, 46])
    · rw [if_pos ((dot_names d_name).mpr hd), if_pos hd]
      exact collect_files_recursive_spec rest base list hb
    · rw [if_neg (fun h => hd ((dot_names d_name).mp h)), if_neg hd,
        collect_files_recursive_spec rest base _ hb,
        collect_entry_spec node base d_name list hb, List.filterMap_append,
        List.append_assoc]
end

theorem collected_names (files : List (List Byte × Option (List Byte))) :
    ∀ f ∈ files.filterMap collected_as, f.name.length ≤ 247 := by
  intro f hf
  obtain ⟨x, _, hx⟩ := List.mem_filterMap.mp hf
  unfold collected_as at hx
  by_cases h : x.1.length ≤ 247
  · rw [if_pos h] at hx
    cases hc : x.2 with
    | none => rw [hc] at hx; simp at hx
    | some c =>
      rw [hc] at hx
      simp only [Option.map_some', Option.some.injEq] at hx
      rw [← hx]
      exact h
  · rw [if_neg h] at hx
    simp at hx

theorem strlen_le_length (s : List Byte) : strlen s ≤ s.length := by
  unfold strlen cstr
  exact (List.takeWhile_sublist _).length_le

set_option maxRecDepth 100000 in
/-- C16: during collection a regular file that can be read is skipped if and
only if its relative path name is longer than 247 bytes (247 bytes are
accepted, 248 are skipped); skipping does not stop the traversal: the collected
list is exactly the list of all regular files in traversal order with the
files that are too long-named (or cannot be read) left out. Consequently every
name handed to the writer is at most 247 bytes long, and the writer stores its
length in the length byte without truncation. -/
theorem C16_collection (entries : FsEntries) :
    collect_files (.dir true entries)
      = (regular_files none entries).filterMap collected_as ∧
    (∀ (p c : List Byte), collected_as (p, some c) = none ↔ 247 < p.length) ∧
    (∀ (p c : List Byte), p.length ≤ 247 → collected_as (p, some c) = some ⟨p, c⟩) ∧
    (∀ f ∈ collect_files (.dir true entries),
      f.name.length ≤ 247 ∧ strlen f.name ≤ 247 ∧ strlen f.name % 256 = strlen f.name) ∧
    (∀ (i : Nat) (hi : i < (collect_files (.dir true entries)).length),
      byteAt (serialize (collect_files (.dir true entries))) (16 + 256 * i)
        = strlen ((collect_files (.dir true entries))[i]).name) ∧
    collect_files boundary_tree
      = [⟨List.replicate 247 97, [49]⟩, ⟨[100, 47, 122], [51]⟩] := by
  have hspec : collect_files (.dir true entries)
      = (regular_files none entries).filterMap collected_as := by
    have := collect_files_recursive_spec entries none [] (fun b hb => by simp at hb)
    simpa [collect_files] using this
  have hnames : ∀ f ∈ collect_files (.dir true entries),
      f.name.length ≤ 247 ∧ strlen f.name ≤ 247 ∧ strlen f.name % 256 = strlen f.name := by
    intro f hf
    rw [hspec] at hf
    have h1 := collected_names _ f hf
    have h2 := strlen_le_length f.name
    exact ⟨h1, by omega, by omega⟩
  refine ⟨hspec, ?_, ?_, hnames, ?_, by decide⟩
  · intro p c
    unfold collected_as
    by_cases h : p.length ≤ 247
    · simp [h]
    · simp [h]
      omega
  · intro p c h
    unfold collected_as
    simp [h]
  · intro i hi
    exact (serialize_name_fields _ (fun f hf => (hnames f hf).2.1) i hi).2.1

theorem serialize_header_fields (files : List FileEntry) :
    16 ≤ (serialize files).length ∧
    read_u64_le (serialize files) 0 = MAGIC ∧
    read_u32_le (serialize files) 12 = 1 := by
  have hs : slice (serialize files) 0 16 = spec_header (files.length % 2 ^ 32) := by
    unfold slice
    rw [List.drop_zero, serialize_take_header]
  refine ⟨by rw [serialize_length]; omega, ?_, ?_⟩
  · have h8 : slice (serialize files) 0 8 = le64 MAGIC := by
      have := slice_slice (serialize files) 0 16 0 8 (by omega)
      rw [hs] at this
      rw [← this]
      simp only [spec_header, List.append_assoc]
      exact slice_zero_append _ _ 8 rfl
    rw [read_u64_le_of_slice _ _ _ h8]
    decide
  · have h4 : slice (serialize files) 12 4 = le32 1 := by
      have := slice_slice (serialize files) 0 16 12 4 (by omega)
      rw [hs] at this
      rw [show 12 = 0 + 12 from rfl, ← this]
      have e : spec_header (files.length % 2 ^ 32)
          = (le64 0x267052A0B125277D ++ le32 (files.length % 2 ^ 32)) ++ (le32 1 ++ []) := by
        simp [spec_header]
      rw [e]
      exact slice_append_mid _ _ _ 12 4 rfl rfl
    rw [read_u32_le_of_slice _ _ _ h4]
    rfl

theorem list_archive_no_entries (buf : List Byte) (file_filter : List (List Byte))
    (h16 : 16 ≤ buf.length) (hmagic : read_u64_le buf 0 = MAGIC)
    (hcnt : read_u32_le buf 8 = 0) :
    list_archive buf file_filter = { ret := true, stdout := [], stderr := [] } := by
  have h16' : ¬ buf.length < 16 := by omega
  simp only [list_archive, HEADER_SIZE, h16', hmagic, hcnt, ne_eq, not_true_eq_false,
    if_false, list_entries]

/-- The archive serialized from `2^32` pairs has the entry count 0 in its
header, and `list_archive` outputs nothing. -/
theorem list_of_many_files :
    list_archive (serialize many_numbered_files) []
      = { ret := true, stdout := [], stderr := [] } ∧
    (many_numbered_files.map (fun f => f.name ++ [NEWLINE])).flatten ≠ [] := by
  obtain ⟨h16, hmagic, _⟩ := serialize_header_fields many_numbered_files
  have hlen : many_numbered_files.length = 2 ^ 32 := by
    unfold many_numbered_files
    rw [List.length_map, List.length_range]
  have hc : read_u32_le (serialize many_numbered_files) 8 = 0 := by
    rw [serialize_count_field, hlen]
    exact Nat.mod_self _
  constructor
  · exact list_archive_no_entries _ [] h16 hmagic hc
  · intro h
    have h2 := congrArg List.length h
    rw [List.length_flatten, List.map_map] at h2
    have hpos : ∀ x ∈ List.map (List.length ∘ fun f : FileEntry => f.name ++ [NEWLINE])
        many_numbered_files, 1 ≤ x := by
      intro x hx
      obtain ⟨f, _, hf⟩ := List.mem_map.mp hx
      rw [← hf]
      simp
    have hsum := List.length_le_sum_of_one_le _ hpos
    rw [List.length_map, hlen] at hsum
    simp only [List.length_nil] at h2
    rw [h2] at hsum
    simp at hsum

set_option maxRecDepth 100000 in
/-- C12, the claim as stated fails. The archive serialized from a one-entry
list whose name is 248 bytes long holds the length byte 248, and `list_archive`
with an empty filter skips the entry: the output is empty, not the input name
on a line. And the archive serialized from `2^32` pairs (distinct eight-letter
names) has the entry count 0 in its header: the output is empty again. -/
theorem C12_counterexample :
    (list_archive (serialize long_name_files) []).stdout = [] ∧
    (list_archive (serialize long_name_files) []).stdout
      ≠ (long_name_files.map (fun f => f.name ++ [NEWLINE])).flatten ∧
    (list_archive (serialize many_numbered_files) []).stdout = [] ∧
    (list_archive (serialize many_numbered_files) []).stdout
      ≠ (many_numbered_files.map (fun f => f.name ++ [NEWLINE])).flatten := by
  have h := list_of_many_files
  refine ⟨by decide, by decide, ?_, ?_⟩
  · rw [h.1]
  · rw [h.1]
    exact fun e => h.2 e.symm

/-! ### Printing -/

theorem print_archive_serialize (files : List FileEntry) (hcount : files.length < 2 ^ 24)
    (hn : ∀ f ∈ files, strlen f.name ≤ 247) (ht : total_data_size files < 2 ^ 32) :
    print_archive (serialize files) []
      = { ret := true, stdout := (files.map (fun f => f.contents)).flatten, stderr := [] } := by
  obtain ⟨h16, hmagic, hcnt, _⟩ := serialize_header files hn
  have hcnt' : read_u32_le (serialize files) 8 = files.length := by
    rw [hcnt]; exact Nat.mod_eq_of_lt (by omega)
  have h16' : ¬ (serialize files).length < 16 := by omega
  have hdbs := data_block_start_eq files.length hcount
  have hp := print_entries_serialize files hn ht files.length 0 (by omega)
  simp only [Nat.mul_zero, Nat.add_zero, List.drop_zero] at hp
  simp only [print_archive, h16', hmagic, hcnt', hdbs, ne_eq,
    not_true_eq_false, if_false, HEADER_SIZE, hp]
  rfl

theorem print_archive_no_entries (buf : List Byte) (file_filter : List (List Byte))
    (h16 : 16 ≤ buf.length) (hmagic : read_u64_le buf 0 = MAGIC)
    (hcnt : read_u32_le buf 8 = 0) :
    print_archive buf file_filter = { ret := true, stdout := [], stderr := [] } := by
  have h16' : ¬ buf.length < 16 := by omega
  simp only [print_archive, HEADER_SIZE, h16', hmagic, hcnt, ne_eq, not_true_eq_false,
    if_false, print_entries]

theorem numbered_name_nul_free (i : Nat) : ∀ b ∈ numbered_name i, b ≠ 0 := by
  intro b hb
  unfold numbered_name at hb
  obtain ⟨k, _, hk⟩ := List.mem_map.mp hb
  intro h0
  have hv := congrArg Fin.val h0
  rw [← hk, u8_val] at hv
  have : i / 16 ^ k % 16 < 16 := Nat.mod_lt _ (by norm_num)
  simp only [Fin.val_zero] at hv
  omega

/-- C13, the claim as stated fails: the archive serialized from `2^32` pairs
(distinct NUL-free eight-letter names, one content byte each) has the 32-bit
entry count 0 in its header, and `print_archive` with an empty filter outputs
nothing, not the concatenation of the input contents. -/
theorem C13_counterexample :
    many_one_byte_files.length = 2 ^ 32 ∧
    (∀ f ∈ many_one_byte_files,
      (∀ b ∈ f.name, b ≠ 0) ∧ f.name.length = 8 ∧ f.contents = [49]) ∧
    read_u32_le (serialize many_one_byte_files) 8 = 0 ∧
    print_archive (serialize many_one_byte_files) []
      = { ret := true, stdout := [], stderr := [] } ∧
    (print_archive (serialize many_one_byte_files) []).stdout
      ≠ (many_one_byte_files.map (fun f => f.contents)).flatten := by
  obtain ⟨h16, hmagic, _⟩ := serialize_header_fields many_one_byte_files
  have hlen : many_one_byte_files.length = 2 ^ 32 := by
    unfold many_one_byte_files
    rw [List.length_map, List.length_range]
  have hc : read_u32_le (serialize many_one_byte_files) 8 = 0 := by
    rw [serialize_count_field, hlen]
    exact Nat.mod_self _
  have hp := print_archive_no_entries _ [] h16 hmagic hc
  refine ⟨hlen, ?_, hc, hp, ?_⟩
  · intro f hf
    unfold many_one_byte_files at hf
    obtain ⟨i, _, hi⟩ := List.mem_map.mp hf
    rw [← hi]
    refine ⟨numbered_name_nul_free i, ?_, rfl⟩
    unfold numbered_name
    rw [List.length_map, List.length_range]
  · rw [hp]
    intro h
    have h2 := congrArg List.length h
    rw [List.length_flatten, List.map_map] at h2
    have hpos : ∀ x ∈ List.map (List.length ∘ fun f : FileEntry => f.contents)
        many_one_byte_files, 1 ≤ x := by
      intro x hx
      obtain ⟨f, hf, hfx⟩ := List.mem_map.mp hx
      unfold many_one_byte_files at hf
      obtain ⟨i, _, hi⟩ := List.mem_map.mp hf
      rw [← hfx, ← hi]
      simp
    have hsum := List.length_le_sum_of_one_le _ hpos
    rw [List.length_map, hlen] at hsum
    simp only [List.length_nil] at h2
    rw [← h2] at hsum
    simp at hsum

/-- C13 as amended: for every archive buffer with a valid header (at least 16
bytes, correct magic) that declares fewer than `2^24` entries, `print_archive`
succeeds and writes to the output stream exactly the concatenation, in stored
descriptor order and with no separator, of the content slices of the entries
whose descriptor lies inside the buffer, whose name length is at most 247, that
match the filter and whose content range lies inside the buffer; on the archive
serialized from a list of fewer than `2^24` pairs with names of at most 247
bytes and less than `2^32` bytes of content in total, with an empty filter, the
output equals the concatenation of all input contents, which is the archive's
data block. -/
theorem C13_print_output (data : List Byte) (file_filter : List (List Byte))
    (files : List FileEntry) :
    (16 ≤ data.length → read_u64_le data 0 = 0x267052A0B125277D →
      read_u32_le data 8 < 2 ^ 24 →
      (print_archive data file_filter).ret = true ∧
      (print_archive data file_filter).stdout
        = ((List.range (min (read_u32_le data 8) (descriptors_held data))).filterMap
            (content_piece data file_filter (16 + 256 * read_u32_le data 8))).flatten) ∧
    (files.length < 2 ^ 24 → (∀ f ∈ files, strlen f.name ≤ 247) →
      (files.map (fun f => f.contents.length)).sum < 2 ^ 32 →
      print_archive (serialize files) []
        = { ret := true, stdout := (files.map (fun f => f.contents)).flatten, stderr := [] } ∧
      (serialize files).drop (16 + 256 * files.length)
        = (files.map (fun f => f.contents)).flatten) := by
  constructor
  · intro h16 hmagic hcount
    have h := print_archive_spec data file_filter h16 hmagic
    rw [data_block_start_eq _ hcount] at h
    exact h
  · intro hcount hn ht
    rw [← total_data_size_eq] at ht
    refine ⟨print_archive_serialize files hcount hn ht, ?_⟩
    have he := serialize_eq files hn
    have hl := flatten_length_uniform _ 256 (spec_descriptors_each_length files 0 hn)
    rw [spec_descriptors_length] at hl
    rw [he, ← List.append_assoc]
    rw [List.drop_left' (by rw [List.length_append, hl, spec_header_length])]
    rfl

set_option maxRecDepth 100000 in
/-- C13 at a concrete input: the one-entry archive, and the list `a`, `b`. -/
theorem C13_print_output_witness :
    ((print_archive one_entry_archive []).ret = true ∧
      (print_archive one_entry_archive []).stdout
        = ((List.range (min (read_u32_le one_entry_archive 8)
              (descriptors_held one_entry_archive))).filterMap
            (content_piece one_entry_archive []
              (16 + 256 * read_u32_le one_entry_archive 8))).flatten) ∧
    print_archive (serialize [⟨[97], [1]⟩, ⟨[98], [2]⟩]) []
      = { ret := true, stdout := [1, 2], stderr := [] } :=
  ⟨(C13_print_output one_entry_archive [] []).1 (by decide) (by decide) (by decide),
   ((C13_print_output [] [] [⟨[97], [1]⟩, ⟨[98], [2]⟩]).2 (by norm_num) (by decide)
      (by norm_num)).1⟩

/-! ### The directory part of a filter -/

theorem cstr_basename (s : List Byte) : cstr (basename (cstr s)) = basename (cstr s) := by
  apply cstr_of_nul_free
  intro b hb
  have h1 : b ∈ cstr s := by
    unfold basename at hb
    exact List.mem_reverse.mp ((List.takeWhile_sublist _).subset (List.mem_reverse.mp hb))
  exact cstr_nul_free s b h1

theorem basename_basename (s : List Byte) : basename (basename s) = basename s := by
  rcases split_at_last SLASH s with h | ⟨pre, suf, h1, h2⟩
  · rw [basename_spec.2 s h, basename_spec.2 s h]
  · rw [h1, basename_spec.1 pre suf h2, basename_spec.2 suf h2]

theorem basename_eq_nil_iff (s : List Byte) :
    basename s = [] ↔ (s = [] ∨ s.getLast? = some SLASH) := by
  rcases split_at_last SLASH s with h | ⟨pre, suf, h1, h2⟩
  · rw [basename_spec.2 s h]
    constructor
    · intro e; exact Or.inl e
    · rintro (e | e)
      · exact e
      · exact absurd (List.mem_of_getLast?_eq_some e) h
  · rw [h1, basename_spec.1 pre suf h2]
    constructor
    · intro e
      right
      rw [e]
      exact List.getLast?_concat pre
    · rintro (e | e)
      · simp at e
      · by_contra hne
        have hl : (pre ++ SLASH :: suf).getLast? = suf.getLast? := by
          rw [show pre ++ SLASH :: suf = (pre ++ [SLASH]) ++ suf by simp]
          rw [List.getLast?_append]
          cases hs : suf.getLast? with
          | none => exact absurd (List.getLast?_eq_none_iff.mp hs) hne
          | some x => rfl
        rw [hl] at e
        exact h2 (List.mem_of_getLast?_eq_some e)

theorem should_list_map_basename (name : List Byte) (file_filter : List (List Byte)) :
    should_list name file_filter
      = should_list name (file_filter.map (fun f => basename (cstr f))) := by
  rw [Bool.eq_iff_iff, should_list_iff, should_list_iff]
  simp only [List.map_eq_nil_iff, List.mem_map, exists_exists_and_eq_and, cstr_basename,
    basename_basename]

/-- C29: in each of `list_archive`, `extract_archive` and `print_archive` the
directory part of a filter is ignored. For every stored name and every filter
`f`, in each of the three match loops: the entry matches `f` if and only if it
matches the basename of `f` (for a single filter and for a whole filter list);
it matches `f` exactly when the basename of `f` equals the basename of the
stored name; the filter `x/b.txt` selects the stored entry `dir/b.txt`, as the
filter `b.txt` does; and a filter ending in `'/'`, whose basename is empty,
selects exactly the entries whose stored name is empty or ends in `'/'`. -/
theorem C29_filter_directory_ignored (name f : List Byte) (file_filter : List (List Byte)) :
    (should_list name [f] = should_list name [basename (cstr f)] ∧
     should_list name file_filter
       = should_list name (file_filter.map (fun g => basename (cstr g))) ∧
     (should_list name [f] = true ↔ basename (cstr f) = basename (cstr name)) ∧
     (should_list name file_filter = true ↔
       (file_filter = [] ∨ ∃ g ∈ file_filter, basename (cstr g) = basename (cstr name))) ∧
     should_list name_dir_b [name_x_b] = true ∧
     should_list name_dir_b [name_b] = true ∧
     ((cstr f).getLast? = some SLASH →
       (should_list name [f] = true ↔
         (cstr name = [] ∨ (cstr name).getLast? = some SLASH)))) ∧
    (should_extract name [f] = should_extract name [basename (cstr f)] ∧
     should_extract name file_filter
       = should_extract name (file_filter.map (fun g => basename (cstr g))) ∧
     (should_extract name [f] = true ↔ basename (cstr f) = basename (cstr name)) ∧
     (should_extract name file_filter = true ↔
       (file_filter = [] ∨ ∃ g ∈ file_filter, basename (cstr g) = basename (cstr name))) ∧
     should_extract name_dir_b [name_x_b] = true ∧
     should_extract name_dir_b [name_b] = true ∧
     ((cstr f).getLast? = some SLASH →
       (should_extract name [f] = true ↔
         (cstr name = [] ∨ (cstr name).getLast? = some SLASH)))) ∧
    (should_print name [f] = should_print name [basename (cstr f)] ∧
     should_print name file_filter
       = should_print name (file_filter.map (fun g => basename (cstr g))) ∧
     (should_print name [f] = true ↔ basename (cstr f) = basename (cstr name)) ∧
     (should_print name file_filter = true ↔
       (file_filter = [] ∨ ∃ g ∈ file_filter, basename (cstr g) = basename (cstr name))) ∧
     should_print name_dir_b [name_x_b] = true ∧
     should_print name_dir_b [name_b] = true ∧
     ((cstr f).getLast? = some SLASH →
       (should_print name [f] = true ↔
         (cstr name = [] ∨ (cstr name).getLast? = some SLASH)))) := by
  have h1 := should_list_map_basename name [f]
  have h2 := should_list_map_basename name file_filter
  have h3 : should_list name [f] = true ↔ basename (cstr f) = basename (cstr name) := by
    rw [should_list_iff]
    simp only [List.mem_singleton, exists_eq_left, reduceCtorEq, false_or]
  have h4 := should_list_iff name file_filter
  have h5 : (cstr f).getLast? = some SLASH →
      (should_list name [f] = true ↔
        (cstr name = [] ∨ (cstr name).getLast? = some SLASH)) := by
    intro hf
    have hb : basename (cstr f) = [] := (basename_eq_nil_iff _).mpr (Or.inr hf)
    rw [h3, hb, eq_comm, basename_eq_nil_iff]
  exact ⟨⟨h1, h2, h3, h4, by decide, by decide, h5⟩,
    ⟨h1, h2, h3, h4, by decide, by decide, h5⟩,
    ⟨h1, h2, h3, h4, by decide, by decide, h5⟩⟩

/-- C29 at a concrete input: the filter `d/` and the stored name `e/`, in the
match loops of `extract_archive` and `print_archive`. -/
theorem C29_filter_directory_ignored_witness :
    (should_extract [101, 47] [[100, 47]] = true ↔
      (cstr [101, 47] = [] ∨ (cstr [101, 47]).getLast? = some SLASH)) ∧
    (should_print [101, 47] [[100, 47]] = true ↔
      (cstr [101, 47] = [] ∨ (cstr [101, 47]).getLast? = some SLASH)) :=
  ⟨(C29_filter_directory_ignored [101, 47] [100, 47] []).2.1.2.2.2.2.2.2 (by decide),
    (C29_filter_directory_ignored [101, 47] [100, 47] []).2.2.2.2.2.2.2.2 (by decide)⟩

/-! ### What a listing depends on -/

theorem list_entries_congr (d1 d2 : List Byte) (file_filter : List (List Byte))
    (hlen : d1.length = d2.length) :
    ∀ (k i : Nat),
      (∀ j, i ≤ j → j < i + k → 16 + 256 * (j + 1) ≤ d1.length →
        entry_name_len d1 j = entry_name_len d2 j ∧
        (entry_name_len d1 j ≤ 247 → entry_name_bytes d1 j = entry_name_bytes d2 j)) →
      list_entries d1 file_filter k i (16 + 256 * i)
        = list_entries d2 file_filter k i (16 + 256 * i) := by
  intro k
  induction k with
  | zero => intro i _; rfl
  | succ k ih =>
    intro i h
    have hstep : 16 + 256 * i + ENTRY_SIZE = 16 + 256 * (i + 1) := by
      unfold ENTRY_SIZE; omega
    have hrest := ih (i + 1) (fun j h1 h2 h3 => h j (by omega) (by omega) h3)
    rw [list_entries, list_entries, ← hlen]
    by_cases hoob : 16 + 256 * i + ENTRY_SIZE > d1.length
    · rw [if_pos hoob, if_pos hoob]
    · rw [if_neg hoob, if_neg hoob]
      obtain ⟨hn, hb⟩ := h i (Nat.le_refl _) (by omega) (by unfold ENTRY_SIZE at hoob; omega)
      unfold entry_name_len at hn
      simp only [hstep, ← hn, hrest]
      by_cases hnl : byteAt d1 (16 + 256 * i) > MAX_NAME_LEN
      · rw [if_pos hnl, if_pos hnl]
      · have hb' := hb (by unfold entry_name_len; unfold MAX_NAME_LEN at hnl; omega)
        unfold entry_name_bytes entry_name_len at hb'
        rw [← hn] at hb'
        rw [if_neg hnl, if_neg hnl, hb']

set_option maxRecDepth 100000 in
/-- C30: the result of `list_archive` depends only on the buffer length, the
magic, the entry count and, for each declared entry whose descriptor lies
inside the buffer, the name-length byte and (when that is at most 247) the
name bytes: two buffers of the same length that agree on those give the same
result for the same filter, whatever their version fields, offset and length
fields and data blocks hold. So a listing names an entry even when its content
range is out of bounds and `print_archive` and `extract_archive` skip it. -/
theorem C30_list_depends_on_names (d1 d2 : List Byte) (file_filter : List (List Byte))
    (hlen : d1.length = d2.length)
    (hmagic : read_u64_le d1 0 = read_u64_le d2 0)
    (hcount : read_u32_le d1 8 = read_u32_le d2 8)
    (hnames : ∀ j, j < read_u32_le d1 8 → 16 + 256 * (j + 1) ≤ d1.length →
      entry_name_len d1 j = entry_name_len d2 j ∧
      (entry_name_len d1 j ≤ 247 → entry_name_bytes d1 j = entry_name_bytes d2 j)) :
    list_archive d1 file_filter = list_archive d2 file_filter ∧
    list_archive oob_content_archive []
      = { ret := true, stdout := [97, 10], stderr := [] } ∧
    print_archive oob_content_archive []
      = { ret := true, stdout := [], stderr := [Diag.fileOutOfBounds [97]] } ∧
    (extract_archive fs_ok oob_content_archive none [] 0).writes = [] := by
  refine ⟨?_, by decide, by decide, by decide⟩
  have h := list_entries_congr d1 d2 file_filter hlen (read_u32_le d1 8) 0
    (fun j _ h2 h3 => hnames j (by omega) h3)
  simp only [Nat.mul_zero, Nat.add_zero] at h
  unfold list_archive
  simp only [HEADER_SIZE, ← hlen, ← hmagic, ← hcount, h]

set_option maxRecDepth 100000 in
/-- C30 at a concrete input: the one-entry archive and the same archive with
version 2. -/
theorem C30_list_depends_on_names_witness :
    list_archive one_entry_archive [] = list_archive version2_archive [] :=
  (C30_list_depends_on_names one_entry_archive version2_archive [] (by decide) (by decide)
    (by decide)
    (fun j hj _ => by
      have h1 : read_u32_le one_entry_archive 8 = 1 := by decide
      have h0 : j = 0 := by omega
      subst h0
      decide)).1

/-! ### Listing twice -/

/-- C23: `list_archive` never writes the archive and is a function of the
archive bytes and the filter list alone. A run leaves every file as it was, and
a second run with the same filter on the world the first one left returns the
same value and writes the same bytes to `stdout` and the same diagnostics to
`stderr` again; what a run writes is determined by the bytes of the archive
and the filter. -/
theorem C23_list_idempotent (archive_path : List Byte) (file_filter : List (List Byte))
    (w w' : World) :
    (run_list_archive archive_path file_filter w).2.file = w.file ∧
    (run_list_archive archive_path file_filter
      (run_list_archive archive_path file_filter w).2).2.file = w.file ∧
    (run_list_archive archive_path file_filter
      (run_list_archive archive_path file_filter w).2).1
      = (run_list_archive archive_path file_filter w).1 ∧
    (∃ out err,
      (run_list_archive archive_path file_filter w).2.stdout = w.stdout ++ out ∧
      (run_list_archive archive_path file_filter w).2.stderr = w.stderr ++ err ∧
      (run_list_archive archive_path file_filter
        (run_list_archive archive_path file_filter w).2).2.stdout
          = (run_list_archive archive_path file_filter w).2.stdout ++ out ∧
      (run_list_archive archive_path file_filter
        (run_list_archive archive_path file_filter w).2).2.stderr
          = (run_list_archive archive_path file_filter w).2.stderr ++ err ∧
      (w'.file (cstr archive_path) = w.file (cstr archive_path) →
        (run_list_archive archive_path file_filter w').1
          = (run_list_archive archive_path file_filter w).1 ∧
        (run_list_archive archive_path file_filter w').2.stdout = w'.stdout ++ out ∧
        (run_list_archive archive_path file_filter w').2.stderr = w'.stderr ++ err)) ∧
    (∀ data, w.file (cstr archive_path) = some data →
      (run_list_archive archive_path file_filter w).1 = (list_archive data file_filter).ret ∧
      (run_list_archive archive_path file_filter w).2.stdout
        = w.stdout ++ (list_archive data file_filter).stdout) := by
  have hfile : ∀ v : World, (run_list_archive archive_path file_filter v).2.file = v.file := by
    intro v
    unfold run_list_archive
    cases v.file (cstr archive_path) <;> rfl
  refine ⟨hfile w, ?_, ?_, ?_, ?_⟩
  · rw [hfile, hfile]
  · have h := hfile w
    unfold run_list_archive at h ⊢
    cases hw : w.file (cstr archive_path) with
    | none => simp only [hw]
    | some data => simp only [hw]
  · cases hw : w.file (cstr archive_path) with
    | none =>
      refine ⟨[], [Event.readFailed (cstr archive_path)], ?_, ?_, ?_, ?_, ?_⟩
      · simp [run_list_archive, hw]
      · simp [run_list_archive, hw]
      · simp [run_list_archive, hw]
      · simp [run_list_archive, hw]
      · intro h
        simp [run_list_archive, h, hw]
    | some data =>
      refine ⟨(list_archive data file_filter).stdout,
        (list_archive data file_filter).stderr.map Event.diag, ?_, ?_, ?_, ?_, ?_⟩
      · simp [run_list_archive, hw]
      · simp [run_list_archive, hw]
      · simp [run_list_archive, hw]
      · simp [run_list_archive, hw]
      · intro h
        simp [run_list_archive, h, hw]
  · intro data hw
    simp [run_list_archive, hw]

/-- C23 at a concrete input: listing in a world whose archive is the one-entry
archive. -/
theorem C23_list_idempotent_witness :
    (run_list_archive [97] [] one_archive_world).1
        = (list_archive one_entry_archive []).ret ∧
    (run_list_archive [97] [] one_archive_world).2.stdout
        = one_archive_world.stdout ++ (list_archive one_entry_archive []).stdout :=
  (C23_list_idempotent [97] [] one_archive_world one_archive_world).2.2.2.2
    one_entry_archive rfl

/-! ### Content ranges out of bounds -/

/-- A selected entry whose content range is out of bounds is skipped by
`print_archive` and `extract_archive`: when the loop reaches it, nothing is
emitted for it but the "file out of bounds" diagnostic, and the loop continues
exactly as the loop started at the next entry does. -/
theorem content_out_of_range_skipped (fs : Fs) (data : List Byte)
    (dir_path : Option (List Byte)) (file_filter : List (List Byte))
    (options block_start k i : Nat)
    (hin : 16 + 256 * i + 256 ≤ data.length) (hlen : entry_name_len data i ≤ 247)
    (hsel : selected file_filter (entry_name data i))
    (hout : block_start + entry_content_offset data i + entry_content_length data i
      > data.length) :
    print_entries data file_filter block_start (k + 1) i (16 + 256 * i)
      = ((print_entries data file_filter block_start k (i + 1) (16 + 256 * (i + 1))).1,
         Diag.fileOutOfBounds (entry_name data i)
           :: (print_entries data file_filter block_start k (i + 1) (16 + 256 * (i + 1))).2) ∧
    extract_entries fs data dir_path file_filter options block_start (k + 1) i (16 + 256 * i)
      = { extract_entries fs data dir_path file_filter options block_start k (i + 1)
            (16 + 256 * (i + 1)) with
          stderr := Diag.fileOutOfBounds (entry_name data i)
            :: (extract_entries fs data dir_path file_filter options block_start k (i + 1)
                  (16 + 256 * (i + 1))).stderr } ∧
    content_piece data file_filter block_start i = none ∧
    extract_piece data dir_path file_filter block_start i = none := by
  have hstep : 16 + 256 * i + ENTRY_SIZE = 16 + 256 * (i + 1) := by
    unfold ENTRY_SIZE; omega
  have hoob : ¬ 16 + 256 * i + ENTRY_SIZE > data.length := by
    unfold ENTRY_SIZE; omega
  have hnl : ¬ byteAt data (16 + 256 * i) > MAX_NAME_LEN := by
    unfold entry_name_len at hlen
    unfold MAX_NAME_LEN
    omega
  have hs : should_list (slice data (16 + 256 * i + 1) (byteAt data (16 + 256 * i)))
      file_filter = true := (should_list_selected _ _).mpr hsel
  have hr : block_start + read_u32_le data (16 + 256 * i + 248)
      + read_u32_le data (16 + 256 * i + 252) > data.length := hout
  have hc : content_piece data file_filter block_start i = none := by
    unfold content_piece
    rw [if_neg (by intro h; omega)]
  refine ⟨?_, ?_, hc, ?_⟩
  · rw [print_entries, if_neg hoob]
    have hs' : should_print (slice data (16 + 256 * i + 1) (byteAt data (16 + 256 * i)))
        file_filter = true := hs
    simp only [if_neg hnl, hs', if_true, if_pos hr, hstep]
    rfl
  · rw [extract_entries, if_neg hoob]
    have hs' : should_extract (slice data (16 + 256 * i + 1) (byteAt data (16 + 256 * i)))
        file_filter = true := hs
    simp only [if_neg hnl, hs', Bool.not_true, Bool.false_eq_true, if_false, if_pos hr, hstep]
    rfl
  · unfold extract_piece
    rw [hc]
    rfl

set_option maxRecDepth 100000 in
/-- C21 (what the code does at the failing input): on the buffer that declares
two entries and holds one descriptor, the entry `a` is selected and its content
range is out of bounds; `print_archive` emits nothing for it and returns
success, but `extract_archive`, after skipping it, returns failure at the
missing second descriptor. -/
theorem C21_extract_fails_after_skip :
    entry_name two_declared_one_held 0 = [97] ∧
    16 + 256 * read_u32_le two_declared_one_held 8
        + entry_content_offset two_declared_one_held 0
        + entry_content_length two_declared_one_held 0 > two_declared_one_held.length ∧
    print_archive two_declared_one_held []
      = { ret := true, stdout := [],
          stderr := [Diag.fileOutOfBounds [97], Diag.entryOutOfBounds 1] } ∧
    extract_archive fs_ok two_declared_one_held none [] 0
      = { ret := false, writes := [], stdout := [],
          stderr := [Diag.fileOutOfBounds [97], Diag.entryOutOfBounds 1] } := by
  decide

set_option maxRecDepth 100000 in
/-- C24 (what the code does at the failing input): for the declared entry count
`2^24` the readers' 32-bit computation of the data block start wraps to 16. The
content range of the entry `a`, `[16 + 256 * 2^24 + 0, + 1)`, lies outside the
272-byte buffer, yet `print_archive` and `extract_archive` pass their bounds
check and emit the byte at offset 16 (the name-length byte of the descriptor)
as its content. -/
theorem C24_data_block_start_wraps :
    read_u32_le wrapped_count_archive 8 = 2 ^ 24 ∧
    data_block_start (2 ^ 24) = 16 ∧
    ¬ (16 + 256 * 2 ^ 24 + entry_content_offset wrapped_count_archive 0
        + entry_content_length wrapped_count_archive 0 ≤ wrapped_count_archive.length) ∧
    print_archive wrapped_count_archive []
      = { ret := true, stdout := [1], stderr := [Diag.entryOutOfBounds 1] } ∧
    (extract_archive fs_ok wrapped_count_archive none [] 0).writes = [([97], [1])] := by
  decide

/-- C25 (what the code does at the failing input): on the 16-byte buffer that
declares one entry, `delete_from_archive` reads the name-length byte at offset
16, behind the last byte of the archive, and then the offset and length fields
at 264 and 268, outside the object `read_file` allocated: the run leaves
defined behaviour. -/
theorem C25_delete_reads_outside :
    truncated_archive.length = 16 ∧
    read_u64_le truncated_archive 0 = MAGIC ∧
    read_u32_le truncated_archive 12 = 1 ∧
    read_u32_le truncated_archive 8 = 1 ∧
    delete_from_archive truncated_archive [[97]] 0 true = none := by
  decide

/-! ### The kept list of a delete -/

/-- What the delete loop keeps of entry `i` of a buffer the writer built. -/
theorem kept_entry_serialize (files : List FileEntry) (files_to_delete : List (List Byte))
    (hn : ∀ f ∈ files, strlen f.name ≤ 247) (ht : total_data_size files < 2 ^ 32)
    (i : Nat) (hi : i < files.length) :
    kept_entry (serialize files) files_to_delete files.length i
      = if cstr files[i].name ∈ files_to_delete.map cstr then none
        else some ⟨cstr files[i].name, files[i].contents⟩ := by
  obtain ⟨_, h1, h2, h3, h4, h5, h6⟩ := serialize_fields files hn ht i hi
  have hf : strlen files[i].name ≤ 247 := hn _ (List.getElem_mem _)
  have hname : entry_name (serialize files) i = cstr files[i].name := by
    unfold entry_name entry_name_bytes entry_name_len
    rw [h1, h2, cstr_cstr]
  unfold kept_entry
  rw [hname]
  unfold entry_name_len entry_in_range entry_content entry_content_offset entry_content_length
  simp only [h1, h3, h4]
  by_cases hm : cstr files[i].name ∈ files_to_delete.map cstr
  · rw [if_pos hm, if_neg (fun h => h.2.1 hm)]
  · rw [if_neg hm, if_pos ⟨hf, hm, h5⟩, h6]

/-- The kept set of a buffer the writer built from fewer than `2^32` entries. -/
theorem kept_set_serialize (files : List FileEntry) (files_to_delete : List (List Byte))
    (hn : ∀ f ∈ files, strlen f.name ≤ 247) (ht : total_data_size files < 2 ^ 32)
    (hl : files.length < 2 ^ 32) :
    kept_set (serialize files) files_to_delete
      = files.filterMap (fun f => if cstr f.name ∈ files_to_delete.map cstr then none
          else some ⟨cstr f.name, f.contents⟩) := by
  have hc : read_u32_le (serialize files) 8 = files.length := by
    rw [serialize_count_field, Nat.mod_eq_of_lt hl]
  unfold kept_set
  rw [hc]
  have key : ∀ m, m ≤ files.length →
      (List.range m).filterMap (kept_entry (serialize files) files_to_delete files.length)
        = (files.take m).filterMap (fun f => if cstr f.name ∈ files_to_delete.map cstr then none
            else some ⟨cstr f.name, f.contents⟩) := by
    intro m
    induction m with
    | zero => intro _; rfl
    | succ m ih =>
      intro hm
      have hm1 : m < files.length := by omega
      rw [List.range_succ, List.filterMap_append, ih (by omega), List.take_succ,
        List.filterMap_append, List.getElem?_eq_getElem hm1]
      congr 1
      simp only [List.filterMap_cons, List.filterMap_nil, Option.toList]
      rw [kept_entry_serialize files files_to_delete hn ht m hm1]
  have := key files.length (le_refl _)
  rw [List.take_length] at this
  exact this

/-- The loop of `delete_from_archive` on a buffer that holds all the
descriptors it visits: when the entries to keep, together with those already
kept, are more than 16, the loop stores beyond the capacity of the kept list. -/
theorem delete_entries_overflow (data : List Byte) (files_to_delete : List (List Byte))
    (options count : Nat) :
    ∀ (k i : Nat) (st : DelState),
      16 + 256 * (i + k) ≤ data.length →
      st.files.length ≤ 16 →
      16 < st.files.length + ((List.range' i k).filterMap
        (kept_entry data files_to_delete count)).length →
      delete_entries data files_to_delete options (16 + 256 * count) k (16 + 256 * i) st
        = none := by
  intro k
  induction k with
  | zero =>
    intro i st _ h16 hcap
    simp at hcap
    omega
  | succ k ih =>
    intro i st hb h16 hcap
    have hstep : 16 + 256 * i + ENTRY_SIZE = 16 + 256 * (i + 1) := by
      unfold ENTRY_SIZE; omega
    have hb' : 16 + 256 * (i + 1 + k) ≤ data.length := by omega
    have hr : List.range' i (k + 1) = i :: List.range' (i + 1) k := List.range'_succ _ _ _
    have hlen := read_file_buffer_length data
    rw [hr] at hcap
    rw [delete_entries]
    simp only [hlen, hstep]
    rw [if_neg (by omega), byteAt_mem _ _ (by omega)]
    by_cases hnl : byteAt data (16 + 256 * i) > MAX_NAME_LEN
    · have hk : kept_entry data files_to_delete count i = none := by
        unfold kept_entry entry_name_len
        unfold MAX_NAME_LEN at hnl
        rw [if_neg (by omega)]
      rw [if_pos hnl]
      rw [List.filterMap_cons_none hk] at hcap
      exact ih (i + 1) st hb' h16 hcap
    · have hnl' : byteAt data (16 + 256 * i) ≤ 247 := by
        unfold MAX_NAME_LEN at hnl; omega
      rw [if_neg hnl, if_neg (by omega), slice_mem _ _ _ (by omega)]
      by_cases hsd : should_delete (slice data (16 + 256 * i + 1) (byteAt data (16 + 256 * i)))
          files_to_delete = true
      · have hin : entry_name data i ∈ files_to_delete.map cstr :=
          (should_delete_iff _ _).mp hsd
        have hk : kept_entry data files_to_delete count i = none := by
          unfold kept_entry
          rw [if_neg (by
            intro h
            exact h.2.1 hin)]
        rw [if_pos hsd]
        rw [List.filterMap_cons_none hk] at hcap
        by_cases hint : st.deleted_count + 1 > INT_MAX
        · rw [if_pos hint]
        · rw [if_neg hint]
          exact ih (i + 1) _ hb' h16 hcap
      · have hnin : entry_name data i ∉ files_to_delete.map cstr :=
          fun h => hsd ((should_delete_iff _ _).mpr h)
        rw [if_neg hsd, if_neg (by omega), read_u32_le_mem _ _ (by omega),
          read_u32_le_mem _ _ (by omega)]
        by_cases hrange : 16 + 256 * count + read_u32_le data (16 + 256 * i + 248)
            + read_u32_le data (16 + 256 * i + 252) > data.length
        · have hk : kept_entry data files_to_delete count i = none := by
            unfold kept_entry entry_in_range entry_content_offset entry_content_length
            rw [if_neg (by
              intro h
              omega)]
          rw [if_pos hrange]
          rw [List.filterMap_cons_none hk] at hcap
          exact ih (i + 1) _ hb' h16 hcap
        · have hk : kept_entry data files_to_delete count i
              = some ⟨entry_name data i, entry_content data count i⟩ := by
            unfold kept_entry entry_in_range entry_content_offset entry_content_length
            rw [if_pos ⟨hnl', hnin, by omega⟩]
          rw [List.filterMap_cons_some hk] at hcap
          rw [if_neg hrange]
          by_cases hfull : st.files.length ≥ FILE_LIST_CAPACITY
          · rw [if_pos hfull]
          · rw [if_neg hfull]
            unfold FILE_LIST_CAPACITY at hfull
            exact ih (i + 1) _ hb'
              (by simp only [List.length_append, List.length_cons, List.length_nil]; omega)
              (by simp only [List.length_append, List.length_cons, List.length_nil] at hcap ⊢
                  omega)

/-- `delete_from_archive` on a well-formed archive of fewer than `2^24`
entries, all descriptors inside the buffer, of which more than 16 are to be
kept: the run leaves defined behaviour. -/
theorem delete_overflow (data : List Byte) (files_to_delete : List (List Byte))
    (options : Nat) (write_ok : Bool)
    (h16 : 16 ≤ data.length)
    (hmagic : read_u64_le data 0 = MAGIC)
    (hver : read_u32_le data 12 = 1)
    (hcount : read_u32_le data 8 < 2 ^ 24)
    (hdesc : 16 + 256 * read_u32_le data 8 ≤ data.length)
    (hkept : 16 < (kept_set data files_to_delete).length) :
    delete_from_archive data files_to_delete options write_ok = none := by
  have h := delete_entries_overflow data files_to_delete options (read_u32_le data 8)
    (read_u32_le data 8) 0 { files := [], deleted_count := 0, stdout := [], stderr := [] }
    (by omega) (by simp)
    (by rw [← List.range_eq_range']; simpa [kept_set] using hkept)
  have h16' : ¬ data.length < 16 := by omega
  rw [← data_block_start_eq _ hcount] at h
  simp only [delete_from_archive, HEADER_SIZE, h16', hmagic, hver, ARCHIVE_VERSION, ne_eq,
    not_true_eq_false, if_false]
  simp only [Nat.mul_zero, Nat.add_zero] at h
  rw [h]

/-- C26 (what the code does at the failing input): deleting `a` from the
archive written for the eighteen files `a` .. `r` keeps seventeen entries; the
seventeenth is stored at index 16 of the kept list, whose arrays have 16
slots: the run leaves defined behaviour. -/
theorem C26_kept_list_overflows :
    eighteen_files.length = 18 ∧
    (kept_set (serialize eighteen_files) [[97]]).length = 17 ∧
    FILE_LIST_CAPACITY = 16 ∧
    delete_from_archive (serialize eighteen_files) [[97]] 0 true = none := by
  have hn : ∀ f ∈ eighteen_files, strlen f.name ≤ 247 := by decide
  have ht : total_data_size eighteen_files < 2 ^ 32 := by decide
  have hk := kept_set_serialize eighteen_files [[97]] hn ht (by decide)
  have hk17 : (kept_set (serialize eighteen_files) [[97]]).length = 17 := by
    rw [hk]
    decide
  obtain ⟨h16, hmagic, hver⟩ := serialize_header_fields eighteen_files
  have hc : read_u32_le (serialize eighteen_files) 8 = 18 := by
    rw [serialize_count_field]
    decide
  refine ⟨by decide, hk17, rfl, ?_⟩
  refine delete_overflow _ _ 0 true h16 hmagic hver (by rw [hc]; norm_num) ?_ (by rw [hk17]; norm_num)
  rw [hc, serialize_length]
  have : eighteen_files.length = 18 := by decide
  omega

/-- Every entry the delete loop keeps has a name of at most 247 bytes that the
delete list does not name, and a run that stays defined keeps at most 16. -/
theorem delete_entries_kept (archive_data : List Byte) (files_to_delete : List (List Byte))
    (options block_start : Nat) :
    ∀ (k entry_offset : Nat) (st st' : DelState),
      delete_entries archive_data files_to_delete options block_start k entry_offset st
        = some st' →
      st.files.length ≤ 16 →
      (∀ f ∈ st.files, strlen f.name ≤ 247 ∧ cstr f.name ∉ files_to_delete.map cstr) →
      st'.files.length ≤ 16 ∧
      (∀ f ∈ st'.files, strlen f.name ≤ 247 ∧ cstr f.name ∉ files_to_delete.map cstr) := by
  intro k
  induction k with
  | zero =>
    intro eo st st' h h16 hq
    rw [delete_entries] at h
    cases h
    exact ⟨h16, hq⟩
  | succ k ih =>
    intro entry_offset st st' h h16 hq
    rw [delete_entries] at h
    simp only [] at h
    split at h
    · cases h
    · split at h
      · exact ih _ _ _ h h16 hq
      · rename_i hnl
        split at h
        · cases h
        · split at h
          · rename_i hsd
            split at h
            · cases h
            · exact ih _ _ _ h h16 hq
          · rename_i hsd
            split at h
            · cases h
            · split at h
              · exact ih _ _ _ h h16 hq
              · split at h
                · cases h
                · rename_i hfull
                  unfold FILE_LIST_CAPACITY at hfull
                  refine ih _ _ _ h ?_ ?_
                  · simp only [List.length_append, List.length_cons, List.length_nil]
                    omega
                  · intro f hf
                    simp only [List.mem_append, List.mem_singleton] at hf
                    rcases hf with hf | hf
                    · exact hq f hf
                    · subst hf
                      simp only []
                      constructor
                      · unfold strlen
                        rw [cstr_cstr]
                        have h1 := strlen_le_length
                          (slice (read_file_buffer archive_data) (entry_offset + 1)
                            (byteAt (read_file_buffer archive_data) entry_offset))
                        unfold strlen at h1
                        have h2 : (slice (read_file_buffer archive_data) (entry_offset + 1)
                            (byteAt (read_file_buffer archive_data) entry_offset)).length
                            ≤ byteAt (read_file_buffer archive_data) entry_offset := by
                          unfold slice
                          exact List.length_take_le _ _
                        unfold MAX_NAME_LEN at hnl
                        omega
                      · rw [cstr_cstr]
                        intro hin
                        exact hsd ((should_delete_iff _ _).mpr hin)

/-- C27: when `delete_from_archive` with delete list `N` succeeds, it has
written an archive in which every entry's stored name is a C string that
equals no name of `N` (all entries with a matching name are gone, duplicates
included); a second `delete_from_archive` with the same `N` on the archive
written is defined, fails with "no files deleted" as its last diagnostic, and
writes nothing. -/
theorem C27_delete_removes_all_matches (data : List Byte) (N : List (List Byte))
    (options options2 : Nat) (write_ok write_ok2 : Bool) (d : Deleted)
    (h : delete_from_archive data N options write_ok = some d) (hret : d.ret = true) :
    ∃ w, d.written = some w ∧
      (∀ j, j < read_u32_le w 8 →
        entry_name_len w j ≤ 247 ∧ entry_name_bytes w j = entry_name w j ∧
        entry_name w j ∉ N.map cstr) ∧
      ∃ d2, delete_from_archive w N options2 write_ok2 = some d2 ∧
        d2.ret = false ∧ d2.written = none ∧
        d2.stderr.getLast? = some Diag.noFilesDeleted := by
  unfold delete_from_archive at h
  simp only [] at h
  split at h
  · cases h; cases hret
  · split at h
    · cases h; cases hret
    · split at h
      · cases h; cases hret
      · split at h
        · cases h
        · rename_i st hloop
          split at h
          · cases h; cases hret
          · cases h
            obtain ⟨hlen, hq⟩ := delete_entries_kept data N options _ _ _ _ _ hloop
              (by simp) (by simp)
            have hn : ∀ f ∈ st.files, strlen f.name ≤ 247 := fun f hf => (hq f hf).1
            have hc : read_u32_le (serialize st.files) 8 = st.files.length := by
              rw [serialize_count_field, Nat.mod_eq_of_lt (by omega)]
            have hnames : ∀ j, j < read_u32_le (serialize st.files) 8 →
                entry_name_len (serialize st.files) j ≤ 247 ∧
                entry_name_bytes (serialize st.files) j = entry_name (serialize st.files) j ∧
                entry_name (serialize st.files) j ∉ N.map cstr := by
              intro j hj
              rw [hc] at hj
              obtain ⟨_, h1, h2⟩ := serialize_name_fields st.files hn j hj
              have hmem : st.files[j] ∈ st.files := List.getElem_mem _
              have hb : entry_name_bytes (serialize st.files) j = cstr st.files[j].name := by
                unfold entry_name_bytes entry_name_len
                rw [h1, h2]
              refine ⟨?_, ?_, ?_⟩
              · unfold entry_name_len
                rw [h1]
                exact hn _ hmem
              · unfold entry_name
                rw [hb, cstr_cstr]
              · unfold entry_name
                rw [hb, cstr_cstr]
                exact (hq _ hmem).2
            refine ⟨serialize st.files, rfl, hnames, ?_⟩
            obtain ⟨h16, hmagic, hver⟩ := serialize_header_fields st.files
            have hkept : (kept_set (serialize st.files) N).length ≤ 16 := by
              unfold kept_set
              rw [hc]
              have := List.length_filterMap_le
                (kept_entry (serialize st.files) N st.files.length) (List.range st.files.length)
              rw [List.length_range] at this
              omega
            obtain ⟨st2, g1, _, g3⟩ := delete_run (serialize st.files) N options2
              (by rw [hc]; omega)
              (by rw [hc, serialize_length]; omega) hkept
            have hdc : st2.deleted_count = 0 := by
              rw [g3]
              rintro ⟨i, hi, hdel⟩
              exact (hnames i hi).2.2 hdel.2
            have h16' : ¬ (serialize st.files).length < 16 := by omega
            simp only [delete_from_archive, HEADER_SIZE, h16', hmagic, hver, ARCHIVE_VERSION,
              ne_eq, not_true_eq_false, if_false]
            simp only [HEADER_SIZE] at g1
            rw [g1]
            simp only [hdc, if_true]
            exact ⟨_, rfl, rfl, rfl, by simp⟩

set_option maxRecDepth 100000 in
/-- C27 at a concrete input: deleting `x` from the archive that holds `x`, `a`
and a second `x`. -/
theorem C27_delete_removes_all_matches_witness :
    delete_from_archive duplicate_x_archive [[120]] 0 true = some deleted_duplicates ∧
    deleted_duplicates.ret = true ∧
    ∃ w, deleted_duplicates.written = some w ∧
      (∀ j, j < read_u32_le w 8 →
        entry_name_len w j ≤ 247 ∧ entry_name_bytes w j = entry_name w j ∧
        entry_name w j ∉ [[(120 : Byte)]].map cstr) ∧
      ∃ d2, delete_from_archive w [[120]] 0 true = some d2 ∧
        d2.ret = false ∧ d2.written = none ∧
        d2.stderr.getLast? = some Diag.noFilesDeleted :=
  ⟨by decide, rfl,
    C27_delete_removes_all_matches duplicate_x_archive [[120]] 0 0 true true deleted_duplicates
      (by decide) rfl⟩

/-! ### Stored fields and data block, for every input list -/

theorem slice_of_take_eq (X Y : List Byte) (m a n : Nat) (h : X.take m = Y.take m)
    (hb : a + n ≤ m) : slice X a n = slice Y a n := by
  have e : ∀ Z : List Byte, slice Z a n = slice (Z.take m) a n := by
    intro Z
    unfold slice
    rw [List.drop_take, List.take_take, Nat.min_eq_left (by omega)]
  rw [e X, e Y, h]

theorem memcpy_slice (src buf : List Byte) (off : Nat) (h : off + src.length ≤ buf.length) :
    slice (memcpy buf off src) off src.length = src := by
  obtain ⟨pre, mid, post, rfl, h1, h2⟩ : ∃ pre mid post : List Byte,
      buf = pre ++ (mid ++ post) ∧ off = pre.length ∧ mid.length = src.length :=
    ⟨buf.take off, (buf.drop off).take src.length, (buf.drop off).drop src.length,
      by rw [List.take_append_drop, List.take_append_drop],
      by rw [List.length_take]; omega,
      by rw [List.length_take, List.length_drop]; omega⟩
  rw [memcpy_mid src pre mid post off h1 h2]
  exact slice_append_mid _ _ _ off src.length h1 rfl

theorem write_u32_le_slice (buf : List Byte) (off v : Nat) (h : off + 4 ≤ buf.length) :
    slice (write_u32_le buf off v) off 4 = le32 v := by
  rw [write_u32_le_eq_memcpy]
  exact memcpy_slice (le32 v) buf off h

theorem write_entries_length (fs : List FileEntry) :
    ∀ (archive : List Byte) (entry_offset data_pos data_offset : Nat),
      (write_entries fs archive entry_offset data_pos data_offset).length = archive.length := by
  induction fs with
  | nil => intro a e p d; rfl
  | cons f fs ih =>
    intro a e p d
    simp only [write_entries]
    rw [ih, write_u32_le_length, write_u32_le_length, memcpy_length, List.length_set]

theorem write_contents_length (fs : List FileEntry) :
    ∀ (archive : List Byte) (data_pos : Nat),
      (write_contents fs archive data_pos).length = archive.length := by
  induction fs with
  | nil => intro a p; rfl
  | cons f fs ih =>
    intro a p
    simp only [write_contents]
    rw [ih, memcpy_length]

/-- The offset and length fields the descriptor loop stores for entry `i`,
whatever the names are. -/
theorem write_entries_fields (fs : List FileEntry) :
    ∀ (archive : List Byte) (entry_offset data_pos data_offset i : Nat) (hi : i < fs.length),
      entry_offset + 256 * fs.length ≤ archive.length → data_offset ≤ data_pos →
      slice (write_entries fs archive entry_offset data_pos data_offset)
          (entry_offset + 256 * i + 248) 4
        = le32 (data_pos - data_offset + offset_of fs i) ∧
      slice (write_entries fs archive entry_offset data_pos data_offset)
          (entry_offset + 256 * i + 252) 4
        = le32 fs[i].contents.length := by
  induction fs with
  | nil => intro a eo dp d i hi; simp at hi
  | cons f fs ih =>
    intro a eo dp d i hi hlen hd
    simp only [List.length_cons] at hlen
    cases i with
    | zero =>
      simp only [write_entries, ENTRY_SIZE, Nat.mul_zero, Nat.add_zero, List.getElem_cons_zero]
      have hl1 : (memcpy (a.set eo (u8 (strlen f.name % 256))) (eo + 1)
          ((cstr f.name).take (strlen f.name % 256))).length = a.length := by
        rw [memcpy_length, List.length_set]
      constructor
      · rw [slice_of_take_eq _ _ (eo + 256) _ _
            (write_entries_take _ _ _ _ _ _ (le_refl _)) (by omega),
          slice_of_take_eq _ _ (eo + 252) _ _
            (write_u32_le_take _ _ _ _ (le_refl _)) (by omega),
          write_u32_le_slice _ _ _ (by rw [hl1]; omega), le32_mod]
        simp [offset_of]
      · rw [slice_of_take_eq _ _ (eo + 256) _ _
            (write_entries_take _ _ _ _ _ _ (le_refl _)) (by omega),
          write_u32_le_slice _ _ _ (by rw [write_u32_le_length, hl1]; omega), le32_mod]
    | succ i =>
      have hi3 : i < fs.length := by simpa using hi
      simp only [write_entries, ENTRY_SIZE, List.getElem_cons_succ]
      have h := ih (write_u32_le (write_u32_le
          (memcpy (a.set eo (u8 (strlen f.name % 256))) (eo + 1)
            ((cstr f.name).take (strlen f.name % 256)))
          (eo + 248) ((dp - d) % 2 ^ 32)) (eo + 252) (f.contents.length % 2 ^ 32))
        (eo + 256) (dp + f.contents.length) d i hi3
        (by rw [write_u32_le_length, write_u32_le_length, memcpy_length, List.length_set]
            omega)
        (by omega)
      have e1 : eo + 256 * (i + 1) + 248 = eo + 256 + 256 * i + 248 := by omega
      have e2 : eo + 256 * (i + 1) + 252 = eo + 256 + 256 * i + 252 := by omega
      have e3 : dp - d + offset_of (f :: fs) (i + 1)
          = dp + f.contents.length - d + offset_of fs i := by
        simp only [offset_of, List.take_succ_cons, List.map_cons, List.sum_cons]
        omega
      rw [e1, e2, e3]
      exact h

/-- The offset and length fields of descriptor `i` of a buffer the writer
built, for every input list: the running offset and the size, modulo `2^32`. -/
theorem serialize_stored_fields (files : List FileEntry) (i : Nat) (hi : i < files.length) :
    16 + 256 * i + 256 ≤ (serialize files).length ∧
    read_u32_le (serialize files) (16 + 256 * i + 248) = offset_of files i % 2 ^ 32 ∧
    read_u32_le (serialize files) (16 + 256 * i + 252)
      = files[i].contents.length % 2 ^ 32 := by
  have key := fun (A : List Byte) (h : 16 + 256 * files.length ≤ A.length) =>
    write_entries_fields files A 16 (16 + 256 * files.length) (16 + 256 * files.length) i hi h
      (le_refl _)
  simp only [Nat.sub_self, Nat.zero_add] at key
  refine ⟨by rw [serialize_length]; omega, ?_, ?_⟩
  · apply read_u32_le_of_slice
    unfold serialize
    simp only [HEADER_SIZE, ENTRY_SIZE]
    rw [slice_of_take_eq _ _ (16 + 256 * files.length) _ _
      (write_contents_take _ _ _ _ (le_refl _)) (by omega)]
    exact (key _ (by
      rw [write_u32_le_length, write_u32_le_length, write_u64_le_length, List.length_replicate]
      omega)).1
  · apply read_u32_le_of_slice
    unfold serialize
    simp only [HEADER_SIZE, ENTRY_SIZE]
    rw [slice_of_take_eq _ _ (16 + 256 * files.length) _ _
      (write_contents_take _ _ _ _ (le_refl _)) (by omega)]
    exact (key _ (by
      rw [write_u32_le_length, write_u32_le_length, write_u64_le_length, List.length_replicate]
      omega)).2

theorem write_contents_mid_any (fs : List FileEntry) :
    ∀ (pre mid post : List Byte) (data_pos : Nat), data_pos = pre.length →
      mid.length = total_data_size fs →
      write_contents fs (pre ++ (mid ++ post)) data_pos
        = pre ++ (spec_data_block fs ++ post) := by
  induction fs with
  | nil =>
    intro pre mid post dp _ hm
    have : mid = [] := List.length_eq_zero.mp hm
    simp [write_contents, spec_data_block, this]
  | cons f fs ih =>
    intro pre mid post dp hd hm
    simp only [write_contents, total_data_size] at hm ⊢
    have e : mid = mid.take f.contents.length ++ mid.drop f.contents.length :=
      (List.take_append_drop _ _).symm
    rw [e, List.append_assoc,
      memcpy_mid f.contents pre _ _ dp hd (by rw [List.length_take]; omega)]
    rw [← List.append_assoc pre, ih (pre ++ f.contents) _ post (dp + f.contents.length)
      (by simp [hd]) (by rw [List.length_drop]; omega)]
    simp [spec_data_block]

/-- The data block of a buffer the writer built is the concatenation of the
contents, for every input list. -/
theorem serialize_data_block (files : List FileEntry) :
    (serialize files).drop (16 + 256 * files.length) = spec_data_block files := by
  unfold serialize
  simp only [HEADER_SIZE, ENTRY_SIZE]
  generalize hW : write_entries files _ 16 (16 + 256 * files.length) (16 + 256 * files.length)
    = W
  have hWl : W.length = 16 + 256 * files.length + total_data_size files := by
    rw [← hW, write_entries_length, write_u32_le_length, write_u32_le_length,
      write_u64_le_length, List.length_replicate]
  have e : W = W.take (16 + 256 * files.length)
      ++ (W.drop (16 + 256 * files.length) ++ []) := by
    rw [List.append_nil, List.take_append_drop]
  rw [e, write_contents_mid_any files _ _ [] (16 + 256 * files.length)
    (by rw [List.length_take]; omega) (by rw [List.length_drop]; omega)]
  rw [List.append_nil, List.drop_left' (by rw [List.length_take]; omega)]

/-- Each entry's own bytes lie in the data block at the running offset. -/
theorem serialize_content_slice (files : List FileEntry) (i : Nat) (hi : i < files.length) :
    slice (serialize files) (16 + 256 * files.length + offset_of files i)
      files[i].contents.length = files[i].contents := by
  have h := data_block_slice files i hi
  rw [← serialize_data_block files] at h
  unfold slice at h ⊢
  rw [List.drop_drop] at h
  exact h

/-! ### Content ranges the writer stores -/

theorem offset_of_succ (files : List FileEntry) (i : Nat) (hi : i < files.length) :
    offset_of files (i + 1) = offset_of files i + files[i].contents.length := by
  unfold offset_of
  rw [List.take_succ, List.getElem?_eq_getElem hi]
  simp only [Option.toList, List.map_append, List.sum_append, List.map_cons, List.map_nil,
    List.sum_cons, List.sum_nil, Nat.add_zero]

theorem offset_of_mono (files : List FileEntry) (i j : Nat) (hij : i < j)
    (hj : j < files.length) :
    offset_of files i + files[i].contents.length ≤ offset_of files j := by
  induction j with
  | zero => omega
  | succ j ih =>
    have hj3 : j < files.length := by omega
    rw [offset_of_succ files j hj3]
    by_cases e : i = j
    · subst e
      exact le_refl _
    · have := ih (by omega) hj3
      omega

/-- The stored fields are exact, and the stored range addresses the entry's own
bytes, whenever the running offset and the size of the entry are below
`2^32`. -/
theorem serialize_exact_of_small (files : List FileEntry) (i : Nat) (hi : i < files.length)
    (ho : offset_of files i < 2 ^ 32) (hl : files[i].contents.length < 2 ^ 32) :
    entry_content_offset (serialize files) i = offset_of files i ∧
    entry_content_length (serialize files) i = files[i].contents.length ∧
    16 + 256 * files.length + entry_content_offset (serialize files) i
      + entry_content_length (serialize files) i ≤ (serialize files).length ∧
    slice (serialize files)
        (16 + 256 * files.length + entry_content_offset (serialize files) i)
        (entry_content_length (serialize files) i) = files[i].contents := by
  obtain ⟨_, h1, h2⟩ := serialize_stored_fields files i hi
  rw [Nat.mod_eq_of_lt ho] at h1
  rw [Nat.mod_eq_of_lt hl] at h2
  have hb := offset_of_add_le files i hi
  unfold entry_content_offset entry_content_length
  rw [h1, h2]
  exact ⟨rfl, rfl, by rw [serialize_length]; omega, serialize_content_slice files i hi⟩

/-- In a buffer the writer built from entries of total content length below
`2^32`, the stored content ranges follow one another from offset 0. -/
theorem serialize_ranges (files : List FileEntry) (ht : total_data_size files < 2 ^ 32) :
    ranges_contiguous (serialize files) files.length := by
  have hex : ∀ i (hi : i < files.length),
      entry_content_offset (serialize files) i = offset_of files i ∧
      entry_content_length (serialize files) i = files[i].contents.length := by
    intro i hi
    have hb := offset_of_add_le files i hi
    obtain ⟨h1, h2, _⟩ := serialize_exact_of_small files i hi (by omega) (by omega)
    exact ⟨h1, h2⟩
  refine ⟨?_, ?_, ?_, ?_⟩
  · intro h0
    rw [(hex 0 h0).1]
    rfl
  · intro i hi
    rw [(hex (i + 1) hi).1, (hex i (by omega)).1, (hex i (by omega)).2]
    exact offset_of_succ files i (by omega)
  · intro i j hij hj
    rw [(hex i (by omega)).1, (hex i (by omega)).2, (hex j hj).1]
    exact offset_of_mono files i j hij hj
  · intro i hi
    have hb := offset_of_add_le files i hi
    rw [(hex i hi).1, (hex i hi).2, serialize_length]
    omega

/-- What `delete_from_archive` writes is the writer's output for the list the
loop kept. -/
theorem delete_writes_serialize (data : List Byte) (files_to_delete : List (List Byte))
    (options : Nat) (write_ok : Bool) (d : Deleted) (w : List Byte)
    (h : delete_from_archive data files_to_delete options write_ok = some d)
    (hw : d.written = some w) :
    ∃ st, delete_entries data files_to_delete options (data_block_start (read_u32_le data 8))
        (read_u32_le data 8) HEADER_SIZE
        { files := [], deleted_count := 0, stdout := [], stderr := [] } = some st ∧
      w = serialize st.files := by
  unfold delete_from_archive at h
  simp only [] at h
  split at h
  · cases h; cases hw
  · split at h
    · cases h; cases hw
    · split at h
      · cases h; cases hw
      · split at h
        · cases h
        · rename_i st hloop
          split at h
          · cases h; cases hw
          · cases h
            simp only [Option.some.injEq] at hw
            exact ⟨st, hloop, hw.symm⟩

set_option maxRecDepth 100000 in
/-- C22: for every input list of total content length below `2^32`, the
content ranges stored in the archive the writer builds follow one another from
offset 0 without gap or overlap and lie inside the data block; that archive is
what `create_archive` writes for the list, and what `delete_from_archive`
writes is the writer's archive of the list it kept. The readers do not require
this: for every buffer with a valid header `print_archive` and
`extract_archive` emit the slice of each selected in-bounds entry, and on the
archive whose two entries address the same two bytes both entries are emitted
with those bytes. -/
theorem C22_writer_ranges_contiguous (files : List FileEntry) (options : Nat)
    (write_ok : Bool) (ht : total_data_size files < 2 ^ 32) :
    ranges_contiguous (serialize files) files.length ∧
    (files ≠ [] → (create_archive files options write_ok).written = some (serialize files)) ∧
    (∀ data N d w, delete_from_archive data N options write_ok = some d →
      d.written = some w →
      ∃ kept, w = serialize kept ∧
        (total_data_size kept < 2 ^ 32 → ranges_contiguous w kept.length)) ∧
    (∀ data file_filter, 16 ≤ data.length → read_u64_le data 0 = MAGIC →
      (print_archive data file_filter).stdout
        = ((List.range (min (read_u32_le data 8) (descriptors_held data))).filterMap
            (content_piece data file_filter (data_block_start (read_u32_le data 8)))).flatten) ∧
    (∀ fs data file_filter, 16 ≤ data.length → read_u64_le data 0 = MAGIC →
      read_u32_le data 12 = 1 →
      (extract_archive fs data none file_filter options).writes
        = (List.range (min (read_u32_le data 8) (descriptors_held data))).filterMap
            (extract_piece data none file_filter (data_block_start (read_u32_le data 8)))) ∧
    entry_content_offset overlapping_archive 0 = 0 ∧
    entry_content_length overlapping_archive 0 = 2 ∧
    entry_content_offset overlapping_archive 1 = 0 ∧
    entry_content_length overlapping_archive 1 = 2 ∧
    print_archive overlapping_archive []
      = { ret := true, stdout := [104, 105, 104, 105], stderr := [] } ∧
    extract_archive fs_ok overlapping_archive none [] 0
      = { ret := true, writes := [([97], [104, 105]), ([98], [104, 105])],
          stdout := [], stderr := [] } := by
  refine ⟨serialize_ranges files ht, ?_, ?_, ?_, ?_, by decide, by decide, by decide,
    by decide, by decide, by decide⟩
  · intro hne
    have : files.length ≠ 0 := fun h => hne (List.length_eq_zero.mp h)
    simp only [create_archive, this, if_false]
  · intro data N d w h hw
    obtain ⟨st, _, e⟩ := delete_writes_serialize data N options write_ok d w h hw
    refine ⟨st.files, e, ?_⟩
    intro hk
    rw [e]
    exact serialize_ranges st.files hk
  · intro data file_filter h16 hmagic
    exact (print_archive_spec data file_filter h16 hmagic).2
  · intro fs data file_filter h16 hmagic hver
    exact (extract_archive_spec fs data file_filter options h16 hmagic hver).2

/-- C22 at a concrete input: two entries `a` / `b` with contents `[1, 2]` /
`[3]`. -/
theorem C22_writer_ranges_contiguous_witness :
    total_data_size [⟨[97], [1, 2]⟩, ⟨[98], [3]⟩] < 2 ^ 32 ∧
    ranges_contiguous (serialize [⟨[97], [1, 2]⟩, ⟨[98], [3]⟩]) 2 :=
  ⟨by decide, (C22_writer_ranges_contiguous [⟨[97], [1, 2]⟩, ⟨[98], [3]⟩] 0 true (by decide)).1⟩

/-! ### Field widths -/

theorem boundary_files_small (X : List Byte) (hX : X.length = 2 ^ 32 - 1) :
    total_data_size (boundary_files X) = 2 ^ 32 ∧
    ∀ i (hi : i < (boundary_files X).length),
      offset_of (boundary_files X) i < 2 ^ 32 ∧
      (boundary_files X)[i].contents.length < 2 ^ 32 := by
  constructor
  · simp only [boundary_files, total_data_size, hX, List.length_cons, List.length_nil]
    norm_num
  · intro i hi
    have h2 : i = 0 ∨ i = 1 := by
      simp only [boundary_files, List.length_cons, List.length_nil] at hi
      omega
    rcases h2 with rfl | rfl
    · simp only [boundary_files, offset_of, List.take_zero, List.map_nil, List.sum_nil,
        List.getElem_cons_zero, hX]
      norm_num
    · simp only [boundary_files, offset_of, List.take_succ_cons, List.take_zero, List.map_cons,
        List.map_nil, List.sum_cons, List.sum_nil, List.getElem_cons_succ,
        List.getElem_cons_zero, hX, List.length_cons, List.length_nil]
      norm_num

/-- C28, the claim as stated fails in its "only then": the two entries of
sizes `2^32 - 1` and 1 have the total content length `2^32`, which is not
below `2^32`, and all the same every stored offset and length is the exact
value and every stored range addresses the entry's own bytes in the data
block. -/
theorem C28_counterexample :
    (boundary_files big_content).length = 2 ∧
    total_data_size (boundary_files big_content) = 2 ^ 32 ∧
    ∀ i (hi : i < (boundary_files big_content).length),
      entry_content_offset (serialize (boundary_files big_content)) i
        = offset_of (boundary_files big_content) i ∧
      entry_content_length (serialize (boundary_files big_content)) i
        = (boundary_files big_content)[i].contents.length ∧
      16 + 256 * (boundary_files big_content).length
        + entry_content_offset (serialize (boundary_files big_content)) i
        + entry_content_length (serialize (boundary_files big_content)) i
        ≤ (serialize (boundary_files big_content)).length ∧
      slice (serialize (boundary_files big_content))
        (16 + 256 * (boundary_files big_content).length
          + entry_content_offset (serialize (boundary_files big_content)) i)
        (entry_content_length (serialize (boundary_files big_content)) i)
        = (boundary_files big_content)[i].contents := by
  have hX : big_content.length = 2 ^ 32 - 1 := List.length_replicate _ _
  obtain ⟨ht, hs⟩ := boundary_files_small big_content hX
  refine ⟨rfl, ht, ?_⟩
  intro i hi
  exact serialize_exact_of_small _ i hi (hs i hi).1 (hs i hi).2

/-- C28 as amended: for every input list of `n` entries the header count the
writer stores is `n mod 2^32`, the content offset stored for entry `i` is the
sum of the content lengths of the entries before it, modulo `2^32`, and the
stored content length is the entry's size modulo `2^32`; whenever `n` and the
total content length are below `2^32` these are the exact values and each
stored range lies in the buffer and addresses the entry's own bytes in the
data block. -/
theorem C28_stored_fields_modular (files : List FileEntry) :
    read_u32_le (serialize files) 8 = files.length % 2 ^ 32 ∧
    (∀ i (hi : i < files.length),
      entry_content_offset (serialize files) i = offset_of files i % 2 ^ 32 ∧
      entry_content_length (serialize files) i = files[i].contents.length % 2 ^ 32) ∧
    (files.length < 2 ^ 32 → total_data_size files < 2 ^ 32 →
      read_u32_le (serialize files) 8 = files.length ∧
      ∀ i (hi : i < files.length),
        entry_content_offset (serialize files) i = offset_of files i ∧
        entry_content_length (serialize files) i = files[i].contents.length ∧
        16 + 256 * files.length + entry_content_offset (serialize files) i
          + entry_content_length (serialize files) i ≤ (serialize files).length ∧
        slice (serialize files)
          (16 + 256 * files.length + entry_content_offset (serialize files) i)
          (entry_content_length (serialize files) i) = files[i].contents) := by
  refine ⟨serialize_count_field files, ?_, ?_⟩
  · intro i hi
    obtain ⟨_, h1, h2⟩ := serialize_stored_fields files i hi
    exact ⟨h1, h2⟩
  · intro hn ht
    refine ⟨by rw [serialize_count_field, Nat.mod_eq_of_lt hn], ?_⟩
    intro i hi
    have hb := offset_of_add_le files i hi
    exact serialize_exact_of_small files i hi (by omega) (by omega)

/-- C28 at a concrete input: two entries `a` / `b` with contents `[1, 2]` /
`[3]`; the second entry's stored range is offset 2, length 1, and addresses its
byte. -/
theorem C28_stored_fields_modular_witness :
    read_u32_le (serialize [⟨[97], [1, 2]⟩, ⟨[98], [3]⟩]) 8 = 2 ∧
    entry_content_offset (serialize [⟨[97], [1, 2]⟩, ⟨[98], [3]⟩]) 1 = 2 ∧
    entry_content_length (serialize [⟨[97], [1, 2]⟩, ⟨[98], [3]⟩]) 1 = 1 ∧
    slice (serialize [⟨[97], [1, 2]⟩, ⟨[98], [3]⟩])
      (16 + 256 * [(⟨[97], [1, 2]⟩ : FileEntry), ⟨[98], [3]⟩].length
        + entry_content_offset (serialize [⟨[97], [1, 2]⟩, ⟨[98], [3]⟩]) 1)
      (entry_content_length (serialize [⟨[97], [1, 2]⟩, ⟨[98], [3]⟩]) 1) = [3] :=
  have h := (C28_stored_fields_modular [⟨[97], [1, 2]⟩, ⟨[98], [3]⟩]).2.2
    (by decide) (by decide)
  ⟨h.1, (h.2 1 (by decide)).1, (h.2 1 (by decide)).2.1, (h.2 1 (by decide)).2.2.2⟩

end BrAr
